import Mathlib

/-!
# YUView: bitstream analysis dialog and parser base class

A shallow embedding of `src/source/parserBase.h` and
`src/source/bitstreamAnalysisDialog.cpp`.

* Machine integers are `Int`/`Nat`; the places where C++ converts between
  `int64_t` and `uint64_t` are written with explicit wrap-around.
* A `QMap<unsigned int, T>` is a finite partial function `Nat → Option T`; the
  key set is the set of indices mapped to `some _`.
* Member functions become functions on an explicit state record.
-/

namespace YUView

/-! ## Machine integers -/

/-- Two's-complement reduction of an integer to the range of `int64_t`. -/
def toInt64 (x : Int) : Int := (x + 9223372036854775808) % 18446744073709551616 - 9223372036854775808

/-- Conversion of an integer to `uint64_t` (reduction modulo `2^64`). -/
def toUInt64 (x : Int) : Nat := (x % 18446744073709551616).toNat

/-- The value is representable as an `int64_t`. -/
def isInt64 (x : Int) : Prop := -9223372036854775808 ≤ x ∧ x < 9223372036854775808

instance (x : Int) : Decidable (isInt64 x) := by unfold isInt64; infer_instance

/-! ## QMap -/

/-- A `QMap<unsigned int, V>`: `m k = none` when `k` is not a key of the map. -/
def QMap (V : Type) : Type := Nat → Option V

namespace QMap

variable {V : Type}

/-- The default-constructed (empty) map. -/
def empty : QMap V := fun _ => none

/-- Source: `QMap::contains`. -/
def contains (m : QMap V) (k : Nat) : Bool := (m k).isSome

/-- Source: `QMap::insert`: sets the value stored under `k`. -/
def insert (m : QMap V) (k : Nat) (v : V) : QMap V := fun j => if j = k then some v else m j

/-- Source: `QMap::value(key)`: the stored value, or a default-constructed one. The map is not changed. -/
def value (dflt : V) (m : QMap V) (k : Nat) : V := (m k).getD dflt

/-- Source: `T &QMap::operator[](key)` on a non-const map: when `k` is not a key, a
default-constructed value is inserted under `k` first. Returns the value
referred to and the map after the call. -/
def index (dflt : V) (m : QMap V) (k : Nat) : V × QMap V :=
  match m k with
  | some v => (v, m)
  | none => (dflt, m.insert k dflt)

end QMap

/-! ## parserBase -/

/-- The class `parserBase::segmentBitrate`: `int64_t startTime`, `int64_t endTime`, `uint64_t bytes`. -/
structure segmentBitrate where
  startTime : Int := 0
  endTime : Int := 0
  bytes : Nat := 0
deriving DecidableEq, Repr

/-- Source: `uint64_t getDuration() { return (endTime > startTime) ? endTime - startTime : 0; }`
The subtraction is an `int64_t` subtraction, its result is converted to `uint64_t`. -/
def segmentBitrate.getDuration (s : segmentBitrate) : Nat :=
  toUInt64 (if s.endTime > s.startTime then toInt64 (s.endTime - s.startTime) else 0)

/-- The concrete parser classes deriving from `parserBase` (the headers included by the dialog). -/
inductive ParserVariant where
  | parserAnnexBHEVC
  | parserAnnexBAVC
  | parserAnnexBMpeg2
  | parserAVFormat
deriving DecidableEq, Repr

/-- The operations of `parserCommon::PacketItemModel` that `parserBase.h` calls.
`parserCommon.h` and `parserBase.cpp` are not among the sources, so the packet
model is an arbitrary type `PM` and these operations are parameters. -/
structure PacketModelOps (PM : Type) where
  /-- Source: `PacketItemModel::setNewNumberModelItems(n)` -/
  setNewNumberModelItems : Nat → PM → PM
  /-- Source: `PacketItemModel::setUseColorCoding(colorCoding)` -/
  setUseColorCoding : Bool → PM → PM
  /-- the effect of `parserBase::enableModel()` on the packet model -/
  enableModel : PM → PM

/-- The members of `parserBase`. `variant` is the dynamic type of the object and
`nrStreams` the value its virtual `getNrStreams()` returns. -/
structure parserBase (PM : Type) where
  variant : ParserVariant
  packetModel : PM
  cancelBackgroundParser : Bool
  progressPercentValue : Int
  segmentBitrateListPerStream : QMap (List segmentBitrate)
  nrStreams : Nat

namespace parserBase

variable {PM : Type}

/-- A newly constructed parser: the default member initialisers of `parserBase.h`
(`cancelBackgroundParser {false}`, `progressPercentValue {0}`, an empty map). -/
def new (variant : ParserVariant) (pm : PM) (nrStreams : Nat) : parserBase PM :=
  { variant := variant, packetModel := pm, cancelBackgroundParser := false,
    progressPercentValue := 0, segmentBitrateListPerStream := QMap.empty, nrStreams := nrStreams }

/-- Source: `virtual unsigned int getNrStreams()` -/
def getNrStreams (p : parserBase PM) : Nat := p.nrStreams

/-- Source: `QList<segmentBitrate> getSegmentBitrateList(unsigned int streamIdx)
{ return segmentBitrateListPerStream[streamIdx]; }` The member function is not
`const`, so `operator[]` is the inserting one. Returns the list and the parser
after the call. -/
def getSegmentBitrateList (p : parserBase PM) (streamIdx : Nat) : List segmentBitrate × parserBase PM :=
  let r := QMap.index [] p.segmentBitrateListPerStream streamIdx
  (r.1, { p with segmentBitrateListPerStream := r.2 })

/-- Source: `int getParsingProgressPercent() { return progressPercentValue; }` -/
def getParsingProgressPercent (p : parserBase PM) : Int := p.progressPercentValue

/-- Source: `void setAbortParsing() { cancelBackgroundParser = true; }` -/
def setAbortParsing (p : parserBase PM) : parserBase PM := { p with cancelBackgroundParser := true }

/-- Source: `void setNewNumberModelItems(unsigned int n) { packetModel->setNewNumberModelItems(n); }` -/
def setNewNumberModelItems (ops : PacketModelOps PM) (n : Nat) (p : parserBase PM) : parserBase PM :=
  { p with packetModel := ops.setNewNumberModelItems n p.packetModel }

/-- Source: `void setStreamColorCoding(bool colorCoding) { packetModel->setUseColorCoding(colorCoding); }` -/
def setStreamColorCoding (ops : PacketModelOps PM) (colorCoding : Bool) (p : parserBase PM) : parserBase PM :=
  { p with packetModel := ops.setUseColorCoding colorCoding p.packetModel }

/-- Source: `void enableModel()` (defined in `parserBase.cpp`): acts on the packet model. -/
def enableModel (ops : PacketModelOps PM) (p : parserBase PM) : parserBase PM :=
  { p with packetModel := ops.enableModel p.packetModel }

/-- Source: `QAbstractItemModel *getPacketItemModel() { return packetModel.data(); }` -/
def getPacketItemModel (p : parserBase PM) : PM := p.packetModel

/-- Modelled from the spec: the only write to the segment lists, made by the
background `runParsingOfFile` of the concrete parser (not among the sources):
"appended only, one growing sequence per stream index". One segment is appended
to the list stored under `streamIdx`. -/
def appendSegment (streamIdx : Nat) (s : segmentBitrate) (p : parserBase PM) : parserBase PM :=
  let r := QMap.index [] p.segmentBitrateListPerStream streamIdx
  { p with segmentBitrateListPerStream := r.2.insert streamIdx (r.1 ++ [s]) }

/-- Modelled from the spec: `QAbstractItemModel *getFilteredPacketItemModel()`,
declared in `parserBase.h` and defined in `parserBase.cpp` (not among the
sources). It hands out the StreamFilterView, "a read-only, non-owning
projection over PacketModel": the members of the parser are unchanged. -/
def getFilteredPacketItemModel (p : parserBase PM) : parserBase PM := p

/-- Modelled from the spec: the pure virtual `getStreamInfo()`, implemented by
the concrete parsers (not among the sources): a "`streamInfo()` snapshot for a
stream-summary panel"; the members of `parserBase` are unchanged. -/
def getStreamInfo (p : parserBase PM) : parserBase PM := p

/-- The public operations of `parserBase` that can be called on a parser at any
time. The bodies of `enableModel`, `getFilteredPacketItemModel` and
`getStreamInfo` are not in `parserBase.h`; `getNrStreams` and
`getVideoStreamIndex` are the bodies of the base class (the getters leave the
parser as it is). -/
inductive Op where
  | getPacketItemModel
  | getFilteredPacketItemModel
  | setNewNumberModelItems (n : Nat)
  | enableModel
  | getNrStreams
  | getSegmentBitrateList (streamIdx : Nat)
  | getStreamInfo
  | getParsingProgressPercent
  | setAbortParsing
  | getVideoStreamIndex
  | setStreamColorCoding (colorCoding : Bool)
deriving DecidableEq, Repr

/-- The parser after one public operation. -/
def Op.apply (ops : PacketModelOps PM) : Op → parserBase PM → parserBase PM
  | .getPacketItemModel, p => p
  | .getFilteredPacketItemModel, p => p.getFilteredPacketItemModel
  | .setNewNumberModelItems n, p => p.setNewNumberModelItems ops n
  | .enableModel, p => p.enableModel ops
  | .getNrStreams, p => p
  | .getSegmentBitrateList k, p => (p.getSegmentBitrateList k).2
  | .getStreamInfo, p => p.getStreamInfo
  | .getParsingProgressPercent, p => p
  | .setAbortParsing, p => p.setAbortParsing
  | .getVideoStreamIndex, p => p
  | .setStreamColorCoding c, p => p.setStreamColorCoding ops c

/-- The parser after a sequence of public operations, first operation first. -/
def Op.applyAll (ops : PacketModelOps PM) (l : List Op) (p : parserBase PM) : parserBase PM :=
  l.foldl (fun q o => o.apply ops q) p

/-- Modelled from the spec: one unit (a NAL unit or a packet) that the
background `runParsingOfFile` reads: its size in bytes and the bitrate segment
it completes, if any, with the index of its stream. -/
structure ParsedUnit where
  size : Nat
  segment : Option (Nat × segmentBitrate)
deriving DecidableEq, Repr

/-- Modelled from the spec: a run of the pure virtual `runParsingOfFile(fileName)`
(implemented by the concrete parsers, not among the sources) on a parser: the
parser, the size of the file and the position of the byte cursor, which "reads
sequentially from the start of the file". -/
structure RunningParse (PM : Type) where
  parser : parserBase PM
  fileSize : Nat
  filePos : Nat

/-- Modelled from the spec: the entry of `runParsingOfFile`: the byte cursor is at
the start of the file of the given size. -/
def runParsingOfFile (fileSize : Nat) (p : parserBase PM) : RunningParse PM :=
  { parser := p, fileSize := fileSize, filePos := 0 }

/-- Modelled from the spec: what `runParsingOfFile` does for the next unit. It
"must re-check `cancelFlag` at each natural synchronization boundary" and reads
nothing more once the flag is set; else it reads the unit, appends the segment
the unit completes ("appended only, one growing sequence per stream index") and
sets the progress to the share of the file read so far, in percent
("`progressPercent() -> 0..100`"). -/
def RunningParse.parseUnit (u : ParsedUnit) (r : RunningParse PM) : RunningParse PM :=
  if r.parser.cancelBackgroundParser then r
  else
    let filePos := r.filePos + u.size
    let p := match u.segment with
      | none => r.parser
      | some ks => r.parser.appendSegment ks.1 ks.2
    { r with parser := { p with progressPercentValue := (min 100 (filePos * 100 / r.fileSize) : Nat) },
             filePos := filePos }

/-- What happens to a parser: a public operation is called on it, a new run of
`runParsingOfFile` is entered, or the running `runParsingOfFile` reads the next
unit. -/
inductive ParseEvent where
  | op (o : Op)
  | runParsingOfFile (fileSize : Nat)
  | unit (u : ParsedUnit)
deriving DecidableEq, Repr

/-- The run after one event. -/
def ParseEvent.apply (ops : PacketModelOps PM) : ParseEvent → RunningParse PM → RunningParse PM
  | .op o, r => { r with parser := o.apply ops r.parser }
  | .runParsingOfFile fileSize, r => parserBase.runParsingOfFile fileSize r.parser
  | .unit u, r => r.parseUnit u

/-- The run after a sequence of events, first event first. -/
def ParseEvent.applyAll (ops : PacketModelOps PM) (l : List ParseEvent) (r : RunningParse PM) :
    RunningParse PM :=
  l.foldl (fun q e => e.apply ops q) r

/-- The events of one parse: a public operation that is not `runParsingOfFile`,
or the next unit of the running parse. -/
def ParseEvent.ofStep : Op ⊕ ParsedUnit → ParseEvent
  | .inl o => .op o
  | .inr u => .unit u

end parserBase

/-! ## bitstreamAnalysisDialog -/

/-- Modelled from the spec: the `enum inputFormat` (declared in `typedef.h`, not
among the sources). The constructor names `inputInvalid`, `inputAnnexBHEVC`,
`inputAnnexBAVC` and `inputLibavformat`; the spec lists the supported variants
as "AnnexB-HEVC, AnnexB-AVC, AnnexB-MPEG2, Container-Demux", which adds
`inputAnnexBMpeg2`. -/
inductive inputFormat where
  | inputInvalid
  | inputAnnexBHEVC
  | inputAnnexBAVC
  | inputAnnexBMpeg2
  | inputLibavformat
deriving DecidableEq, Repr

/-- The parser class that parses the given format; `inputInvalid` has none. -/
def inputFormat.matchingParser : inputFormat → Option ParserVariant
  | .inputInvalid => none
  | .inputAnnexBHEVC => some .parserAnnexBHEVC
  | .inputAnnexBAVC => some .parserAnnexBAVC
  | .inputAnnexBMpeg2 => some .parserAnnexBMpeg2
  | .inputLibavformat => some .parserAVFormat

/-- The messages the dialog shows in its status bar. -/
inductive StatusMessage where
  /-- a new `QStatusBar`, nothing shown yet -/
  | noMessage
  /-- the text `"Parsing file ..."` -/
  | parsingFile
  /-- the text `QString("Parsing file (%1%)").arg(percent)` -/
  | parsingFilePercent (percent : Int)
  /-- the text `"Parsing done."` -/
  | parsingDone
deriving DecidableEq, Repr

/-- The text of a status message. -/
def StatusMessage.text : StatusMessage → String
  | .noMessage => ""
  | .parsingFile => "Parsing file ..."
  | .parsingFilePercent p => "Parsing file (" ++ toString p ++ "%)"
  | .parsingDone => "Parsing done."

/-- Which model of the parser `ui.dataTreeView` shows. -/
inductive TreeViewModel where
  | packetItemModel
  | filteredPacketItemModel
deriving DecidableEq, Repr

/-- A point appended to a `QLineSeries`: the two arguments of
`lineSeries->append(x, y)` as the dialog passes them (an `int64_t` time and a
`uint64_t` byte count), before their conversion to `qreal`. -/
abbrev Point : Type := Int × Nat

/-- What the concrete parser classes and `parserBase.cpp` (not among the
sources) contribute: the packet model operations, the packet model of a newly
constructed parser and the stream count each parser reports. -/
structure Externals (PM : Type) extends PacketModelOps PM where
  /-- the packet model created by the constructor of `parserBase` -/
  newPacketModel : PM
  /-- the value of the virtual `getNrStreams()` of a parser of the given class -/
  nrStreamsOf : ParserVariant → Nat

/-- A sample environment: a one-point packet model, every parser reporting one stream. -/
def unitExternals : Externals Unit :=
  { setNewNumberModelItems := fun _ _ => (), setUseColorCoding := fun _ _ => (),
    enableModel := fun _ => (), newPacketModel := (), nrStreamsOf := fun _ => 1 }

/-- Modelled from the spec: the members of `bitstreamAnalysisDialog`, declared in
`bitstreamAnalysisDialog.h` (not among the sources); their types follow the
uses in `bitstreamAnalysisDialog.cpp` ("the consumer is expected to track
`addedSegmentsPerStream` itself and union-extend the running min/max time and
max byte-count for axis scaling"). `series` is `chart()->series()`: `some pts`
is a `QLineSeries` holding the points `pts`, `none` a series of another class.
`chartAxisX`/`chartAxisY` are the ranges last set on the axes of the chart,
`backgroundParsesStarted` counts the `QtConcurrent::run` calls. -/
structure bitstreamAnalysisDialog (PM : Type) where
  parser : Option (parserBase PM)
  statusBar : StatusMessage
  dataTreeView : Option TreeViewModel
  compressedFilePath : String
  backgroundParsesStarted : Nat
  showVideoStreamOnly : Bool
  series : List (Option (List Point))
  chartAxisX : Option (Int × Int)
  chartAxisY : Option (Int × Int)
  addedSegmentsPerStream : QMap Nat
  rangeAxisX : Int × Int
  rangeAxisY : Int × Int
  axisRangeInitialized : Bool

namespace bitstreamAnalysisDialog

variable {PM : Type}

/-- Modelled from the spec: the dialog members before the constructor body runs
(the default member initialisers are in `bitstreamAnalysisDialog.h`, not among
the sources): no parser, nothing plotted, the axis range not initialised. -/
def initialMembers : bitstreamAnalysisDialog PM :=
  { parser := none, statusBar := .noMessage, dataTreeView := none, compressedFilePath := "",
    backgroundParsesStarted := 0, showVideoStreamOnly := false, series := [],
    chartAxisX := none, chartAxisY := none, addedSegmentsPerStream := QMap.empty,
    rangeAxisX := (0, 0), rangeAxisY := (0, 0), axisRangeInitialized := false }

/-- Source: `void updateStreamInfo()`: reads `parser->getStreamInfo()` into the stream
info tree (which is not part of the state). `none`: `parser` is null. -/
def updateStreamInfo (d : bitstreamAnalysisDialog PM) : Option (bitstreamAnalysisDialog PM) :=
  match d.parser with
  | none => none
  | some _ => some d

/-- The parser reset by the `if`/`else if` chain of the constructor. -/
def setupParser (env : Externals PM) (inputFormatType : inputFormat) : Option (parserBase PM) :=
  if inputFormatType = .inputAnnexBHEVC then
    some (parserBase.new .parserAnnexBHEVC env.newPacketModel (env.nrStreamsOf .parserAnnexBHEVC))
  else if inputFormatType = .inputAnnexBAVC then
    some (parserBase.new .parserAnnexBAVC env.newPacketModel (env.nrStreamsOf .parserAnnexBAVC))
  else if inputFormatType = .inputLibavformat then
    some (parserBase.new .parserAVFormat env.newPacketModel (env.nrStreamsOf .parserAVFormat))
  else
    none

/-- The constructor `bitstreamAnalysisDialog(parent, fileName, inputFormatType)`.
`none`: a member of a null `parser` is called. -/
def new (env : Externals PM) (fileName : String) (inputFormatType : inputFormat) :
    Option (bitstreamAnalysisDialog PM) :=
  let d : bitstreamAnalysisDialog PM := initialMembers
  if inputFormatType = .inputInvalid then
    some d
  else
    -- Setup the parser
    let d := { d with parser := setupParser env inputFormatType }
    -- parser->enableModel();
    match d.parser with
    | none => none
    | some p =>
      let d := { d with parser := some (p.enableModel env.toPacketModelOps) }
      -- ui.dataTreeView->setModel(parser->getPacketItemModel());
      match d.parser with
      | none => none
      | some _ =>
        let d := { d with dataTreeView := some .packetItemModel }
        let d := { d with compressedFilePath := fileName }
        -- Start the background parsing thread
        let d := { d with statusBar := .parsingFile }
        let d := { d with backgroundParsesStarted := d.backgroundParsesStarted + 1 }
        updateStreamInfo d

/-- The constructor again, keeping the members at the point where it stops:
`.ok d` when it returns, `.error d` when a member of a null `parser` is called,
`d` being the members at that point. -/
def construct (env : Externals PM) (fileName : String) (inputFormatType : inputFormat) :
    Except (bitstreamAnalysisDialog PM) (bitstreamAnalysisDialog PM) :=
  let d : bitstreamAnalysisDialog PM := initialMembers
  if inputFormatType = .inputInvalid then
    .ok d
  else
    -- Setup the parser
    let d := { d with parser := setupParser env inputFormatType }
    -- parser->enableModel();
    match d.parser with
    | none => .error d
    | some p =>
      let d := { d with parser := some (p.enableModel env.toPacketModelOps) }
      -- ui.dataTreeView->setModel(parser->getPacketItemModel());
      let d := { d with dataTreeView := some .packetItemModel }
      let d := { d with compressedFilePath := fileName }
      -- Start the background parsing thread
      let d := { d with statusBar := .parsingFile }
      let d := { d with backgroundParsesStarted := d.backgroundParsesStarted + 1 }
      match updateStreamInfo d with
      | none => .error d
      | some d => .ok d

/-- Source: `void updateParserItemModel(unsigned int newNumberItems)` -/
def updateParserItemModel (env : Externals PM) (newNumberItems : Nat) (d : bitstreamAnalysisDialog PM) :
    Option (bitstreamAnalysisDialog PM) :=
  match d.parser with
  | none => none
  | some p =>
    let p := p.setNewNumberModelItems env.toPacketModelOps newNumberItems
    some { d with parser := some p, statusBar := .parsingFilePercent p.getParsingProgressPercent }

/-- The call `lineSeries->append(..)` on the series at position `streamIdx`. -/
def appendToSeries (series : List (Option (List Point))) (streamIdx : Nat) (pts : List Point) :
    List (Option (List Point)) :=
  match series[streamIdx]? with
  | some (some old) => series.set streamIdx (some (old ++ pts))
  | _ => series

/-- The body of the inner loop of `updateBitrateDisplay` for the segment `s` of
stream `streamIdx`. -/
def plotSegment (streamIdx : Nat) (d : bitstreamAnalysisDialog PM) (s : segmentBitrate) :
    bitstreamAnalysisDialog PM :=
  -- Append a line from start to end
  let series := appendToSeries d.series streamIdx [(s.startTime, s.bytes), (s.endTime, s.bytes)]
  -- if (!axisRangeInitialized) { rangeAxisX.first = ..; rangeAxisX.second = ..; rangeAxisY.second = ..; }
  let rangeAxisX := if d.axisRangeInitialized = false then (s.startTime, s.endTime) else d.rangeAxisX
  let rangeAxisY := if d.axisRangeInitialized = false then (d.rangeAxisY.1, toInt64 s.bytes) else d.rangeAxisY
  -- if (s.startTime < rangeAxisX.first) rangeAxisX.first = s.startTime;
  let rangeAxisX := if s.startTime < rangeAxisX.1 then (s.startTime, rangeAxisX.2) else rangeAxisX
  -- if (s.endTime > rangeAxisX.second) rangeAxisX.second = s.endTime;
  let rangeAxisX := if s.endTime > rangeAxisX.2 then (rangeAxisX.1, s.endTime) else rangeAxisX
  -- if ((qint64)s.bytes > rangeAxisY.second) rangeAxisY.second = s.bytes;
  let rangeAxisY := if toInt64 s.bytes > rangeAxisY.2 then (rangeAxisY.1, toInt64 s.bytes) else rangeAxisY
  -- addedSegmentsPerStream[streamIdx]++;
  let r := QMap.index 0 d.addedSegmentsPerStream streamIdx
  { d with series := series, rangeAxisX := rangeAxisX, rangeAxisY := rangeAxisY,
           axisRangeInitialized := true,
           addedSegmentsPerStream := r.2.insert streamIdx (r.1 + 1) }

/-- The body of the outer loop of `updateBitrateDisplay` for one `streamIdx`.
`none`: `seriesList[streamIdx]` is out of range or `parser` is null;
`some (false, d)`: the function returned at `if (!lineSeries) return;`;
`some (true, d)`: the loop goes on. -/
def streamBody (streamIdx : Nat) (d : bitstreamAnalysisDialog PM) :
    Option (Bool × bitstreamAnalysisDialog PM) :=
  match d.series[streamIdx]? with
  | none => none
  | some none => some (false, d)
  | some (some _) =>
    match d.parser with
    | none => none
    | some p =>
      let r := p.getSegmentBitrateList streamIdx
      let d := { d with parser := some r.2 }
      -- for (int i=addedSegmentsPerStream[streamIdx]; i<segmentBitrateList.count(); i++)
      let a := QMap.index 0 d.addedSegmentsPerStream streamIdx
      let d := { d with addedSegmentsPerStream := a.2 }
      some (true, (r.1.drop a.1).foldl (plotSegment streamIdx) d)

/-- The outer loop of `updateBitrateDisplay` over the given stream indices. -/
def streamLoop : List Nat → bitstreamAnalysisDialog PM → Option (Bool × bitstreamAnalysisDialog PM)
  | [], d => some (true, d)
  | streamIdx :: rest, d =>
    match streamBody streamIdx d with
    | none => none
    | some (false, d) => some (false, d)
    | some (true, d) => streamLoop rest d

/-- The two `setRange` calls at the end of `updateBitrateDisplay`:
`chart()->axisX()->setRange(rangeAxisX.first, rangeAxisX.second)` and the same for Y. -/
def setAxisRanges (d : bitstreamAnalysisDialog PM) : bitstreamAnalysisDialog PM :=
  { d with chartAxisX := some d.rangeAxisX, chartAxisY := some d.rangeAxisY }

/-- Source: `void updateBitrateDisplay()`. `none`: a null `parser` or an index out of
range is used. -/
def updateBitrateDisplay (d : bitstreamAnalysisDialog PM) : Option (bitstreamAnalysisDialog PM) :=
  match d.parser with
  | none => none
  | some p =>
    if p.getNrStreams = 0 then
      some d
    else
      -- Add one plot per stream
      let d := if d.series.length = 0 then
          { d with series := List.replicate p.getNrStreams (some []) }
        else d
      match streamLoop (List.range p.getNrStreams) d with
      | none => none
      | some (false, d) => some d
      | some (true, d) => some (setAxisRanges d)

/-- Source: `void backgroundParsingDone()` -/
def backgroundParsingDone (d : bitstreamAnalysisDialog PM) : bitstreamAnalysisDialog PM :=
  { d with statusBar := .parsingDone }

/-- The signals of `parserBase` that the constructor connects to slots of the dialog. -/
inductive Signal where
  | nalModelUpdated (newNumberItems : Nat)
  | segmentBitrateListUpdated
  | streamInfoUpdated
  | backgroundParsingDone
deriving DecidableEq, Repr

/-- The slot connected to the signal, run on the dialog. -/
def deliver (env : Externals PM) : Signal → bitstreamAnalysisDialog PM → Option (bitstreamAnalysisDialog PM)
  | .nalModelUpdated n, d => d.updateParserItemModel env n
  | .segmentBitrateListUpdated, d => d.updateBitrateDisplay
  | .streamInfoUpdated, d => d.updateStreamInfo
  | .backgroundParsingDone, d => some d.backgroundParsingDone

/-- The slots of a sequence of signals, run in order. -/
def deliverAll (env : Externals PM) : List Signal → bitstreamAnalysisDialog PM → Option (bitstreamAnalysisDialog PM)
  | [], d => some d
  | sig :: rest, d =>
    match deliver env sig d with
    | none => none
    | some d => deliverAll env rest d

/-- What one run of `runParsingOfFile` (pure virtual in `parserBase`) hands to
the dialog: the signals it emits, in order, and its `bool` result. -/
structure ParseRun where
  signals : List Signal
  result : Bool
deriving DecidableEq, Repr

/-- Source: `void backgroundParsingFunction() { parser->runParsingOfFile(compressedFilePath); }`
The `bool` that `runParsingOfFile` returns is discarded. -/
def backgroundParsingFunction (_result : Bool) (d : bitstreamAnalysisDialog PM) : bitstreamAnalysisDialog PM :=
  d

/-- The status bar after the background parse `run` has ended and all its
signals were delivered to the dialog `d`. -/
def finalStatus (env : Externals PM) (run : ParseRun) (d : bitstreamAnalysisDialog PM) : Option StatusMessage :=
  (deliverAll env run.signals (backgroundParsingFunction run.result d)).map (fun d => d.statusBar)

/-- What happens to a dialog whose background parse is running: the worker
appends a segment to a stream, or `updateBitrateDisplay` is called. -/
inductive Event where
  | workerAppend (streamIdx : Nat) (s : segmentBitrate)
  | updateBitrateDisplay
deriving DecidableEq, Repr

/-- The dialog after one event. -/
def Event.apply : Event → bitstreamAnalysisDialog PM → Option (bitstreamAnalysisDialog PM)
  | .workerAppend k s, d => some { d with parser := d.parser.map (parserBase.appendSegment k s) }
  | .updateBitrateDisplay, d => d.updateBitrateDisplay

/-- The dialog after a sequence of events, first event first. -/
def runEvents : List Event → bitstreamAnalysisDialog PM → Option (bitstreamAnalysisDialog PM)
  | [], d => some d
  | e :: rest, d =>
    match e.apply d with
    | none => none
    | some d => runEvents rest d

/-- The segments of stream `streamIdx` the parser of the dialog holds. -/
def segmentsOf (d : bitstreamAnalysisDialog PM) (streamIdx : Nat) : List segmentBitrate :=
  match d.parser with
  | none => []
  | some p => QMap.value [] p.segmentBitrateListPerStream streamIdx

/-- The number of plotted segments of stream `streamIdx`: the value stored
in `addedSegmentsPerStream` (0 when there is no entry). -/
def addedSegments (d : bitstreamAnalysisDialog PM) (streamIdx : Nat) : Nat :=
  QMap.value 0 d.addedSegmentsPerStream streamIdx

/-- The points the series of stream `streamIdx` holds (none when the chart
has no such line series). -/
def seriesPoints (d : bitstreamAnalysisDialog PM) (streamIdx : Nat) : List Point :=
  match d.series[streamIdx]? with
  | some (some pts) => pts
  | _ => []

/-- The points of the lines of a list of segments: `(startTime, bytes)`,
`(endTime, bytes)` for each segment, in list order. -/
def linePoints : List segmentBitrate → List Point
  | [] => []
  | s :: rest => (s.startTime, s.bytes) :: (s.endTime, s.bytes) :: linePoints rest

/-- The stream count the parser of the dialog reports (0 without a parser). -/
def nrStreams (d : bitstreamAnalysisDialog PM) : Nat :=
  match d.parser with
  | none => 0
  | some p => p.getNrStreams

/-- The segment `s` of stream `streamIdx` has been plotted. -/
def Plotted (d : bitstreamAnalysisDialog PM) (s : segmentBitrate) : Prop :=
  ∃ k, k < nrStreams d ∧ s ∈ (segmentsOf d k).take (addedSegments d k)

/-- The range members are the minimum start time, the maximum end time and
the maximum byte count over the segments satisfying `Q`. -/
def RangeOK (d : bitstreamAnalysisDialog PM) (Q : segmentBitrate → Prop) : Prop :=
  (∀ s, Q s → d.rangeAxisX.1 ≤ s.startTime ∧ s.endTime ≤ d.rangeAxisX.2 ∧ (s.bytes : Int) ≤ d.rangeAxisY.2) ∧
  (∃ s, Q s ∧ d.rangeAxisX.1 = s.startTime) ∧
  (∃ s, Q s ∧ d.rangeAxisX.2 = s.endTime) ∧
  (∃ s, Q s ∧ d.rangeAxisY.2 = (s.bytes : Int))

/-- Either nothing satisfying `Q` was plotted and the range is not initialised,
or the range is initialised and is the minimum/maximum over `Q`. -/
def RangeInv (d : bitstreamAnalysisDialog PM) (Q : segmentBitrate → Prop) : Prop :=
  (d.axisRangeInitialized = false ∧ ∀ s, ¬ Q s) ∨ (d.axisRangeInitialized = true ∧ RangeOK d Q)

/-- The X range of `d₂` contains that of `d₁` and the Y maximum of `d₂` is not smaller. -/
def Widens (d₁ d₂ : bitstreamAnalysisDialog PM) : Prop :=
  d₂.rangeAxisX.1 ≤ d₁.rangeAxisX.1 ∧ d₁.rangeAxisX.2 ≤ d₂.rangeAxisX.2 ∧ d₁.rangeAxisY.2 ≤ d₂.rangeAxisY.2

/-- Every series is a line series and holds the lines of the plotted segments
of its stream. -/
def PlotInv (d : bitstreamAnalysisDialog PM) : Prop :=
  d.series.length = nrStreams d ∧
  ∀ k, k < nrStreams d →
    d.series[k]? = some (some (linePoints ((segmentsOf d k).take (addedSegments d k))))

/-- No stream has more plotted segments than its list holds. -/
def CountInv (d : bitstreamAnalysisDialog PM) : Prop :=
  ∀ k, addedSegments d k ≤ (segmentsOf d k).length

/-- No call of `updateBitrateDisplay` has had an effect yet. -/
def Unplotted (d : bitstreamAnalysisDialog PM) : Prop :=
  d.series = [] ∧ d.addedSegmentsPerStream = QMap.empty ∧ d.axisRangeInitialized = false

/-- Both maps have an entry for the stream `k`. -/
def HasKeys (d : bitstreamAnalysisDialog PM) (k : Nat) : Prop :=
  d.addedSegmentsPerStream k ≠ none ∧ ∀ p, d.parser = some p → p.segmentBitrateListPerStream k ≠ none

/-- The state left by a completed call of `updateBitrateDisplay`: the maps have
an entry for every stream and the ranges were set on the axes of the chart. -/
def Settled (d : bitstreamAnalysisDialog PM) : Prop :=
  (∀ k, k < nrStreams d → HasKeys d k) ∧
  d.chartAxisX = some d.rangeAxisX ∧ d.chartAxisY = some d.rangeAxisY

/-- Every segment of every stream `0 .. nrStreams-1` has been plotted: a call of
`updateBitrateDisplay` finds no new segment. -/
def NoNew (d : bitstreamAnalysisDialog PM) : Prop :=
  ∀ k, k < nrStreams d → addedSegments d k = (segmentsOf d k).length

/-- The dialog `d₂` shows the same plot as `d₁`: the same series, counters,
ranges and segment lists. -/
def SamePlot (d₁ d₂ : bitstreamAnalysisDialog PM) : Prop :=
  d₂.series = d₁.series ∧ (∀ j, addedSegments d₂ j = addedSegments d₁ j) ∧
  d₂.rangeAxisX = d₁.rangeAxisX ∧ d₂.rangeAxisY = d₁.rangeAxisY ∧
  d₂.axisRangeInitialized = d₁.axisRangeInitialized ∧
  d₂.chartAxisX = d₁.chartAxisX ∧ d₂.chartAxisY = d₁.chartAxisY ∧
  nrStreams d₂ = nrStreams d₁ ∧ (∀ j, segmentsOf d₂ j = segmentsOf d₁ j) ∧
  (∀ j, HasKeys d₁ j → HasKeys d₂ j)

/-- The dialog at the start of the inner loop for stream `k`: both
`operator[]` calls have been made. -/
def streamBodyStart (k : Nat) (p : parserBase PM) (d : bitstreamAnalysisDialog PM) :
    bitstreamAnalysisDialog PM :=
  { d with parser := some (p.getSegmentBitrateList k).2,
           addedSegmentsPerStream := (QMap.index 0 d.addedSegmentsPerStream k).2 }

/-- All byte counts the parser holds are below `2^63`. -/
def BytesOK (d : bitstreamAnalysisDialog PM) : Prop :=
  ∀ k s, s ∈ segmentsOf d k → s.bytes < 9223372036854775808

/-- Every segment the worker appends in these events has a byte count below `2^63`. -/
def EventsBytesOK (evs : List Event) : Prop :=
  ∀ k s, Event.workerAppend k s ∈ evs → s.bytes < 9223372036854775808

/-- The invariant of a dialog whose parse is running: it has a parser and the
plot is either untouched or consistent with the parser lists. -/
def Inv (d : bitstreamAnalysisDialog PM) : Prop :=
  (∃ p, d.parser = some p) ∧ (Unplotted d ∨ PlotInv d) ∧ CountInv d

/-- The range invariant: all byte counts are below `2^63` and the ranges are
the minimum/maximum over the plotted segments. -/
def RangeState (d : bitstreamAnalysisDialog PM) : Prop :=
  BytesOK d ∧ RangeInv d (Plotted d)

/-- A call of `updateBitrateDisplay` has completed on this dialog (or the
parser has no stream, in which case the calls do nothing). -/
def Updated (d : bitstreamAnalysisDialog PM) : Prop :=
  nrStreams d = 0 ∨ (Settled d ∧ PlotInv d)

/-- A sample dialog: the one the constructor builds for an HEVC file in the
sample environment. -/
def sampleDialog : bitstreamAnalysisDialog Unit :=
  { parser := some (parserBase.new .parserAnnexBHEVC () 1), statusBar := .parsingFile,
    dataTreeView := some .packetItemModel, compressedFilePath := "a.hevc",
    backgroundParsesStarted := 1, showVideoStreamOnly := false, series := [],
    chartAxisX := none, chartAxisY := none, addedSegmentsPerStream := QMap.empty,
    rangeAxisX := (0, 0), rangeAxisY := (0, 0), axisRangeInitialized := false }

/-- Sample events: a segment for stream 0, a call, another segment, a call. -/
def sampleEvents : List Event :=
  [.workerAppend 0 ⟨5, 10, 100⟩, .updateBitrateDisplay, .workerAppend 0 ⟨1, 7, 300⟩, .updateBitrateDisplay]

/-- The sample dialog after the sample events. -/
def sampleAfter : bitstreamAnalysisDialog Unit :=
  (runEvents sampleEvents sampleDialog).getD sampleDialog

/-- What the loop of `updateBitrateDisplay` does between a dialog `d₁` holding
a consistent plot and a later dialog `d₂`: the parser lists and the stream count
are the same, counters only grow, map entries stay, the plot stays consistent
and the ranges follow the plotted segments. -/
structure Step (d₁ d₂ : bitstreamAnalysisDialog PM) : Prop where
  parser : ∃ p, d₂.parser = some p
  nr : nrStreams d₂ = nrStreams d₁
  segs : ∀ j, segmentsOf d₂ j = segmentsOf d₁ j
  mono : ∀ j, addedSegments d₁ j ≤ addedSegments d₂ j
  keys : ∀ j, HasKeys d₁ j → HasKeys d₂ j
  plot : PlotInv d₂
  count : CountInv d₂
  axisX : d₂.chartAxisX = d₁.chartAxisX
  axisY : d₂.chartAxisY = d₁.chartAxisY
  range : BytesOK d₁ → RangeInv d₁ (Plotted d₁) → RangeInv d₂ (Plotted d₂)
  widens : d₁.axisRangeInitialized = true → Widens d₁ d₂ ∧ d₂.axisRangeInitialized = true
  quiet : NoNew d₁ → SamePlot d₁ d₂
  fixed : NoNew d₁ → (∀ k, k < nrStreams d₁ → HasKeys d₁ k) → d₂ = d₁

/-- The dialog `d₂` shows what `d₁` shows: the same points in the series of
every stream, the same counters and the same ranges. -/
def SameView (d₁ d₂ : bitstreamAnalysisDialog PM) : Prop :=
  (∀ k, seriesPoints d₂ k = seriesPoints d₁ k) ∧ (∀ k, addedSegments d₂ k = addedSegments d₁ k) ∧
  d₂.rangeAxisX = d₁.rangeAxisX ∧ d₂.rangeAxisY = d₁.rangeAxisY ∧
  d₂.axisRangeInitialized = d₁.axisRangeInitialized

/-- What one call of `updateBitrateDisplay` does between the dialog `d₁` before
and the dialog `d₂` after the call. -/
structure Call (d₁ d₂ : bitstreamAnalysisDialog PM) : Prop where
  parser : ∃ p, d₂.parser = some p
  nr : nrStreams d₂ = nrStreams d₁
  segs : ∀ j, segmentsOf d₂ j = segmentsOf d₁ j
  inv : Unplotted d₂ ∨ PlotInv d₂
  count : CountInv d₂
  range : BytesOK d₁ → RangeInv d₁ (Plotted d₁) → RangeInv d₂ (Plotted d₂)
  widens : d₁.axisRangeInitialized = true → Widens d₁ d₂ ∧ d₂.axisRangeInitialized = true
  synced : 0 < nrStreams d₁ → PlotInv d₂ ∧ NoNew d₂ ∧ Settled d₂
  quiet : NoNew d₁ → SameView d₁ d₂
  fixed : NoNew d₁ → Settled d₁ → PlotInv d₁ → d₂ = d₁

end bitstreamAnalysisDialog

/-! ## bitstreamAnalysisDialog: the check box and the dialog operations -/

namespace bitstreamAnalysisDialog

variable {PM : Type}

/-- Source: `void showVideoStreamOnlyCheckBoxToggled(bool state)`. The two getters
`getFilteredPacketItemModel()` (defined in `parserBase.cpp`, not among the
sources) and `getPacketItemModel()` are calls on `parser`; what they return is
recorded as the kind of model the tree view shows. `none`: `parser` is null. -/
def showVideoStreamOnlyCheckBoxToggled (state : Bool) (d : bitstreamAnalysisDialog PM) :
    Option (bitstreamAnalysisDialog PM) :=
  if d.showVideoStreamOnly ≠ state then
    let d := { d with showVideoStreamOnly := state }
    if d.showVideoStreamOnly then
      match d.parser with
      | none => none
      | some _ => some { d with dataTreeView := some .filteredPacketItemModel }
    else
      match d.parser with
      | none => none
      | some _ => some { d with dataTreeView := some .packetItemModel }
  else
    some d

/-- A sequence of `showVideoStreamOnlyCheckBoxToggled` calls, first call first. -/
def toggleAll : List Bool → bitstreamAnalysisDialog PM → Option (bitstreamAnalysisDialog PM)
  | [], d => some d
  | state :: rest, d =>
    match showVideoStreamOnlyCheckBoxToggled state d with
    | none => none
    | some d => toggleAll rest d

/-- The model the tree view has to show for the current `showVideoStreamOnly`. -/
def expectedTreeViewModel (d : bitstreamAnalysisDialog PM) : TreeViewModel :=
  if d.showVideoStreamOnly then .filteredPacketItemModel else .packetItemModel

/-- Modelled from the spec: the slot `colorCodeStreamsCheckBoxToggled(bool)`, which
the constructor connects to the colour check box and which is defined in
`bitstreamAnalysisDialog.h` (not among the sources). The spec gives the
consumer no way to start a parse but the start of the session; the slot is
taken to pass the state on to `parser->setStreamColorCoding`, the colour
coding operation of `parserBase.h`. `none`: `parser` is null. -/
def colorCodeStreamsCheckBoxToggled (env : Externals PM) (state : Bool)
    (d : bitstreamAnalysisDialog PM) : Option (bitstreamAnalysisDialog PM) :=
  match d.parser with
  | none => none
  | some p => some { d with parser := some (p.setStreamColorCoding env.toPacketModelOps state) }

/-- What can happen to a dialog after its construction: the slots of the
dialog, the end of `backgroundParsingFunction` with the result of
`runParsingOfFile`, and an append of the worker to a segment list. -/
inductive DialogOp where
  | updateParserItemModel (newNumberItems : Nat)
  | updateBitrateDisplay
  | updateStreamInfo
  | backgroundParsingDone
  | showVideoStreamOnlyCheckBoxToggled (state : Bool)
  | colorCodeStreamsCheckBoxToggled (state : Bool)
  | backgroundParsingFunction (result : Bool)
  | workerAppend (streamIdx : Nat) (s : segmentBitrate)
deriving DecidableEq, Repr

/-- The dialog after one operation. -/
def DialogOp.apply (env : Externals PM) : DialogOp → bitstreamAnalysisDialog PM →
    Option (bitstreamAnalysisDialog PM)
  | .updateParserItemModel n, d => d.updateParserItemModel env n
  | .updateBitrateDisplay, d => d.updateBitrateDisplay
  | .updateStreamInfo, d => d.updateStreamInfo
  | .backgroundParsingDone, d => some d.backgroundParsingDone
  | .showVideoStreamOnlyCheckBoxToggled state, d => d.showVideoStreamOnlyCheckBoxToggled state
  | .colorCodeStreamsCheckBoxToggled state, d => d.colorCodeStreamsCheckBoxToggled env state
  | .backgroundParsingFunction result, d => some (bitstreamAnalysisDialog.backgroundParsingFunction result d)
  | .workerAppend k s, d => (Event.workerAppend k s).apply d

/-- The dialog after a sequence of operations, first operation first. -/
def runOps (env : Externals PM) : List DialogOp → bitstreamAnalysisDialog PM →
    Option (bitstreamAnalysisDialog PM)
  | [], d => some d
  | op :: rest, d =>
    match op.apply env d with
    | none => none
    | some d => runOps env rest d

/-- The state of the `QFuture` member `backgroundParserFuture`. `QFuture` is a
class of Qt: `isRunning()` is true from `QtConcurrent::run` until the function
that was run has returned, and `waitForFinished()` returns when it has.
`notStarted`: the default-constructed future; `running`: the worker thread is
in `backgroundParsingFunction`, with the units `runParsingOfFile` has still to
read, the file size and the position of its byte cursor; `finished`: the
function has returned. -/
inductive FutureState where
  | notStarted
  | running (pending : List parserBase.ParsedUnit) (fileSize filePos : Nat)
  | finished
deriving DecidableEq, Repr

/-- Source: `QFuture::isRunning()`. -/
def FutureState.isRunning : FutureState → Bool
  | .running _ _ _ => true
  | _ => false

/-- What the dialog thread and the worker thread do while the dialog is destroyed. -/
inductive TeardownAction where
  /-- the destructor calls `parser->setAbortParsing()` -/
  | setAbortParsing
  /-- `backgroundParserFuture.waitForFinished()` returns -/
  | waitForFinished
  /-- the worker reads a unit and writes to the parser -/
  | workerReadsUnit
  /-- the worker returns from `backgroundParsingFunction` -/
  | workerReturns
  /-- the members are destroyed: `parser` releases the parser and its packet model -/
  | releaseParser
deriving DecidableEq, Repr

/-- A dialog with its future and the actions of the two threads so far, first
action first. -/
structure Teardown (PM : Type) where
  dialog : bitstreamAnalysisDialog PM
  future : FutureState
  trace : List TeardownAction

namespace Teardown

/-- One step of the worker thread in `backgroundParsingFunction`: it reads the
next unit (`RunningParse.parseUnit`), or returns when the cancel flag is set or
no unit is left. Without a running worker nothing happens. -/
def workerStep (s : Teardown PM) : Teardown PM :=
  match s.future, s.dialog.parser with
  | .running (u :: rest) fileSize filePos, some p =>
    if p.cancelBackgroundParser then
      { s with future := .finished, trace := s.trace ++ [.workerReturns] }
    else
      let r := (parserBase.RunningParse.mk p fileSize filePos).parseUnit u
      { dialog := { s.dialog with parser := some r.parser },
        future := .running rest fileSize r.filePos,
        trace := s.trace ++ [.workerReadsUnit] }
  | .running [] _ _, some _ => { s with future := .finished, trace := s.trace ++ [.workerReturns] }
  | _, _ => s

/-- The number of units the worker has still to read. -/
def pending (s : Teardown PM) : Nat :=
  match s.future with
  | .running units _ _ => units.length
  | _ => 0

/-- Source: `backgroundParserFuture.waitForFinished()`: the dialog thread blocks
while the worker runs on to its return. `none`: the worker never returns. -/
def waitForFinished (s : Teardown PM) : Option (Teardown PM) :=
  let s' := workerStep^[s.pending + 1] s
  if s'.future.isRunning then none
  else some { s' with trace := s'.trace ++ [.waitForFinished] }

/-- The end of the destructor: the members are destroyed, the `QScopedPointer`
`parser` releases the parser with its packet model. -/
def release (s : Teardown PM) : Teardown PM :=
  { s with dialog := { s.dialog with parser := none }, trace := s.trace ++ [.releaseParser] }

/-- Source: `~bitstreamAnalysisDialog()`. The worker thread makes `n₁` steps
between the call of `isRunning()` and the call of `setAbortParsing()` and `n₂`
steps between that call and the call of `waitForFinished()`. `none`:
`setAbortParsing` is called on a null `parser`, or the worker never returns. -/
def destructor (n₁ n₂ : Nat) (s : Teardown PM) : Option (Teardown PM) :=
  -- If the background thread is still working, abort it.
  if s.future.isRunning then
    let s := workerStep^[n₁] s
    -- signal to background thread that we want to cancel the processing
    match s.dialog.parser with
    | none => none
    | some p =>
      let s : Teardown PM :=
        { s with dialog := { s.dialog with parser := some p.setAbortParsing },
                 trace := s.trace ++ [.setAbortParsing] }
      let s := workerStep^[n₂] s
      match s.waitForFinished with
      | none => none
      | some s => some s.release
  else
    some s.release

/-- The action is one of the worker thread. -/
def IsWorkerAction (a : TeardownAction) : Prop := a = .workerReadsUnit ∨ a = .workerReturns

end Teardown

/-- A sample teardown: the sample dialog while its worker has two units to read. -/
def sampleTeardown : Teardown Unit :=
  { dialog := sampleDialog,
    future := .running [⟨100, some (0, ⟨0, 10, 100⟩)⟩, ⟨50, none⟩] 150 0,
    trace := [] }

end bitstreamAnalysisDialog

/-! ## splitViewWidget

A shallow embedding of `src/YUViewLib/src/ui/splitViewWidget.h` and
`splitViewWidget.cpp`.

* A `double` is a value of `Double`: a finite value, an infinity or a NaN. Every
  arithmetic operation rounds its exact result to the binary64 format (to the
  nearest value, a tie to the even one), overflows to an infinity and
  underflows to zero as IEEE 754 arithmetic does. The sign of a zero is not
  kept.
* An `int` is an integer; `int` arithmetic wraps around (two's complement), as
  the compiled code does; the conversion of a `double` that no `int` holds
  gives `INT_MIN`, as the conversion instruction of x86-64 does (both are
  undefined in C++).
* A member function is a function on `Views`, the pair of the widget it is
  called on and the widget its `otherWidget` points to.
* A `while` loop takes a number of steps it may run (fuel); a loop that needs
  more steps than that gives no result.
* Painting, the mouse cursor, the check marks of the menu actions and the
  values saved in the playlist items are not part of the state.
-/

/-- Two's-complement reduction of an integer to the range of `int`. -/
def toInt32 (x : Int) : Int := (x + 2147483648) % 4294967296 - 2147483648

/-- Rounding of a rational number to the nearest integer, a tie to the even one. -/
def roundHalfEven (x : ℚ) : Int :=
  if x - ⌊x⌋ < 1 / 2 then ⌊x⌋
  else if 1 / 2 < x - ⌊x⌋ then ⌊x⌋ + 1
  else if ⌊x⌋ % 2 = 0 then ⌊x⌋
  else ⌊x⌋ + 1

/-- A `double` (`qreal`): an IEEE 754 binary64 value. A finite value is given by
the rational number it denotes. -/
inductive Double where
  | finite (value : ℚ)
  | posInf
  | negInf
  | nan
deriving DecidableEq, Repr

namespace Double

instance (n : Nat) : OfNat Double n := ⟨.finite n⟩

/-- The binary exponent of the unit in the last place of the binary64 values
around `q`: 52 below the exponent of `q`, which is taken to be at least -1022
(below `2^-1022` the values are subnormal, with the spacing `2^-1074`). -/
def ulpExponent (q : ℚ) : Int := max (Int.log 2 |q|) (-1022) - 52

/-- The binary64 value of the exact result `q` of an operation: `q` rounded
to the nearest multiple of its unit in the last place, a tie to the even one;
a result of magnitude `2^1024` or more is an infinity. -/
def round (q : ℚ) : Double :=
  if (2 : ℚ) ^ (1024 : Int) ≤ (roundHalfEven (q / 2 ^ ulpExponent q) : ℚ) * 2 ^ ulpExponent q then .posInf
  else if (roundHalfEven (q / 2 ^ ulpExponent q) : ℚ) * 2 ^ ulpExponent q ≤ -(2 : ℚ) ^ (1024 : Int) then .negInf
  else .finite ((roundHalfEven (q / 2 ^ ulpExponent q) : ℚ) * 2 ^ ulpExponent q)

/-- The conversion `(double)n` of an `int`. -/
def ofInt (n : Int) : Double := round n

/-- Source: `a + b` on `double`. -/
def add : Double → Double → Double
  | .finite a, .finite b => round (a + b)
  | .finite _, .posInf => .posInf
  | .finite _, .negInf => .negInf
  | .posInf, .finite _ => .posInf
  | .negInf, .finite _ => .negInf
  | .posInf, .posInf => .posInf
  | .negInf, .negInf => .negInf
  | .posInf, .negInf => .nan
  | .negInf, .posInf => .nan
  | .nan, _ => .nan
  | _, .nan => .nan

/-- Source: `-a` on `double`. -/
def neg : Double → Double
  | .finite a => .finite (-a)
  | .posInf => .negInf
  | .negInf => .posInf
  | .nan => .nan

/-- Source: `a - b` on `double`. -/
def sub (a b : Double) : Double := add a (neg b)

/-- Source: `a * b` on `double`. -/
def mul : Double → Double → Double
  | .finite a, .finite b => round (a * b)
  | .finite a, .posInf => if 0 < a then .posInf else if a < 0 then .negInf else .nan
  | .finite a, .negInf => if 0 < a then .negInf else if a < 0 then .posInf else .nan
  | .posInf, .finite b => if 0 < b then .posInf else if b < 0 then .negInf else .nan
  | .negInf, .finite b => if 0 < b then .negInf else if b < 0 then .posInf else .nan
  | .posInf, .posInf => .posInf
  | .posInf, .negInf => .negInf
  | .negInf, .posInf => .negInf
  | .negInf, .negInf => .posInf
  | .nan, _ => .nan
  | _, .nan => .nan

/-- Source: `a / b` on `double`. A zero divisor counts as `+0`. -/
def div : Double → Double → Double
  | .finite a, .finite b =>
    if b = 0 then (if 0 < a then .posInf else if a < 0 then .negInf else .nan)
    else round (a / b)
  | .finite _, .posInf => .finite 0
  | .finite _, .negInf => .finite 0
  | .posInf, .finite b => if 0 ≤ b then .posInf else .negInf
  | .negInf, .finite b => if 0 ≤ b then .negInf else .posInf
  | .posInf, .posInf => .nan
  | .posInf, .negInf => .nan
  | .negInf, .posInf => .nan
  | .negInf, .negInf => .nan
  | .nan, _ => .nan
  | _, .nan => .nan

instance : Add Double := ⟨add⟩
instance : Sub Double := ⟨sub⟩
instance : Mul Double := ⟨mul⟩
instance : Div Double := ⟨div⟩

/-- Source: `a < b` on `double` (false when one of them is a NaN). -/
def lt : Double → Double → Bool
  | .finite a, .finite b => decide (a < b)
  | .finite _, .posInf => true
  | .negInf, .finite _ => true
  | .negInf, .posInf => true
  | _, _ => false

/-- Source: `a <= b` on `double` (false when one of them is a NaN). -/
def le : Double → Double → Bool
  | .finite a, .finite b => decide (a ≤ b)
  | .finite _, .posInf => true
  | .negInf, .finite _ => true
  | .negInf, .posInf => true
  | .posInf, .posInf => true
  | .negInf, .negInf => true
  | _, _ => false

/-- Source: `std::min(a, b)`: `(b < a) ? b : a`. -/
def min (a b : Double) : Double := if lt b a then b else a

/-- The value `int(d)` of a `double` d: truncation towards zero. For a NaN, an
infinity and a value that no `int` holds the conversion is undefined in C++;
it gives `INT_MIN` here, as the conversion instruction of x86-64 does. -/
def toInt : Double → Int
  | .finite q =>
    if -2147483648 ≤ (if 0 ≤ q then ⌊q⌋ else ⌈q⌉) ∧ (if 0 ≤ q then ⌊q⌋ else ⌈q⌉) ≤ 2147483647 then
      (if 0 ≤ q then ⌊q⌋ else ⌈q⌉)
    else -2147483648
  | _ => -2147483648

end Double

/-- The Qt function `qRound(double)` of Qt 5 (`qglobal.h`), used by the `QPoint`
operators that take a `qreal` and by `QPointF::toPoint`:
`d >= 0.0 ? int(d + 0.5) : int(d - double(int(d-1)) + 0.5) + int(d-1)`. -/
def qRound (d : Double) : Int :=
  if Double.le 0 d then (d + .finite (1 / 2)).toInt
  else toInt32 ((d - Double.ofInt (d - 1).toInt + .finite (1 / 2)).toInt + (d - 1).toInt)

/-- Modelled from the spec: the helper `clip(value, min, max)` of `typedef.h`
(not among the sources), which bounds a value to the range `min .. max`; the
header says of its use "The splitter cannot be moved closer to the border of
the widget than SPLITTER_CLIPX pixels". -/
def clip (val lo hi : Int) : Int := if val < lo then lo else if val > hi then hi else val

/-- The macro `SPLITVIEWWIDGET_SPLITTER_CLIPX`. -/
def SPLITVIEWWIDGET_SPLITTER_CLIPX : Int := 10

/-- The macro `SPLITVIEWWIDGET_ZOOM_STEP_FACTOR`. -/
def SPLITVIEWWIDGET_ZOOM_STEP_FACTOR : Int := 2

/-- A `QPoint`: two `int` coordinates. -/
structure QPoint where
  x : Int
  y : Int
deriving DecidableEq, Repr

namespace QPoint

/-- The point `QPoint()` and `QPoint(0,0)`. -/
def zero : QPoint := ⟨0, 0⟩

/-- Source: `QPoint::isNull()`: both coordinates are 0. -/
def isNull (p : QPoint) : Bool := p.x == 0 && p.y == 0

/-- Sum of two points. -/
def add (p q : QPoint) : QPoint := ⟨toInt32 (p.x + q.x), toInt32 (p.y + q.y)⟩

/-- Difference of two points. -/
def sub (p q : QPoint) : QPoint := ⟨toInt32 (p.x - q.x), toInt32 (p.y - q.y)⟩

/-- The operators `QPoint * double` and `QPoint *= double`: each coordinate is
`qRound(coordinate * factor)`. -/
def mulReal (p : QPoint) (factor : Double) : QPoint :=
  ⟨qRound (Double.ofInt p.x * factor), qRound (Double.ofInt p.y * factor)⟩

/-- The operator `QPoint * int`. -/
def mulInt (p : QPoint) (factor : Int) : QPoint := ⟨toInt32 (p.x * factor), toInt32 (p.y * factor)⟩

/-- The operator `QPoint / qreal`: each coordinate is `qRound(coordinate / c)`. -/
def divReal (p : QPoint) (c : Double) : QPoint :=
  ⟨qRound (Double.ofInt p.x / c), qRound (Double.ofInt p.y / c)⟩

/-- Source: `QPoint::manhattanLength()`. -/
def manhattanLength (p : QPoint) : Int := toInt32 (|p.x| + |p.y|)

end QPoint

/-- A `QSize`. -/
structure QSize where
  width : Int
  height : Int
deriving DecidableEq, Repr

/-- Source: `enum ViewSplitMode {DISABLED, SIDE_BY_SIDE, COMPARISON}`. -/
inductive ViewSplitMode where
  | DISABLED
  | SIDE_BY_SIDE
  | COMPARISON
deriving DecidableEq, Repr

/-- The cast `ViewSplitMode(mode)` of an `int`; `none` for an `int` that is
the value of no enumerator. -/
def ViewSplitMode.ofInt (mode : Int) : Option ViewSplitMode :=
  if mode = 0 then some .DISABLED
  else if mode = 1 then some .SIDE_BY_SIDE
  else if mode = 2 then some .COMPARISON
  else none

/-- Source: `enum mouseModeEnum {MOUSE_RIGHT_MOVE, MOUSE_LEFT_MOVE}`. -/
inductive mouseModeEnum where
  | MOUSE_RIGHT_MOVE
  | MOUSE_LEFT_MOVE
deriving DecidableEq, Repr

/-- Source: `enum ZoomMode {ZOOM_IN, ZOOM_OUT, ZOOM_TO_PERCENTAGE}`. -/
inductive ZoomMode where
  | ZOOM_IN
  | ZOOM_OUT
  | ZOOM_TO_PERCENTAGE
deriving DecidableEq, Repr

/-- The mouse buttons the widget tells apart. -/
inductive MouseButton where
  | NoButton
  | LeftButton
  | RightButton
  | OtherButton
deriving DecidableEq, Repr

/-- What the widget reads from a `QMouseEvent`: the position, the button that
caused the event, whether `buttons()` is `Qt::NoButton`, and whether
`source()` is `Qt::MouseEventSynthesizedBySystem`. -/
structure QMouseEvent where
  pos : QPoint
  button : MouseButton
  noButtons : Bool
  synthesizedBySystem : Bool
deriving DecidableEq, Repr

/-- The members of `splitViewWidget` that the modelled functions read or write,
and the size of the widget (`width()`, `height()`). -/
structure splitViewWidget where
  isSeparateWidget : Bool
  width : Int
  height : Int
  viewSplitMode : ViewSplitMode
  mouseMode : mouseModeEnum
  currentStepScaleFactor : Double
  currentStepCenterPointOffset : Double × Double
  currentlyPinching : Bool
  splittingDragging : Bool
  splittingPoint : Double
  centerOffset : QPoint
  viewDragging : Bool
  viewDraggingMouseMoved : Bool
  viewDraggingMousePosStart : QPoint
  viewDraggingStartOffset : QPoint
  viewZooming : Bool
  viewZoomingMousePosStart : QPoint
  viewZoomingMousePos : QPoint
  zoomFactor : Double
  drawZoomBox : Bool
  zoomBoxMousePosition : QPoint
  regularGridSize : Nat
  linkViews : Bool
  isViewFrozen : Bool

/-- The widget a member function is called on and the widget its `otherWidget`
points to (the primary and the separate view). -/
structure Views where
  widget : splitViewWidget
  otherWidget : splitViewWidget

namespace splitViewWidget

/-- A widget as the constructor and the default member initialisers leave it,
for a given size and mouse mode (the mouse mode is read from the settings). -/
def new (separateView : Bool) (width height : Int) (mouseMode : mouseModeEnum) : splitViewWidget :=
  { isSeparateWidget := separateView, width := width, height := height, viewSplitMode := .DISABLED,
    mouseMode := mouseMode, currentStepScaleFactor := 1, currentStepCenterPointOffset := (0, 0),
    currentlyPinching := false, splittingDragging := false, splittingPoint := .finite (1 / 2),
    centerOffset := ⟨0, 0⟩, viewDragging := false, viewDraggingMouseMoved := false,
    viewDraggingMousePosStart := ⟨0, 0⟩, viewDraggingStartOffset := ⟨0, 0⟩, viewZooming := false,
    viewZoomingMousePosStart := ⟨0, 0⟩, viewZoomingMousePos := ⟨0, 0⟩, zoomFactor := 1,
    drawZoomBox := false, zoomBoxMousePosition := ⟨0, 0⟩, regularGridSize := 0, linkViews := false,
    isViewFrozen := false }

/-- Source: `bool isSplitting() { return viewSplitMode != DISABLED; }` -/
def isSplitting (w : splitViewWidget) : Bool := w.viewSplitMode != .DISABLED

/-- Source: `void getViewState(QPoint &offset, double &zoom, double &splitPoint, int &mode) const`:
the four values written to the reference parameters. -/
def getViewState (w : splitViewWidget) : QPoint × Double × Double × Int :=
  (w.centerOffset, w.zoomFactor, w.splittingPoint,
    if w.viewSplitMode = .DISABLED then 0
    else if w.viewSplitMode = .SIDE_BY_SIDE then 1
    else 2)

/-- The body of `setViewSplitMode` after the call on the other widget. -/
def setViewSplitModeHere (mode : ViewSplitMode) (w : splitViewWidget) : splitViewWidget :=
  if w.viewSplitMode = mode then w else { w with viewSplitMode := mode }

/-- The body of `setRegularGridSize` after the call on the other widget. -/
def setRegularGridSizeHere (size : Nat) (w : splitViewWidget) : splitViewWidget :=
  if w.regularGridSize = size then w else { w with regularGridSize := size }

/-- Source: `int xSplit = int(drawArea_botR.x() * splittingPoint);`, the x position
of the split. -/
def xSplit (w : splitViewWidget) : Int := (Double.ofInt w.width * w.splittingPoint).toInt

end splitViewWidget

namespace Views

/-- The same two widgets seen from the other widget. -/
def swap (v : Views) : Views := { widget := v.otherWidget, otherWidget := v.widget }

/-- Source: `void setCenterOffset(QPoint offset, bool setOtherViewIfLinked, bool callUpdate)`.
The call `otherWidget->setCenterOffset(offset, false, callUpdate)` assigns the
offset of the other widget and does not call back. -/
def setCenterOffset (offset : QPoint) (setOtherViewIfLinked : Bool) (v : Views) : Views :=
  { widget := { v.widget with centerOffset := offset },
    otherWidget := if v.widget.linkViews && setOtherViewIfLinked then
        { v.otherWidget with centerOffset := offset }
      else v.otherWidget }

/-- Source: `void setSplittingPoint(double point, bool setOtherViewIfLinked, bool callUpdate)`. -/
def setSplittingPoint (point : Double) (setOtherViewIfLinked : Bool) (v : Views) : Views :=
  { widget := { v.widget with splittingPoint := point },
    otherWidget := if v.widget.linkViews && setOtherViewIfLinked then
        { v.otherWidget with splittingPoint := point }
      else v.otherWidget }

/-- Source: `void setZoomFactor(double zoom, bool setOtherViewIfLinked, bool callUpdate)`. -/
def setZoomFactor (zoom : Double) (setOtherViewIfLinked : Bool) (v : Views) : Views :=
  { widget := { v.widget with zoomFactor := zoom },
    otherWidget := if v.widget.linkViews && setOtherViewIfLinked then
        { v.otherWidget with zoomFactor := zoom }
      else v.otherWidget }

/-- Source: `void setViewSplitMode(ViewSplitMode mode, bool setOtherViewIfLinked, bool callUpdate)`. -/
def setViewSplitMode (mode : ViewSplitMode) (setOtherViewIfLinked : Bool) (v : Views) : Views :=
  { widget := v.widget.setViewSplitModeHere mode,
    otherWidget := if v.widget.linkViews && setOtherViewIfLinked then
        v.otherWidget.setViewSplitModeHere mode
      else v.otherWidget }

/-- Source: `void setRegularGridSize(unsigned int size, bool setOtherViewIfLinked, bool callUpdate)`. -/
def setRegularGridSize (size : Nat) (setOtherViewIfLinked : Bool) (v : Views) : Views :=
  { widget := v.widget.setRegularGridSizeHere size,
    otherWidget := if v.widget.linkViews && setOtherViewIfLinked then
        v.otherWidget.setRegularGridSizeHere size
      else v.otherWidget }

/-- Source: `void setViewState(const QPoint &offset, double zoom, double splitPoint, int mode)`.
`none`: `mode` is the value of no enumerator of `ViewSplitMode`. -/
def setViewState (offset : QPoint) (zoom splitPoint : Double) (mode : Int) (v : Views) : Option Views :=
  match ViewSplitMode.ofInt mode with
  | none => none
  | some m =>
    let v := v.setCenterOffset offset true
    let v := v.setZoomFactor zoom true
    let v := v.setSplittingPoint splitPoint true
    let v := v.setViewSplitMode m true
    -- if (linkViews) otherWidget->setViewSplitMode(viewSplitMode);
    let v := if v.widget.linkViews then (v.swap.setViewSplitMode v.widget.viewSplitMode true).swap else v
    some v

/-- Source: `void resetViews(bool checked)`. -/
def resetViews (v : Views) : Views :=
  let v := v.setCenterOffset ⟨0, 0⟩ true
  let v := v.setZoomFactor 1 true
  v.setSplittingPoint (.finite (1 / 2)) true

/-- Source: `void gridSetCustom(bool checked)`. `dialog` is what `QInputDialog::getInt`
gives: `none` when the dialog is cancelled (`ok` false), else the value (1 .. 2147483647). -/
def gridSetCustom (dialog : Option Nat) (v : Views) : Views :=
  match dialog with
  | none => v
  | some newValue => { v with widget := { v.widget with regularGridSize := newValue } }

/-- Source: `void toggleSeparateWindowLink(bool checked)`. -/
def toggleSeparateWindowLink (checked : Bool) (v : Views) : Views :=
  let v : Views := { widget := { v.widget with linkViews := checked },
                     otherWidget := { v.otherWidget with linkViews := checked } }
  if checked then
    let v := v.setZoomFactor v.widget.zoomFactor true
    let v := v.setViewSplitMode v.widget.viewSplitMode true
    let v := v.setCenterOffset v.widget.centerOffset true
    let v := v.setSplittingPoint v.widget.splittingPoint true
    v.setRegularGridSize v.widget.regularGridSize true
  else v

end Views

/-- A `while (cond) body` loop on a state, run for at most `fuel` steps: `none`
when the condition still holds after `fuel` steps. -/
def whileLoop {σ : Type} (cond : σ → Bool) (body : σ → σ) : Nat → σ → Option σ
  | 0, s => if cond s then none else some s
  | fuel + 1, s => if cond s then whileLoop cond body fuel (body s) else some s

namespace Views

/-- The value of `newZoom` that `zoom` computes before it uses it (lines
`double newZoom = 1.0;` to the end of the `if`/`else if` chain). -/
def zoomNewZoom (fuel : Nat) (zoomMode : ZoomMode) (zoomFactor newZoomFactor : Double) :
    Option Double :=
  match zoomMode with
  | .ZOOM_IN =>
    if Double.lt 1 zoomFactor then
      -- while (newZoom <= zoomFactor && newZoom < inf)
      whileLoop (fun newZoom => Double.le newZoom zoomFactor && Double.lt newZoom .posInf)
        (fun newZoom => newZoom * Double.ofInt SPLITVIEWWIDGET_ZOOM_STEP_FACTOR) fuel 1
    else
      -- while (newZoom > zoomFactor)
      (whileLoop (fun newZoom => Double.lt zoomFactor newZoom)
        (fun newZoom => newZoom / Double.ofInt SPLITVIEWWIDGET_ZOOM_STEP_FACTOR) fuel 1).map
          (fun newZoom => newZoom * Double.ofInt SPLITVIEWWIDGET_ZOOM_STEP_FACTOR)
  | .ZOOM_OUT =>
    if Double.lt 1 zoomFactor then
      -- while (newZoom < zoomFactor)
      (whileLoop (fun newZoom => Double.lt newZoom zoomFactor)
        (fun newZoom => newZoom * Double.ofInt SPLITVIEWWIDGET_ZOOM_STEP_FACTOR) fuel 1).map
          (fun newZoom => newZoom / Double.ofInt SPLITVIEWWIDGET_ZOOM_STEP_FACTOR)
    else
      -- while (newZoom >= zoomFactor && newZoom > 0.0)
      whileLoop (fun newZoom => Double.le zoomFactor newZoom && Double.lt 0 newZoom)
        (fun newZoom => newZoom / Double.ofInt SPLITVIEWWIDGET_ZOOM_STEP_FACTOR) fuel 1
  | .ZOOM_TO_PERCENTAGE => some newZoomFactor

/-- The centre point `zoom` uses for a zoom point: the centre of the widget,
or in side-by-side mode the centre of the split part it takes the zoom point
to be in. -/
def zoomCenterPoint (zoomPoint : QPoint) (w : splitViewWidget) : QPoint :=
  let drawArea_botR : QPoint := ⟨w.width, w.height⟩
  let centerPoint := drawArea_botR.divReal (Double.ofInt 2)
  if w.viewSplitMode = .SIDE_BY_SIDE then
    let xSplit := w.xSplit
    if zoomPoint.x > xSplit then
      -- Zooming in the right view
      ⟨toInt32 (xSplit + (toInt32 (drawArea_botR.x - xSplit)).tdiv 2), drawArea_botR.y.tdiv 2⟩
    else
      -- Zooming in the left view
      ⟨xSplit.tdiv 2, drawArea_botR.y.tdiv 2⟩
  else centerPoint

/-- The part of `zoom` after `newZoom` is known (from
`double stepZoomFactor = newZoom / zoomFactor;` on). -/
def zoomApply (newZoom : Double) (zoomPoint : QPoint) (v : Views) : Views :=
  let stepZoomFactor := newZoom / v.widget.zoomFactor
  let v :=
    if ¬ zoomPoint.isNull then
      let centerPoint := zoomCenterPoint zoomPoint v.widget
      -- The absolute center point of the item under the cursor
      let itemCenter := centerPoint.add v.widget.centerOffset
      -- Move this item center point
      let diff := (itemCenter.sub zoomPoint).mulReal stepZoomFactor
      let itemCenter := zoomPoint.add diff
      v.setCenterOffset (itemCenter.sub centerPoint) true
    else
      v.setCenterOffset (v.widget.centerOffset.mulReal stepZoomFactor) true
  v.setZoomFactor newZoom true

/-- Source: `void zoom(ZoomMode zoomMode, const QPoint &zoomPoint, double newZoomFactor)`.
`none`: a loop needs more than `fuel` steps. -/
def zoom (fuel : Nat) (zoomMode : ZoomMode) (zoomPoint : QPoint) (newZoomFactor : Double) (v : Views) :
    Option Views :=
  match zoomNewZoom fuel zoomMode v.widget.zoomFactor newZoomFactor with
  | none => none
  | some newZoom => some (zoomApply newZoom zoomPoint v)

/-- The result of the computation of `fracZoom` in `zoomToFit`. -/
inductive FracZoom where
  /-- the function returns at one of the `return` statements -/
  | returned
  /-- the value of `fracZoom` -/
  | value (fracZoom : Double)
deriving DecidableEq, Repr

/-- The computation of `fracZoom` in `zoomToFit` for the sizes of the selected
items (`item[0]` is not null, `item[1]` may be). -/
def zoomToFitFracZoom (w : splitViewWidget) (item0Size : QSize) (item1 : Option QSize) : FracZoom :=
  if ¬ w.isSplitting then
    if item0Size.width ≤ 0 ∨ item0Size.height ≤ 0 then .returned
    else
      let zoomH := Double.ofInt w.width / Double.ofInt item0Size.width
      let zoomV := Double.ofInt w.height / Double.ofInt item0Size.height
      .value (Double.min zoomH zoomV)
  else if w.viewSplitMode = .COMPARISON then
    -- We can just zoom to an item that is the size of the bigger of the two items
    let virtualItemSize : QSize :=
      match item1 with
      | none => item0Size
      | some item1Size =>
        { width := if item1Size.width > item0Size.width then item1Size.width else item0Size.width,
          height := if item1Size.height > item0Size.height then item1Size.height else item0Size.height }
    let zoomH := Double.ofInt w.width / Double.ofInt virtualItemSize.width
    let zoomV := Double.ofInt w.height / Double.ofInt virtualItemSize.height
    .value (Double.min zoomH zoomV)
  else if w.viewSplitMode = .SIDE_BY_SIDE then
    let xSplit := w.xSplit
    -- Left item
    if item0Size.width ≤ 0 ∨ item0Size.height ≤ 0 then .returned
    else
      let zoomH := Double.ofInt xSplit / Double.ofInt item0Size.width
      let zoomV := Double.ofInt w.height / Double.ofInt item0Size.height
      let fracZoom := Double.min zoomH zoomV
      -- Right item
      match item1 with
      | none => .value fracZoom
      | some item1Size =>
        if item1Size.width > 0 ∧ item1Size.height > 0 then
          let zoomH2 := Double.ofInt (toInt32 (w.width - xSplit)) / Double.ofInt item1Size.width
          let zoomV2 := Double.ofInt w.height / Double.ofInt item1Size.height
          let item2FracZoom := Double.min zoomH2 zoomV2
          if Double.lt item2FracZoom fracZoom then .value item2FracZoom else .value fracZoom
        else .value fracZoom
  else .value 1

/-- The zoom factor `zoomToFit` sets for a fractional zoom `fracZoom`: the two
loops after "Find the next SPLITVIEWWIDGET_ZOOM_STEP_FACTOR multitude that fits". -/
def zoomToFitNewZoomFactor (fuel : Nat) (fracZoom : Double) : Option Double :=
  if Double.lt fracZoom 1 then
    -- while (newZoomFactor > fracZoom)
    whileLoop (fun newZoomFactor => Double.lt fracZoom newZoomFactor)
      (fun newZoomFactor => newZoomFactor / Double.ofInt SPLITVIEWWIDGET_ZOOM_STEP_FACTOR) fuel 1
  else
    -- while (newZoomFactor * SPLITVIEWWIDGET_ZOOM_STEP_FACTOR < fracZoom)
    whileLoop (fun newZoomFactor =>
        Double.lt (newZoomFactor * Double.ofInt SPLITVIEWWIDGET_ZOOM_STEP_FACTOR) fracZoom)
      (fun newZoomFactor => newZoomFactor * Double.ofInt SPLITVIEWWIDGET_ZOOM_STEP_FACTOR) fuel 1

/-- Source: `void zoomToFit(bool checked)`. `playlist` is `none` when the pointer
`playlist` is null, else the sizes of the two selected items (`none` for a null
item). `none` as result: a loop needs more than `fuel` steps. -/
def zoomToFit (fuel : Nat) (playlist : Option (Option QSize × Option QSize)) (v : Views) :
    Option Views :=
  match playlist with
  | none => some v
  | some item =>
    let v := v.setCenterOffset ⟨0, 0⟩ true
    match item.1 with
    | none => some v
    | some item0Size =>
      match zoomToFitFracZoom v.widget item0Size item.2 with
      | .returned => some v
      | .value fracZoom =>
        match zoomToFitNewZoomFactor fuel fracZoom with
        | none => none
        | some newZoomFactor => some (v.setZoomFactor newZoomFactor true)

/-- The block `if (mouse_event->buttons() == Qt::NoButton)` of `mouseMoveEvent`:
a press or release event was lost, go back to the normal mode. -/
def mouseMoveNoButton (w : splitViewWidget) : splitViewWidget :=
  if w.isSplitting && w.splittingDragging then { w with splittingDragging := false }
  else if w.viewDragging then { w with viewDragging := false, viewDraggingMouseMoved := false }
  else if w.viewZooming then { w with viewZooming := false }
  else w

/-- The splitting point the widget sets while the splitter is dragged to the
mouse position `x`: `(double)xClip / (double)(width()-2)` for
`xClip = clip(x, SPLITTER_CLIPX, (width()-2-SPLITTER_CLIPX))`. -/
def draggedSplittingPoint (x : Int) (w : splitViewWidget) : Double :=
  Double.ofInt (clip x SPLITVIEWWIDGET_SPLITTER_CLIPX
      (toInt32 (toInt32 (w.width - 2) - SPLITVIEWWIDGET_SPLITTER_CLIPX)))
    / Double.ofInt (toInt32 (w.width - 2))

/-- The `if`/`else if` chain in the middle of `mouseMoveEvent`: dragging the
splitter, dragging the view, or drawing the zoom rectangle. -/
def mouseMoveDrag (e : QMouseEvent) (v : Views) : Views :=
  if v.widget.isSplitting && v.widget.splittingDragging then
    -- The user is currently dragging the splitter. Calculate the new splitter point.
    v.setSplittingPoint (draggedSplittingPoint e.pos.x v.widget) true
  else if v.widget.viewDragging then
    let v' := v.setCenterOffset
      (v.widget.viewDraggingStartOffset.add (e.pos.sub v.widget.viewDraggingMousePosStart)) true
    let mouseMoved := v.widget.viewDraggingMousePosStart.sub e.pos
    if mouseMoved.manhattanLength > 3 then
      { v' with widget := { v'.widget with viewDraggingMouseMoved := true } }
    else v'
  else if v.widget.viewZooming then
    { v with widget := { v.widget with viewZoomingMousePos := e.pos } }
  else v

/-- The block `if (drawZoomBox)` at the end of `mouseMoveEvent`. -/
def mouseMoveZoomBox (e : QMouseEvent) (v : Views) : Views :=
  if v.widget.drawZoomBox then
    if v.widget.zoomBoxMousePosition ≠ e.pos then
      { v with widget := { v.widget with zoomBoxMousePosition := e.pos } }
    else v
  else v

/-- Source: `void mouseMoveEvent(QMouseEvent *mouse_event)`. -/
def mouseMoveEvent (e : QMouseEvent) (v : Views) : Views :=
  if e.synthesizedBySystem && v.widget.currentlyPinching then v
  else
    let v : Views := if e.noButtons then { v with widget := mouseMoveNoButton v.widget } else v
    mouseMoveZoomBox e (mouseMoveDrag e v)

/-- The end of a rubber-band zoom in `mouseReleaseEvent` (the third branch). -/
def rubberBandZoom (fuel : Nat) (e : QMouseEvent) (v : Views) : Option Views :=
  let w := v.widget
  -- QRect zoomRect = QRect(viewZoomingMousePosStart, mouse_event->pos());
  let rectWidth : Int := toInt32 (toInt32 (e.pos.x - w.viewZoomingMousePosStart.x) + 1)
  let rectHeight : Int := toInt32 (toInt32 (e.pos.y - w.viewZoomingMousePosStart.y) + 1)
  let rectCenter : QPoint :=
    ⟨(w.viewZoomingMousePosStart.x + e.pos.x).tdiv 2, (w.viewZoomingMousePosStart.y + e.pos.y).tdiv 2⟩
  if toInt32 |rectWidth| < 2 ∧ toInt32 |rectHeight| < 2 then
    -- The user just pressed the button without moving the mouse.
    some { v with widget := { w with viewZooming := false } }
  else
    let drawArea_botR : QPoint := ⟨w.width, w.height⟩
    let centerPoint := drawArea_botR.divReal (Double.ofInt 2)
    let centerPoint :=
      if w.viewSplitMode = .SIDE_BY_SIDE then
        let xSplit := w.xSplit
        if w.viewZoomingMousePosStart.x ≥ xSplit then
          ⟨toInt32 (xSplit + (toInt32 (drawArea_botR.x - xSplit)).tdiv 2), drawArea_botR.y.tdiv 2⟩
        else
          ⟨xSplit.tdiv 2, drawArea_botR.y.tdiv 2⟩
      else centerPoint
    -- Calculate the new center offset
    let zoomRectCenterOffset := rectCenter.sub centerPoint
    let v := v.setCenterOffset (v.widget.centerOffset.sub zoomRectCenterOffset) true
    -- Now we zoom in as far as possible
    match whileLoop
        (fun (s : Views × Double) =>
          Double.le (Double.ofInt (toInt32 |rectWidth|) * s.2
              * Double.ofInt SPLITVIEWWIDGET_ZOOM_STEP_FACTOR) (Double.ofInt s.1.widget.width) &&
          Double.le (Double.ofInt (toInt32 |rectHeight|) * s.2
              * Double.ofInt SPLITVIEWWIDGET_ZOOM_STEP_FACTOR) (Double.ofInt s.1.widget.height))
        (fun (s : Views × Double) =>
          let v := s.1.setZoomFactor
            (s.1.widget.zoomFactor * Double.ofInt SPLITVIEWWIDGET_ZOOM_STEP_FACTOR) true
          let additionalZoomFactor := s.2 * Double.ofInt SPLITVIEWWIDGET_ZOOM_STEP_FACTOR
          (v.setCenterOffset (v.widget.centerOffset.mulInt SPLITVIEWWIDGET_ZOOM_STEP_FACTOR) true,
            additionalZoomFactor))
        fuel (v, 1) with
    | none => none
    | some s => some { s.1 with widget := { s.1.widget with viewZooming := false } }

/-- Source: `void mouseReleaseEvent(QMouseEvent *mouse_event)`. The context menu
that a right click without a move opens is not run. `none`: the loop of the
rubber-band zoom needs more than `fuel` steps. -/
def mouseReleaseEvent (fuel : Nat) (e : QMouseEvent) (v : Views) : Option Views :=
  let w := v.widget
  if w.isViewFrozen then some v
  else if e.button = .LeftButton ∧ w.isSplitting ∧ w.splittingDragging then
    -- End dragging.
    let v : Views := { v with widget := { w with splittingDragging := false } }
    -- Update current splitting position / update last time
    some (v.setSplittingPoint (draggedSplittingPoint e.pos.x v.widget) true)
  else if w.viewDragging ∧
      ((e.button = .LeftButton ∧ w.mouseMode = .MOUSE_LEFT_MOVE) ∨
       (e.button = .RightButton ∧ w.mouseMode = .MOUSE_RIGHT_MOVE)) then
    -- Calculate the new center offset one last time
    let v := v.setCenterOffset
      (w.viewDraggingStartOffset.add (e.pos.sub w.viewDraggingMousePosStart)) true
    -- End dragging
    some { v with widget := { v.widget with viewDragging := false, viewDraggingMouseMoved := false } }
  else if w.viewZooming ∧
      ((e.button = .RightButton ∧ w.mouseMode = .MOUSE_LEFT_MOVE) ∨
       (e.button = .LeftButton ∧ w.mouseMode = .MOUSE_RIGHT_MOVE)) then
    rubberBandZoom fuel e v
  else some v

/-- What the widget reads from a `QPinchGesture`. -/
structure QPinchGesture where
  started : Bool
  finished : Bool
  scaleFactorChanged : Bool
  centerPointChanged : Bool
  totalScaleFactor : Double
  centerPoint : Double × Double
  lastCenterPoint : Double × Double

/-- The handling of a pinch gesture in `bool event(QEvent *event)` (the block
`if (QGesture *pinchGesture = ...)`). -/
def pinchGesture (pinch : QPinchGesture) (v : Views) : Views :=
  let w := v.widget
  let w := if pinch.started then { w with currentlyPinching := true } else w
  let w := if pinch.scaleFactorChanged then { w with currentStepScaleFactor := pinch.totalScaleFactor } else w
  let w := if pinch.centerPointChanged then
      { w with currentStepCenterPointOffset :=
          (w.currentStepCenterPointOffset.1 + (pinch.centerPoint.1 - pinch.lastCenterPoint.1),
           w.currentStepCenterPointOffset.2 + (pinch.centerPoint.2 - pinch.lastCenterPoint.2)) }
    else w
  let v : Views := { v with widget := w }
  let v :=
    if pinch.finished then
      -- Set the new position/zoom
      let v := v.setZoomFactor (v.widget.zoomFactor * v.widget.currentStepScaleFactor) false
      let v := v.setCenterOffset
        ⟨qRound (Double.ofInt v.widget.centerOffset.x * v.widget.currentStepScaleFactor
            + v.widget.currentStepCenterPointOffset.1),
         qRound (Double.ofInt v.widget.centerOffset.y * v.widget.currentStepScaleFactor
            + v.widget.currentStepCenterPointOffset.2)⟩ true
      -- Reset the dynamic values
      { v with widget := { v.widget with currentStepScaleFactor := 1,
                                          currentStepCenterPointOffset := (0, 0),
                                          currentlyPinching := false } }
    else v
  if v.widget.linkViews then
    { v with otherWidget := { v.otherWidget with
        currentlyPinching := v.widget.currentlyPinching,
        currentStepScaleFactor := v.widget.currentStepScaleFactor,
        currentStepCenterPointOffset := v.widget.currentStepCenterPointOffset } }
  else v

/-- The two views hold equal values of the five linked members. -/
def LinkedEqual (v : Views) : Prop :=
  v.widget.zoomFactor = v.otherWidget.zoomFactor ∧ v.widget.centerOffset = v.otherWidget.centerOffset ∧
  v.widget.splittingPoint = v.otherWidget.splittingPoint ∧
  v.widget.viewSplitMode = v.otherWidget.viewSplitMode ∧
  v.widget.regularGridSize = v.otherWidget.regularGridSize

/-- The item pixel shown at `zoomPoint`:
`(zoomPoint - (centerPoint + centerOffset)) / zoomFactor`, per axis, as a
rational number. -/
def itemPixelAt (centerPoint zoomPoint centerOffset : QPoint) (zoomFactor : ℚ) : ℚ × ℚ :=
  (((zoomPoint.x - (centerPoint.x + centerOffset.x) : Int) : ℚ) / zoomFactor,
   ((zoomPoint.y - (centerPoint.y + centerOffset.y) : Int) : ℚ) / zoomFactor)

/-- The centre point `paintEvent` draws the item with at the screen column of
`zoomPoint`: the centre of the widget, or in side-by-side mode `centerPoints[0]`
for a column of the left clipping region `QRegion(0, 0, xSplit, ...)` and
`centerPoints[1]` for a column of the right one, `QRegion(xSplit, 0, ...)`. -/
def paintCenterPoint (zoomPoint : QPoint) (w : splitViewWidget) : QPoint :=
  let drawArea_botR : QPoint := ⟨w.width, w.height⟩
  if w.viewSplitMode = .COMPARISON ∨ w.viewSplitMode = .DISABLED then
    drawArea_botR.divReal (Double.ofInt 2)
  else
    let y := drawArea_botR.y.tdiv 2
    if zoomPoint.x < w.xSplit then ⟨w.xSplit.tdiv 2, y⟩
    else ⟨toInt32 (w.xSplit + (toInt32 (drawArea_botR.x - w.xSplit)).tdiv 2), y⟩

/-- The item pixel the widget shows at `zoomPoint`: `itemPixelAt` for the centre
point `paintEvent` uses at that column, the centre offset and the zoom factor
of the widget; `none` when the zoom factor is not a finite number. -/
def itemPixelShown (zoomPoint : QPoint) (w : splitViewWidget) : Option (ℚ × ℚ) :=
  match w.zoomFactor with
  | .finite z => some (itemPixelAt (paintCenterPoint zoomPoint w) zoomPoint w.centerOffset z)
  | _ => none

/-- A sample pair of views: two new widgets of 100 x 100 pixels. -/
def sampleViews : Views :=
  { widget := splitViewWidget.new false 100 100 .MOUSE_RIGHT_MOVE,
    otherWidget := splitViewWidget.new true 100 100 .MOUSE_RIGHT_MOVE }

end Views

/-- The splitter of the widget is within reach: the splitting point lies in
`[0,1]` and both the position where it is grabbed, `int((width()-2) * splittingPoint)`,
and the position where it is drawn, `int(width() * splittingPoint)`, are at
least 10 pixels from the left and from the right border of the widget. -/
def SplitterInReach (w : splitViewWidget) : Prop :=
  Double.le 0 w.splittingPoint = true ∧ Double.le w.splittingPoint 1 = true ∧
  10 ≤ (Double.ofInt (toInt32 (w.width - 2)) * w.splittingPoint).toInt ∧
  (Double.ofInt (toInt32 (w.width - 2)) * w.splittingPoint).toInt ≤ w.width - 10 ∧
  10 ≤ (Double.ofInt w.width * w.splittingPoint).toInt ∧
  (Double.ofInt w.width * w.splittingPoint).toInt ≤ w.width - 10

/-- The sample views with the zoom factor of the widget set to `zoomFactor`. -/
def Views.sampleWithZoom (zoomFactor : Double) : Views :=
  { Views.sampleViews with widget := { Views.sampleViews.widget with zoomFactor := zoomFactor } }

/-- The selected items are entirely visible in the widget at its zoom factor
`z`: with splitting disabled item 0 fits the widget; in comparison mode the
per-axis maximum of both items' sizes fits the widget; in side-by-side mode
item 0 fits the part left of the split and item 1, if it has a positive size,
the part right of it. -/
def Views.itemsVisibleAt (w : splitViewWidget) (z : ℚ) (item0Size : QSize) (item1 : Option QSize) :
    Prop :=
  match w.viewSplitMode with
  | .DISABLED =>
    (item0Size.width : ℚ) * z ≤ w.width ∧ (item0Size.height : ℚ) * z ≤ w.height
  | .COMPARISON =>
    match item1 with
    | none =>
      (item0Size.width : ℚ) * z ≤ w.width ∧ (item0Size.height : ℚ) * z ≤ w.height
    | some item1Size =>
      ((max item0Size.width item1Size.width : Int) : ℚ) * z ≤ w.width ∧
        ((max item0Size.height item1Size.height : Int) : ℚ) * z ≤ w.height
  | .SIDE_BY_SIDE =>
    (item0Size.width : ℚ) * z ≤ w.xSplit ∧
    (item0Size.height : ℚ) * z ≤ w.height ∧
    ∀ item1Size, item1 = some item1Size → 0 < item1Size.width → 0 < item1Size.height →
      (item1Size.width : ℚ) * z ≤ ((w.width - w.xSplit : Int) : ℚ) ∧
      (item1Size.height : ℚ) * z ≤ w.height

/-- The selected items are entirely visible in the widget at its zoom factor,
which is a finite number. -/
def Views.itemsVisible (w : splitViewWidget) (item0Size : QSize) (item1 : Option QSize) : Prop :=
  match w.zoomFactor with
  | .finite z => Views.itemsVisibleAt w z item0Size item1
  | _ => False

/-- A sample pair of views in side-by-side mode: two new widgets of
`width` x `height` pixels after `setViewSplitMode(SIDE_BY_SIDE)`. -/
def Views.sampleSideBySide (width height : Int) : Views :=
  Views.setViewSplitMode .SIDE_BY_SIDE true
    { widget := splitViewWidget.new false width height .MOUSE_RIGHT_MOVE,
      otherWidget := splitViewWidget.new true width height .MOUSE_RIGHT_MOVE }

/-- The sample side-by-side views of `width` x 100 pixels while the splitter is dragged. -/
def Views.sampleDragging (width : Int) : Views :=
  { Views.sampleSideBySide width 100 with
    widget := { (Views.sampleSideBySide width 100).widget with splittingDragging := true } }

/-- A sample pair of views with splitting disabled: two new widgets of
`width` x `height` pixels. -/
def Views.sampleOfSize (width height : Int) : Views :=
  { widget := splitViewWidget.new false width height .MOUSE_RIGHT_MOVE,
    otherWidget := splitViewWidget.new true width height .MOUSE_RIGHT_MOVE }

/-! ## Theorems about `parserBase` -/

section ParserTheorems

variable {PM : Type}

theorem toUInt64_toInt64 (x : Int) : toUInt64 (toInt64 x) = toUInt64 x := by
  unfold toUInt64 toInt64
  congr 1
  omega

/-- C4: two consecutive calls of `getSegmentBitrateList(streamIdx)` with no
write in between return the identical list of segments, which is the list the
map holds under `streamIdx` (empty when there is none). -/
theorem getSegmentBitrateList_repeat (p : parserBase PM) (streamIdx : Nat) :
    ((p.getSegmentBitrateList streamIdx).2.getSegmentBitrateList streamIdx).1
      = (p.getSegmentBitrateList streamIdx).1 ∧
    (p.getSegmentBitrateList streamIdx).1 = QMap.value [] p.segmentBitrateListPerStream streamIdx := by
  unfold parserBase.getSegmentBitrateList QMap.index QMap.value
  cases h : p.segmentBitrateListPerStream streamIdx with
  | none => simp [h, QMap.insert]
  | some v => simp [h]

/-- C5: at a stream index for which no segment was recorded the query
`getSegmentBitrateList` is not read-only: on a new parser the call with index 0
adds the key 0 (with an empty list) to `segmentBitrateListPerStream`. -/
theorem getSegmentBitrateList_inserts_key :
    (parserBase.new .parserAnnexBHEVC () 1).segmentBitrateListPerStream.contains 0 = false ∧
    (((parserBase.new .parserAnnexBHEVC () 1).getSegmentBitrateList 0).2).segmentBitrateListPerStream.contains 0
      = true ∧
    (((parserBase.new .parserAnnexBHEVC () 1).getSegmentBitrateList 0).2).segmentBitrateListPerStream
      ≠ (parserBase.new .parserAnnexBHEVC () 1).segmentBitrateListPerStream := by
  refine ⟨rfl, rfl, ?_⟩
  intro h
  have h0 := congrFun h 0
  simp [parserBase.getSegmentBitrateList, parserBase.new, QMap.index, QMap.empty, QMap.insert] at h0

theorem Op.apply_cancel (ops : PacketModelOps PM) (o : parserBase.Op) (p : parserBase PM)
    (h : p.cancelBackgroundParser = true) : (o.apply ops p).cancelBackgroundParser = true := by
  cases o <;> simp [parserBase.Op.apply, parserBase.setNewNumberModelItems,
    parserBase.getSegmentBitrateList, parserBase.setAbortParsing, parserBase.setStreamColorCoding,
    parserBase.enableModel, parserBase.getFilteredPacketItemModel, parserBase.getStreamInfo, h]

theorem RunningParse.parseUnit_cancelled (u : parserBase.ParsedUnit) (r : parserBase.RunningParse PM)
    (h : r.parser.cancelBackgroundParser = true) : r.parseUnit u = r := by
  simp [parserBase.RunningParse.parseUnit, h]

theorem ParseEvent.event_keeps_cancel (ops : PacketModelOps PM) (e : parserBase.ParseEvent)
    (r : parserBase.RunningParse PM) (h : r.parser.cancelBackgroundParser = true) :
    (e.apply ops r).parser.cancelBackgroundParser = true := by
  cases e with
  | op o => exact Op.apply_cancel ops o r.parser h
  | runParsingOfFile fileSize => exact h
  | unit u =>
    show (r.parseUnit u).parser.cancelBackgroundParser = true
    rw [RunningParse.parseUnit_cancelled u r h]
    exact h

theorem ParseEvent.applyAll_cancel (ops : PacketModelOps PM) (l : List parserBase.ParseEvent) :
    ∀ r : parserBase.RunningParse PM, r.parser.cancelBackgroundParser = true →
      (parserBase.ParseEvent.applyAll ops l r).parser.cancelBackgroundParser = true := by
  induction l with
  | nil => intro r h; exact h
  | cons e l ih =>
    intro r h
    exact ih (e.apply ops r) (ParseEvent.event_keeps_cancel ops e r h)

/-- C6: `setAbortParsing` sets the cancel flag and nothing else: afterwards the
flag is true, every other member (progress value, segment lists, packet model,
stream count) is unchanged, a second call changes nothing, and after any
sequence of the public operations of `parserBase` (the eleven that can be
called at any time, a new `runParsingOfFile`, and the units the running
`runParsingOfFile` goes on to read) the flag is still true; a running
`runParsingOfFile` reads no further unit. -/
theorem setAbortParsing_frame (ops : PacketModelOps PM) (p : parserBase PM) :
    p.setAbortParsing.cancelBackgroundParser = true ∧
    p.setAbortParsing.progressPercentValue = p.progressPercentValue ∧
    p.setAbortParsing.segmentBitrateListPerStream = p.segmentBitrateListPerStream ∧
    p.setAbortParsing.packetModel = p.packetModel ∧
    p.setAbortParsing.variant = p.variant ∧
    p.setAbortParsing.nrStreams = p.nrStreams ∧
    p.setAbortParsing.setAbortParsing = p.setAbortParsing ∧
    (∀ (fileSize filePos : Nat) (l : List parserBase.ParseEvent),
      (parserBase.ParseEvent.applyAll ops l
        ⟨p.setAbortParsing, fileSize, filePos⟩).parser.cancelBackgroundParser = true) ∧
    ∀ (fileSize filePos : Nat) (u : parserBase.ParsedUnit),
      (⟨p.setAbortParsing, fileSize, filePos⟩ : parserBase.RunningParse PM).parseUnit u
        = ⟨p.setAbortParsing, fileSize, filePos⟩ :=
  ⟨rfl, rfl, rfl, rfl, rfl, rfl, rfl,
    fun fileSize filePos l => ParseEvent.applyAll_cancel ops l ⟨p.setAbortParsing, fileSize, filePos⟩ rfl,
    fun _ _ u => RunningParse.parseUnit_cancelled u _ rfl⟩

theorem Op.apply_progress (ops : PacketModelOps PM) (o : parserBase.Op) (p : parserBase PM) :
    (o.apply ops p).progressPercentValue = p.progressPercentValue := by
  cases o <;> rfl

theorem Op.applyAll_progress (ops : PacketModelOps PM) (l : List parserBase.Op) :
    ∀ p : parserBase PM, (parserBase.Op.applyAll ops l p).progressPercentValue = p.progressPercentValue := by
  induction l with
  | nil => intro p; rfl
  | cons o l ih =>
    intro p
    exact (ih (o.apply ops p)).trans (Op.apply_progress ops o p)

theorem percent_mono (fileSize a b : Nat) (h : a ≤ b) :
    (((min 100 (a * 100 / fileSize) : Nat) : Int)) ≤ ((min 100 (b * 100 / fileSize) : Nat) : Int) := by
  have h1 : a * 100 / fileSize ≤ b * 100 / fileSize :=
    Nat.div_le_div_right (Nat.mul_le_mul_right 100 h)
  exact Int.ofNat_le.mpr (min_le_min (le_refl 100) h1)

theorem ofStep_apply_progress (ops : PacketModelOps PM) (st : parserBase.Op ⊕ parserBase.ParsedUnit)
    (r : parserBase.RunningParse PM)
    (h : r.parser.progressPercentValue = ((min 100 (r.filePos * 100 / r.fileSize) : Nat) : Int)) :
    ((parserBase.ParseEvent.ofStep st).apply ops r).parser.progressPercentValue
        = ((min 100 (((parserBase.ParseEvent.ofStep st).apply ops r).filePos * 100
            / ((parserBase.ParseEvent.ofStep st).apply ops r).fileSize) : Nat) : Int) ∧
      ((parserBase.ParseEvent.ofStep st).apply ops r).fileSize = r.fileSize ∧
      r.filePos ≤ ((parserBase.ParseEvent.ofStep st).apply ops r).filePos := by
  cases st with
  | inl o =>
    refine ⟨?_, rfl, le_refl _⟩
    show (o.apply ops r.parser).progressPercentValue = _
    rw [Op.apply_progress]
    exact h
  | inr u =>
    by_cases hc : r.parser.cancelBackgroundParser = true
    · have e : (parserBase.ParseEvent.ofStep (Sum.inr u)).apply ops r = r :=
        RunningParse.parseUnit_cancelled u r hc
      rw [e]
      exact ⟨h, rfl, le_refl _⟩
    · simp only [parserBase.ParseEvent.ofStep, parserBase.ParseEvent.apply,
        parserBase.RunningParse.parseUnit, if_neg hc]
      exact ⟨trivial, trivial, Nat.le_add_right _ _⟩

theorem ofStep_applyAll_progress (ops : PacketModelOps PM)
    (l : List (parserBase.Op ⊕ parserBase.ParsedUnit)) :
    ∀ r : parserBase.RunningParse PM,
      r.parser.progressPercentValue = ((min 100 (r.filePos * 100 / r.fileSize) : Nat) : Int) →
      (parserBase.ParseEvent.applyAll ops (l.map parserBase.ParseEvent.ofStep) r).parser.progressPercentValue
          = ((min 100 ((parserBase.ParseEvent.applyAll ops
              (l.map parserBase.ParseEvent.ofStep) r).filePos * 100 / r.fileSize) : Nat) : Int) ∧
        (parserBase.ParseEvent.applyAll ops (l.map parserBase.ParseEvent.ofStep) r).fileSize
          = r.fileSize ∧
        r.filePos ≤ (parserBase.ParseEvent.applyAll ops (l.map parserBase.ParseEvent.ofStep) r).filePos := by
  induction l with
  | nil => intro r h; exact ⟨h, rfl, le_refl _⟩
  | cons st l ih =>
    intro r h
    obtain ⟨h1, h2, h3⟩ := ofStep_apply_progress ops st r h
    obtain ⟨g1, g2, g3⟩ := ih _ h1
    refine ⟨?_, g2.trans h2, le_trans h3 g3⟩
    rw [h2] at g1
    exact g1

theorem ParseEvent.applyAll_append (ops : PacketModelOps PM) (l₁ l₂ : List parserBase.ParseEvent)
    (r : parserBase.RunningParse PM) :
    parserBase.ParseEvent.applyAll ops (l₁ ++ l₂) r
      = parserBase.ParseEvent.applyAll ops l₂ (parserBase.ParseEvent.applyAll ops l₁ r) := by
  simp [parserBase.ParseEvent.applyAll, List.foldl_append]

/-- C10: `getParsingProgressPercent` is 0 on a new parser and at the entry of
`runParsingOfFile`; after any sequence of public operations of `parserBase`
and units read by the running `runParsingOfFile` it lies in 0..100; and over
any further such sequence it does not decrease. -/
theorem getParsingProgressPercent_range_mono (ops : PacketModelOps PM) (variant : ParserVariant) (pm : PM)
    (nrStreams fileSize : Nat) (l₁ l₂ : List (parserBase.Op ⊕ parserBase.ParsedUnit)) :
    (parserBase.new variant pm nrStreams).getParsingProgressPercent = 0 ∧
    0 ≤ (parserBase.ParseEvent.applyAll ops (l₁.map parserBase.ParseEvent.ofStep)
          (parserBase.runParsingOfFile fileSize (parserBase.new variant pm nrStreams))).parser.getParsingProgressPercent ∧
    (parserBase.ParseEvent.applyAll ops (l₁.map parserBase.ParseEvent.ofStep)
          (parserBase.runParsingOfFile fileSize (parserBase.new variant pm nrStreams))).parser.getParsingProgressPercent
        ≤ 100 ∧
    (parserBase.ParseEvent.applyAll ops (l₁.map parserBase.ParseEvent.ofStep)
          (parserBase.runParsingOfFile fileSize (parserBase.new variant pm nrStreams))).parser.getParsingProgressPercent
      ≤ (parserBase.ParseEvent.applyAll ops ((l₁ ++ l₂).map parserBase.ParseEvent.ofStep)
          (parserBase.runParsingOfFile fileSize (parserBase.new variant pm nrStreams))).parser.getParsingProgressPercent := by
  have h0 : (parserBase.runParsingOfFile fileSize
      (parserBase.new variant pm nrStreams)).parser.progressPercentValue
      = ((min 100 ((parserBase.runParsingOfFile fileSize
          (parserBase.new variant pm nrStreams)).filePos * 100
          / (parserBase.runParsingOfFile fileSize
          (parserBase.new variant pm nrStreams)).fileSize) : Nat) : Int) := by
    simp [parserBase.runParsingOfFile, parserBase.new]
  obtain ⟨h1, h2, _⟩ := ofStep_applyAll_progress ops l₁ _ h0
  refine ⟨rfl, ?_, ?_, ?_⟩
  · unfold parserBase.getParsingProgressPercent
    rw [h1]
    exact Int.ofNat_nonneg _
  · unfold parserBase.getParsingProgressPercent
    rw [h1]
    exact Int.ofNat_le.mpr (min_le_left 100 _)
  · rw [List.map_append, ParseEvent.applyAll_append]
    have h1' : (parserBase.ParseEvent.applyAll ops (l₁.map parserBase.ParseEvent.ofStep)
        (parserBase.runParsingOfFile fileSize
          (parserBase.new variant pm nrStreams))).parser.progressPercentValue
        = ((min 100 ((parserBase.ParseEvent.applyAll ops (l₁.map parserBase.ParseEvent.ofStep)
          (parserBase.runParsingOfFile fileSize (parserBase.new variant pm nrStreams))).filePos * 100
          / (parserBase.ParseEvent.applyAll ops (l₁.map parserBase.ParseEvent.ofStep)
          (parserBase.runParsingOfFile fileSize
            (parserBase.new variant pm nrStreams))).fileSize) : Nat) : Int) := by
      rw [h2]
      exact h1
    obtain ⟨g1, _, g3⟩ := ofStep_applyAll_progress ops l₂ _ h1'
    unfold parserBase.getParsingProgressPercent
    rw [g1, h1']
    exact percent_mono _ _ _ g3

/-- C8 (as stated, refuted): for the format AnnexB-MPEG2 the constructor installs
no parser: the `if`/`else if` chain leaves `parser` null and the following
`parser->enableModel()` is a call on a null parser. -/
theorem new_inputAnnexBMpeg2_parser_absent :
    (bitstreamAnalysisDialog.setupParser unitExternals .inputAnnexBMpeg2).isNone = true ∧
    (bitstreamAnalysisDialog.new unitExternals "stream.m2v" .inputAnnexBMpeg2).isNone = true :=
  ⟨rfl, rfl⟩

/-- C8 (amended): for the formats AnnexB-HEVC, AnnexB-AVC and container demux
(libavformat) the constructor succeeds, no member of a null parser is called,
and the dialog holds the parser class matching the format; for `inputInvalid`
it returns before any use of the parser, leaving the members as they were. -/
theorem new_installs_matching_variant (env : Externals PM) (fileName : String) :
    (∃ d, bitstreamAnalysisDialog.new env fileName .inputAnnexBHEVC = some d ∧
      d.parser.map (fun p => p.variant) = inputFormat.inputAnnexBHEVC.matchingParser) ∧
    (∃ d, bitstreamAnalysisDialog.new env fileName .inputAnnexBAVC = some d ∧
      d.parser.map (fun p => p.variant) = inputFormat.inputAnnexBAVC.matchingParser) ∧
    (∃ d, bitstreamAnalysisDialog.new env fileName .inputLibavformat = some d ∧
      d.parser.map (fun p => p.variant) = inputFormat.inputLibavformat.matchingParser) ∧
    bitstreamAnalysisDialog.new env fileName .inputInvalid = some bitstreamAnalysisDialog.initialMembers :=
  ⟨⟨_, rfl, rfl⟩, ⟨_, rfl, rfl⟩, ⟨_, rfl, rfl⟩, rfl⟩

/-- C9 (as stated, refuted): a parse that ends with the signal
`backgroundParsingDone` leaves the status "Parsing done." whether
`runParsingOfFile` returned false or true. -/
theorem finalStatus_same_for_failure_and_success :
    (bitstreamAnalysisDialog.new unitExternals "a.hevc" .inputAnnexBHEVC).bind
        (bitstreamAnalysisDialog.finalStatus unitExternals ⟨[.backgroundParsingDone], false⟩)
      = some .parsingDone ∧
    (bitstreamAnalysisDialog.new unitExternals "a.hevc" .inputAnnexBHEVC).bind
        (bitstreamAnalysisDialog.finalStatus unitExternals ⟨[.backgroundParsingDone], true⟩)
      = some .parsingDone :=
  ⟨rfl, rfl⟩

theorem deliverAll_append (env : Externals PM) (l₁ l₂ : List bitstreamAnalysisDialog.Signal) :
    ∀ d : bitstreamAnalysisDialog PM,
      bitstreamAnalysisDialog.deliverAll env (l₁ ++ l₂) d
        = (bitstreamAnalysisDialog.deliverAll env l₁ d).bind (bitstreamAnalysisDialog.deliverAll env l₂) := by
  induction l₁ with
  | nil => intro d; rfl
  | cons sig l ih =>
    intro d
    simp only [List.cons_append, bitstreamAnalysisDialog.deliverAll]
    cases bitstreamAnalysisDialog.deliver env sig d with
    | none => rfl
    | some d' => exact ih d'

/-- C9 (amended): the final status depends only on the signals delivered to the
dialog, not on the result of `runParsingOfFile`, which is discarded; whenever
the last signal is `backgroundParsingDone` the status shown is "Parsing done.". -/
theorem finalStatus_ignores_result (env : Externals PM) (signals : List bitstreamAnalysisDialog.Signal)
    (r₁ r₂ : Bool) (d : bitstreamAnalysisDialog PM) :
    bitstreamAnalysisDialog.finalStatus env ⟨signals, r₁⟩ d
      = bitstreamAnalysisDialog.finalStatus env ⟨signals, r₂⟩ d ∧
    bitstreamAnalysisDialog.finalStatus env ⟨signals ++ [.backgroundParsingDone], r₁⟩ d
      = (bitstreamAnalysisDialog.finalStatus env ⟨signals, r₁⟩ d).map (fun _ => StatusMessage.parsingDone) := by
  refine ⟨rfl, ?_⟩
  simp only [bitstreamAnalysisDialog.finalStatus, bitstreamAnalysisDialog.backgroundParsingFunction,
    deliverAll_append]
  cases bitstreamAnalysisDialog.deliverAll env signals d with
  | none => rfl
  | some d' => rfl

end ParserTheorems

/-! ## The fold of `plotSegment` -/

section PlotLemmas

variable {PM : Type}

open bitstreamAnalysisDialog

theorem linePoints_append (l₁ l₂ : List segmentBitrate) :
    linePoints (l₁ ++ l₂) = linePoints l₁ ++ linePoints l₂ := by
  induction l₁ with
  | nil => rfl
  | cons s l ih => simp [linePoints, ih]

theorem QMap.index_fst {V : Type} (dflt : V) (m : QMap V) (k : Nat) :
    (QMap.index dflt m k).1 = QMap.value dflt m k := by
  unfold QMap.index QMap.value
  cases m k <;> rfl

theorem QMap.index_snd_self {V : Type} (dflt : V) (m : QMap V) (k : Nat) :
    (QMap.index dflt m k).2 k = some (QMap.value dflt m k) := by
  unfold QMap.index QMap.value
  cases h : m k <;> simp [h, QMap.insert]

theorem QMap.index_snd_of_ne {V : Type} (dflt : V) (m : QMap V) (k j : Nat) (h : j ≠ k) :
    (QMap.index dflt m k).2 j = m j := by
  unfold QMap.index
  cases hk : m k <;> simp [QMap.insert, h]

theorem QMap.index_snd_value {V : Type} (dflt : V) (m : QMap V) (k j : Nat) :
    QMap.value dflt (QMap.index dflt m k).2 j = QMap.value dflt m j := by
  by_cases h : j = k
  · subst h
    simp [QMap.value, QMap.index_snd_self]
  · simp [QMap.value, QMap.index_snd_of_ne _ _ _ _ h]

theorem QMap.index_snd_of_some {V : Type} (dflt : V) (m : QMap V) (k : Nat) (h : m k ≠ none) :
    (QMap.index dflt m k).2 = m := by
  unfold QMap.index
  cases hk : m k with
  | none => exact absurd hk h
  | some v => rfl

theorem plotSegment_added (k : Nat) (d : bitstreamAnalysisDialog PM) (s : segmentBitrate) :
    (plotSegment k d s).addedSegmentsPerStream
      = d.addedSegmentsPerStream.insert k (QMap.value 0 d.addedSegmentsPerStream k + 1) := by
  show (QMap.index 0 d.addedSegmentsPerStream k).2.insert k ((QMap.index 0 d.addedSegmentsPerStream k).1 + 1) = _
  funext j
  by_cases hj : j = k
  · simp [QMap.insert, hj, QMap.index_fst]
  · simp [QMap.insert, hj, QMap.index_snd_of_ne _ _ _ _ hj]

theorem toInt64_of_lt (n : Nat) (h : n < 9223372036854775808) : toInt64 (n : Int) = (n : Int) := by
  unfold toInt64
  omega

theorem plotSegment_range (k : Nat) (d : bitstreamAnalysisDialog PM) (s : segmentBitrate) :
    (plotSegment k d s).rangeAxisX.1
      = (if d.axisRangeInitialized = false then s.startTime else min d.rangeAxisX.1 s.startTime) ∧
    (plotSegment k d s).rangeAxisX.2
      = (if d.axisRangeInitialized = false then s.endTime else max d.rangeAxisX.2 s.endTime) ∧
    (plotSegment k d s).rangeAxisY.2
      = (if d.axisRangeInitialized = false then toInt64 s.bytes
         else max d.rangeAxisY.2 (toInt64 s.bytes)) := by
  cases hinit : d.axisRangeInitialized
  · simp [plotSegment, hinit]
  · simp only [plotSegment, hinit, Bool.true_eq_false, if_false]
    refine ⟨?_, ?_, ?_⟩
    · split_ifs <;> simp only [min_def] <;> split_ifs <;> (try simp only [] at *) <;> omega
    · split_ifs <;> simp only [max_def] <;> split_ifs <;> (try simp only [] at *) <;> omega
    · split_ifs <;> simp only [max_def] <;> split_ifs <;> (try simp only [] at *) <;> omega

theorem foldl_plotSegment_frame (k : Nat) (segs : List segmentBitrate) :
    ∀ d : bitstreamAnalysisDialog PM,
      (segs.foldl (plotSegment k) d).parser = d.parser ∧
      (segs.foldl (plotSegment k) d).chartAxisX = d.chartAxisX ∧
      (segs.foldl (plotSegment k) d).chartAxisY = d.chartAxisY := by
  induction segs with
  | nil => intro d; exact ⟨rfl, rfl, rfl⟩
  | cons s l ih => intro d; exact ih (plotSegment k d s)

theorem appendToSeries_length (series : List (Option (List Point))) (k : Nat) (pts : List Point) :
    (appendToSeries series k pts).length = series.length := by
  unfold appendToSeries
  split <;> simp

theorem appendToSeries_self (series : List (Option (List Point))) (k : Nat) (old pts : List Point)
    (h : series[k]? = some (some old)) : (appendToSeries series k pts)[k]? = some (some (old ++ pts)) := by
  have hk : k < series.length := by
    rcases Nat.lt_or_ge k series.length with hlt | hge
    · exact hlt
    · rw [List.getElem?_eq_none hge] at h; cases h
  unfold appendToSeries
  rw [h]
  simp [hk]

theorem appendToSeries_of_ne (series : List (Option (List Point))) (k j : Nat) (pts : List Point)
    (h : j ≠ k) : (appendToSeries series k pts)[j]? = series[j]? := by
  unfold appendToSeries
  split
  · simp [List.getElem?_set, Ne.symm h]
  · rfl

theorem foldl_plotSegment_series (k : Nat) (segs : List segmentBitrate) :
    ∀ (d : bitstreamAnalysisDialog PM) (pts : List Point), d.series[k]? = some (some pts) →
      (segs.foldl (plotSegment k) d).series.length = d.series.length ∧
      (segs.foldl (plotSegment k) d).series[k]? = some (some (pts ++ linePoints segs)) ∧
      ∀ j, j ≠ k → (segs.foldl (plotSegment k) d).series[j]? = d.series[j]? := by
  induction segs with
  | nil => intro d pts h; simp [linePoints, h]
  | cons s l ih =>
    intro d pts h
    have h1 : (plotSegment k d s).series[k]?
        = some (some (pts ++ [(s.startTime, s.bytes), (s.endTime, s.bytes)])) :=
      appendToSeries_self d.series k pts _ h
    obtain ⟨hlen, hk, hne⟩ := ih (plotSegment k d s) _ h1
    refine ⟨?_, ?_, ?_⟩
    · rw [List.foldl_cons, hlen]
      exact appendToSeries_length d.series k _
    · rw [List.foldl_cons, hk]
      simp [linePoints]
    · intro j hj
      rw [List.foldl_cons, hne j hj]
      exact appendToSeries_of_ne d.series k j _ hj

theorem foldl_plotSegment_added (k : Nat) (segs : List segmentBitrate) :
    ∀ d : bitstreamAnalysisDialog PM,
      QMap.value 0 (segs.foldl (plotSegment k) d).addedSegmentsPerStream k
        = QMap.value 0 d.addedSegmentsPerStream k + segs.length ∧
      (d.addedSegmentsPerStream k ≠ none → (segs.foldl (plotSegment k) d).addedSegmentsPerStream k ≠ none) ∧
      ∀ j, j ≠ k → (segs.foldl (plotSegment k) d).addedSegmentsPerStream j = d.addedSegmentsPerStream j := by
  induction segs with
  | nil => intro d; simp
  | cons s l ih =>
    intro d
    obtain ⟨hv, hk, hne⟩ := ih (plotSegment k d s)
    refine ⟨?_, ?_, ?_⟩
    · rw [List.foldl_cons, hv, plotSegment_added]
      simp [QMap.value, QMap.insert]
      omega
    · intro _
      rw [List.foldl_cons]
      apply hk
      rw [plotSegment_added]
      simp [QMap.insert]
    · intro j hj
      rw [List.foldl_cons, hne j hj, plotSegment_added]
      simp [QMap.insert, hj]

theorem segmentsOf_eq (d : bitstreamAnalysisDialog PM) (p : parserBase PM) (hp : d.parser = some p)
    (j : Nat) : segmentsOf d j = QMap.value [] p.segmentBitrateListPerStream j := by
  simp [segmentsOf, hp]

theorem nrStreams_eq (d : bitstreamAnalysisDialog PM) (p : parserBase PM) (hp : d.parser = some p) :
    nrStreams d = p.nrStreams := by
  simp [nrStreams, hp, parserBase.getNrStreams]

theorem streamBody_eq (k : Nat) (d : bitstreamAnalysisDialog PM) (p : parserBase PM) (pts : List Point)
    (hp : d.parser = some p) (hs : d.series[k]? = some (some pts)) :
    streamBody k d = some (true,
      ((segmentsOf d k).drop (addedSegments d k)).foldl (plotSegment k) (streamBodyStart k p d)) := by
  simp only [streamBody, hs, hp, segmentsOf, addedSegments, streamBodyStart,
    parserBase.getSegmentBitrateList, QMap.index_fst]

theorem streamBodyStart_samePlot (k : Nat) (d : bitstreamAnalysisDialog PM) (p : parserBase PM)
    (hp : d.parser = some p) : SamePlot d (streamBodyStart k p d) ∧ HasKeys (streamBodyStart k p d) k := by
  have hseg : ∀ j, segmentsOf (streamBodyStart k p d) j = segmentsOf d j := by
    intro j
    simp [segmentsOf, streamBodyStart, hp, parserBase.getSegmentBitrateList, QMap.index_snd_value]
  have hadd : ∀ j, addedSegments (streamBodyStart k p d) j = addedSegments d j := by
    intro j
    simp [addedSegments, streamBodyStart, QMap.index_snd_value]
  have hkeys : ∀ j, HasKeys d j → HasKeys (streamBodyStart k p d) j := by
    intro j hj
    constructor
    · show (QMap.index 0 d.addedSegmentsPerStream k).2 j ≠ none
      by_cases h : j = k
      · subst h; simp [QMap.index_snd_self]
      · rw [QMap.index_snd_of_ne _ _ _ _ h]; exact hj.1
    · intro q hq
      have hq' : q = (p.getSegmentBitrateList k).2 := by
        simpa [streamBodyStart] using hq.symm
      subst hq'
      show (QMap.index [] p.segmentBitrateListPerStream k).2 j ≠ none
      by_cases h : j = k
      · subst h; simp [QMap.index_snd_self]
      · rw [QMap.index_snd_of_ne _ _ _ _ h]; exact hj.2 p hp
  refine ⟨⟨rfl, hadd, rfl, rfl, rfl, rfl, rfl, ?_, hseg, hkeys⟩, ?_, ?_⟩
  · simp [nrStreams, streamBodyStart, hp, parserBase.getSegmentBitrateList, parserBase.getNrStreams]
  · show (QMap.index 0 d.addedSegmentsPerStream k).2 k ≠ none
    simp [QMap.index_snd_self]
  · intro q hq
    have hq' : q = (p.getSegmentBitrateList k).2 := by
      simpa [streamBodyStart] using hq.symm
    subst hq'
    show (QMap.index [] p.segmentBitrateListPerStream k).2 k ≠ none
    simp [QMap.index_snd_self]

theorem streamBodyStart_eq_self (k : Nat) (d : bitstreamAnalysisDialog PM) (p : parserBase PM)
    (hp : d.parser = some p) (hk : HasKeys d k) : streamBodyStart k p d = d := by
  have h1 : (QMap.index 0 d.addedSegmentsPerStream k).2 = d.addedSegmentsPerStream :=
    QMap.index_snd_of_some _ _ _ hk.1
  have h2 : (QMap.index [] p.segmentBitrateListPerStream k).2 = p.segmentBitrateListPerStream :=
    QMap.index_snd_of_some _ _ _ (hk.2 p hp)
  have h3 : (p.getSegmentBitrateList k).2 = p := by
    show ({ p with segmentBitrateListPerStream := (QMap.index [] p.segmentBitrateListPerStream k).2 }
      : parserBase PM) = p
    rw [h2]
  unfold streamBodyStart
  rw [h1, h3, ← hp]

theorem RangeInv_congr (d : bitstreamAnalysisDialog PM) (Q Q' : segmentBitrate → Prop)
    (h : ∀ x, Q x ↔ Q' x) (hr : RangeInv d Q) : RangeInv d Q' := by
  have hQ : Q = Q' := funext fun x => propext (h x)
  rw [← hQ]
  exact hr

theorem RangeInv_of_same (d₁ d₂ : bitstreamAnalysisDialog PM) (Q : segmentBitrate → Prop)
    (hx : d₂.rangeAxisX = d₁.rangeAxisX) (hy : d₂.rangeAxisY = d₁.rangeAxisY)
    (hi : d₂.axisRangeInitialized = d₁.axisRangeInitialized) (hr : RangeInv d₁ Q) : RangeInv d₂ Q := by
  unfold RangeInv RangeOK at *
  rw [hx, hy, hi]
  exact hr

theorem Widens_refl (d : bitstreamAnalysisDialog PM) : Widens d d :=
  ⟨le_refl _, le_refl _, le_refl _⟩

theorem Widens_trans (d₁ d₂ d₃ : bitstreamAnalysisDialog PM) (h₁ : Widens d₁ d₂) (h₂ : Widens d₂ d₃) :
    Widens d₁ d₃ :=
  ⟨le_trans h₂.1 h₁.1, le_trans h₁.2.1 h₂.2.1, le_trans h₁.2.2 h₂.2.2⟩

theorem plotSegment_rangeOK (k : Nat) (d : bitstreamAnalysisDialog PM) (s : segmentBitrate)
    (Q : segmentBitrate → Prop) (h : RangeInv d Q) (hb : s.bytes < 9223372036854775808) :
    RangeOK (plotSegment k d s) (fun x => Q x ∨ x = s) := by
  obtain ⟨hx1, hx2, hy⟩ := plotSegment_range k d s
  rw [toInt64_of_lt _ hb] at hy
  unfold RangeOK
  rw [hx1, hx2, hy]
  rcases h with ⟨hinit, hQ⟩ | ⟨hinit, hall, ⟨s1, hs1, e1⟩, ⟨s2, hs2, e2⟩, ⟨s3, hs3, e3⟩⟩
  · simp only [hinit, if_true]
    refine ⟨?_, ⟨s, Or.inr rfl, rfl⟩, ⟨s, Or.inr rfl, rfl⟩, ⟨s, Or.inr rfl, rfl⟩⟩
    intro x hx
    rcases hx with hx | rfl
    · exact absurd hx (hQ x)
    · exact ⟨le_refl _, le_refl _, le_refl _⟩
  · simp only [hinit, Bool.true_eq_false, if_false]
    refine ⟨?_, ?_, ?_, ?_⟩
    · intro x hx
      rcases hx with hx | rfl
      · obtain ⟨a, b, c⟩ := hall x hx
        exact ⟨le_trans (min_le_left _ _) a, le_trans b (le_max_left _ _), le_trans c (le_max_left _ _)⟩
      · exact ⟨min_le_right _ _, le_max_right _ _, le_max_right _ _⟩
    · rcases min_choice d.rangeAxisX.1 s.startTime with h | h
      · exact ⟨s1, Or.inl hs1, by rw [h]; exact e1⟩
      · exact ⟨s, Or.inr rfl, h⟩
    · rcases max_choice d.rangeAxisX.2 s.endTime with h | h
      · exact ⟨s2, Or.inl hs2, by rw [h]; exact e2⟩
      · exact ⟨s, Or.inr rfl, h⟩
    · rcases max_choice d.rangeAxisY.2 (s.bytes : Int) with h | h
      · exact ⟨s3, Or.inl hs3, by rw [h]; exact e3⟩
      · exact ⟨s, Or.inr rfl, h⟩

theorem plotSegment_widens (k : Nat) (d : bitstreamAnalysisDialog PM) (s : segmentBitrate)
    (hinit : d.axisRangeInitialized = true) : Widens d (plotSegment k d s) := by
  obtain ⟨hx1, hx2, hy⟩ := plotSegment_range k d s
  unfold Widens
  rw [hx1, hx2, hy]
  simp only [hinit, Bool.true_eq_false, if_false]
  exact ⟨min_le_left _ _, le_max_left _ _, le_max_left _ _⟩

theorem foldl_plotSegment_initialized (k : Nat) (segs : List segmentBitrate) :
    ∀ d : bitstreamAnalysisDialog PM, d.axisRangeInitialized = true →
      (segs.foldl (plotSegment k) d).axisRangeInitialized = true := by
  induction segs with
  | nil => intro d h; exact h
  | cons s l ih => intro d _; exact ih (plotSegment k d s) rfl

theorem foldl_plotSegment_widens (k : Nat) (segs : List segmentBitrate) :
    ∀ d : bitstreamAnalysisDialog PM, d.axisRangeInitialized = true →
      Widens d (segs.foldl (plotSegment k) d) := by
  induction segs with
  | nil => intro d _; exact Widens_refl d
  | cons s l ih =>
    intro d h
    exact Widens_trans _ _ _ (plotSegment_widens k d s h) (ih (plotSegment k d s) rfl)

theorem foldl_plotSegment_range (k : Nat) (segs : List segmentBitrate) :
    ∀ (d : bitstreamAnalysisDialog PM) (Q : segmentBitrate → Prop), RangeInv d Q →
      (∀ s, s ∈ segs → s.bytes < 9223372036854775808) →
      RangeInv (segs.foldl (plotSegment k) d) (fun x => Q x ∨ x ∈ segs) := by
  induction segs with
  | nil =>
    intro d Q h _
    exact RangeInv_congr d Q _ (fun x => by simp) h
  | cons s l ih =>
    intro d Q h hb
    have h1 : RangeInv (plotSegment k d s) (fun x => Q x ∨ x = s) :=
      Or.inr ⟨rfl, plotSegment_rangeOK k d s Q h (hb s (List.mem_cons_self s l))⟩
    have h2 := ih (plotSegment k d s) _ h1 (fun x hx => hb x (List.mem_cons_of_mem s hx))
    refine RangeInv_congr _ _ _ (fun x => ?_) h2
    simp only [List.mem_cons]
    tauto

theorem nrStreams_congr (d₁ d₂ : bitstreamAnalysisDialog PM) (h : d₂.parser = d₁.parser) :
    nrStreams d₂ = nrStreams d₁ := by
  unfold nrStreams; rw [h]

theorem segmentsOf_congr (d₁ d₂ : bitstreamAnalysisDialog PM) (h : d₂.parser = d₁.parser) (j : Nat) :
    segmentsOf d₂ j = segmentsOf d₁ j := by
  unfold segmentsOf; rw [h]

theorem HasKeys_congr (d₁ d₂ : bitstreamAnalysisDialog PM) (j : Nat) (hp : d₂.parser = d₁.parser)
    (ha : d₁.addedSegmentsPerStream j ≠ none → d₂.addedSegmentsPerStream j ≠ none)
    (h : HasKeys d₁ j) : HasKeys d₂ j :=
  ⟨ha h.1, fun q hq => h.2 q (hp ▸ hq)⟩

theorem streamBody_step (k : Nat) (d : bitstreamAnalysisDialog PM) (p : parserBase PM)
    (hp : d.parser = some p) (hk : k < nrStreams d) (hplot : PlotInv d) (hcount : CountInv d) :
    ∃ d', streamBody k d = some (true, d') ∧ Step d d' ∧
      addedSegments d' k = (segmentsOf d k).length ∧ HasKeys d' k := by
  have hs := hplot.2 k hk
  obtain ⟨⟨hser1, hadd1, hrx1, hry1, hinit1, hcx1, hcy1, hnr1, hseg1, hk1⟩, hkeys1⟩ :=
    streamBodyStart_samePlot k d p hp
  have hs1 : (streamBodyStart k p d).series[k]?
      = some (some (linePoints ((segmentsOf d k).take (addedSegments d k)))) := by
    rw [hser1]; exact hs
  obtain ⟨hfp, hfx, hfy⟩ :=
    foldl_plotSegment_frame k ((segmentsOf d k).drop (addedSegments d k)) (streamBodyStart k p d)
  obtain ⟨hflen, hfk, hfne⟩ :=
    foldl_plotSegment_series k ((segmentsOf d k).drop (addedSegments d k)) (streamBodyStart k p d) _ hs1
  obtain ⟨hav, hak, hane⟩ :=
    foldl_plotSegment_added k ((segmentsOf d k).drop (addedSegments d k)) (streamBodyStart k p d)
  have hle := hcount k
  have hnr : nrStreams (((segmentsOf d k).drop (addedSegments d k)).foldl (plotSegment k)
      (streamBodyStart k p d)) = nrStreams d := (nrStreams_congr _ _ hfp).trans hnr1
  have hseg : ∀ j, segmentsOf (((segmentsOf d k).drop (addedSegments d k)).foldl (plotSegment k)
      (streamBodyStart k p d)) j = segmentsOf d j := fun j => (segmentsOf_congr _ _ hfp j).trans (hseg1 j)
  have haddk : addedSegments (((segmentsOf d k).drop (addedSegments d k)).foldl (plotSegment k)
      (streamBodyStart k p d)) k = (segmentsOf d k).length := by
    have h1 : QMap.value 0 (streamBodyStart k p d).addedSegmentsPerStream k = addedSegments d k := hadd1 k
    have h0 : ∀ x : bitstreamAnalysisDialog PM,
        addedSegments x k = QMap.value 0 x.addedSegmentsPerStream k := fun _ => rfl
    rw [h0, hav, h1, List.length_drop]
    omega
  have haddne : ∀ j, j ≠ k → addedSegments (((segmentsOf d k).drop (addedSegments d k)).foldl
      (plotSegment k) (streamBodyStart k p d)) j = addedSegments d j := by
    intro j hj
    have h0 : ∀ x : bitstreamAnalysisDialog PM,
        addedSegments x j = (x.addedSegmentsPerStream j).getD 0 := fun _ => rfl
    rw [← hadd1 j, h0, h0, hane j hj]
  have hkeys : ∀ j, HasKeys (streamBodyStart k p d) j →
      HasKeys (((segmentsOf d k).drop (addedSegments d k)).foldl (plotSegment k)
        (streamBodyStart k p d)) j := by
    intro j hj
    refine HasKeys_congr _ _ j hfp ?_ hj
    by_cases h : j = k
    · subst h; exact hak
    · rw [hane j h]; exact id
  have hplotted : ∀ x, Plotted (((segmentsOf d k).drop (addedSegments d k)).foldl (plotSegment k)
      (streamBodyStart k p d)) x ↔
      (Plotted d x ∨ x ∈ (segmentsOf d k).drop (addedSegments d k)) := by
    intro x
    constructor
    · rintro ⟨j, hj, hx⟩
      rw [hnr] at hj
      rw [hseg] at hx
      by_cases h : j = k
      · subst h
        rw [haddk, List.take_length] at hx
        rw [← List.take_append_drop (addedSegments d j) (segmentsOf d j), List.mem_append] at hx
        rcases hx with hx | hx
        · exact Or.inl ⟨j, hj, hx⟩
        · exact Or.inr hx
      · rw [haddne j h] at hx
        exact Or.inl ⟨j, hj, hx⟩
    · rintro (⟨j, hj, hx⟩ | hx)
      · refine ⟨j, by rw [hnr]; exact hj, ?_⟩
        rw [hseg]
        by_cases h : j = k
        · subst h
          rw [haddk, List.take_length]
          exact List.mem_of_mem_take hx
        · rw [haddne j h]; exact hx
      · refine ⟨k, by rw [hnr]; exact hk, ?_⟩
        rw [hseg, haddk, List.take_length]
        exact List.mem_of_mem_drop hx
  refine ⟨_, streamBody_eq k d p _ hp hs, ?_, haddk, hkeys k hkeys1⟩
  refine
    { parser := ⟨_, hfp⟩
      nr := hnr
      segs := hseg
      mono := ?_
      keys := fun j hj => hkeys j (hk1 j hj)
      plot := ?_
      count := ?_
      axisX := hfx.trans hcx1
      axisY := hfy.trans hcy1
      range := ?_
      widens := ?_
      quiet := ?_
      fixed := ?_ }
  · intro j
    by_cases h : j = k
    · subst h; rw [haddk]; exact hle
    · rw [haddne j h]
  · refine ⟨?_, ?_⟩
    · rw [hflen, hser1, hnr]; exact hplot.1
    · intro j hj
      rw [hnr] at hj
      rw [hseg]
      by_cases h : j = k
      · subst h
        rw [hfk, haddk, List.take_length, ← linePoints_append, List.take_append_drop]
      · rw [hfne j h, haddne j h, hser1]
        exact hplot.2 j hj
  · intro j
    rw [hseg]
    by_cases h : j = k
    · subst h; rw [haddk]
    · rw [haddne j h]; exact hcount j
  · intro hb hr
    have hr1 : RangeInv (streamBodyStart k p d) (Plotted d) := RangeInv_of_same d _ _ hrx1 hry1 hinit1 hr
    have hr2 := foldl_plotSegment_range k ((segmentsOf d k).drop (addedSegments d k)) _ _ hr1
      (fun x hx => hb k x (List.mem_of_mem_drop hx))
    exact RangeInv_congr _ _ _ (fun x => (hplotted x).symm) hr2
  · intro hi
    have hi1 : (streamBodyStart k p d).axisRangeInitialized = true := hinit1.trans hi
    exact ⟨foldl_plotSegment_widens k _ (streamBodyStart k p d) hi1,
      foldl_plotSegment_initialized k _ (streamBodyStart k p d) hi1⟩
  · intro hno
    have hnil : (segmentsOf d k).drop (addedSegments d k) = [] :=
      List.drop_eq_nil_of_le (le_of_eq (hno k hk).symm)
    rw [hnil]
    exact ⟨hser1, hadd1, hrx1, hry1, hinit1, hcx1, hcy1, hnr1, hseg1, hk1⟩
  · intro hno hkeys0
    have hnil : (segmentsOf d k).drop (addedSegments d k) = [] :=
      List.drop_eq_nil_of_le (le_of_eq (hno k hk).symm)
    rw [hnil]
    exact streamBodyStart_eq_self k d p hp (hkeys0 k hk)

theorem NoNew_of_samePlot (d₁ d₂ : bitstreamAnalysisDialog PM) (h : SamePlot d₁ d₂) (hno : NoNew d₁) :
    NoNew d₂ := by
  obtain ⟨_, hadd, _, _, _, _, _, hnr, hseg, _⟩ := h
  intro k hk
  rw [hadd, hseg]
  exact hno k (hnr ▸ hk)

theorem SamePlot_trans (d₁ d₂ d₃ : bitstreamAnalysisDialog PM) (h₁ : SamePlot d₁ d₂)
    (h₂ : SamePlot d₂ d₃) : SamePlot d₁ d₃ := by
  obtain ⟨a1, a2, a3, a4, a5, a6, a7, a8, a9, a10⟩ := h₁
  obtain ⟨b1, b2, b3, b4, b5, b6, b7, b8, b9, b10⟩ := h₂
  exact ⟨b1.trans a1, fun j => (b2 j).trans (a2 j), b3.trans a3, b4.trans a4, b5.trans a5,
    b6.trans a6, b7.trans a7, b8.trans a8, fun j => (b9 j).trans (a9 j), fun j hj => b10 j (a10 j hj)⟩

theorem Step_trans (d₁ d₂ d₃ : bitstreamAnalysisDialog PM) (h₁ : Step d₁ d₂) (h₂ : Step d₂ d₃) :
    Step d₁ d₃ where
  parser := h₂.parser
  nr := h₂.nr.trans h₁.nr
  segs := fun j => (h₂.segs j).trans (h₁.segs j)
  mono := fun j => le_trans (h₁.mono j) (h₂.mono j)
  keys := fun j hj => h₂.keys j (h₁.keys j hj)
  plot := h₂.plot
  count := h₂.count
  axisX := h₂.axisX.trans h₁.axisX
  axisY := h₂.axisY.trans h₁.axisY
  range := fun hb hr => h₂.range (fun k x hx => hb k x (h₁.segs k ▸ hx)) (h₁.range hb hr)
  widens := fun hi =>
    ⟨Widens_trans _ _ _ (h₁.widens hi).1 (h₂.widens (h₁.widens hi).2).1, (h₂.widens (h₁.widens hi).2).2⟩
  quiet := fun hno =>
    SamePlot_trans _ _ _ (h₁.quiet hno) (h₂.quiet (NoNew_of_samePlot _ _ (h₁.quiet hno) hno))
  fixed := fun hno hk => by
    have e := h₁.fixed hno hk
    subst e
    exact h₂.fixed hno hk

theorem Step_refl (d : bitstreamAnalysisDialog PM) (p : parserBase PM) (hp : d.parser = some p)
    (hplot : PlotInv d) (hcount : CountInv d) : Step d d where
  parser := ⟨p, hp⟩
  nr := rfl
  segs := fun _ => rfl
  mono := fun _ => le_refl _
  keys := fun _ h => h
  plot := hplot
  count := hcount
  axisX := rfl
  axisY := rfl
  range := fun _ h => h
  widens := fun hi => ⟨Widens_refl d, hi⟩
  quiet := fun _ => ⟨rfl, fun _ => rfl, rfl, rfl, rfl, rfl, rfl, rfl, fun _ => rfl, fun _ h => h⟩
  fixed := fun _ _ => rfl

theorem streamLoop_step (ks : List Nat) :
    ∀ (d : bitstreamAnalysisDialog PM) (p : parserBase PM), d.parser = some p →
      (∀ k, k ∈ ks → k < nrStreams d) → PlotInv d → CountInv d →
      ∃ d', streamLoop ks d = some (true, d') ∧ Step d d' ∧
        ∀ k, k ∈ ks → addedSegments d' k = (segmentsOf d' k).length ∧ HasKeys d' k := by
  induction ks with
  | nil =>
    intro d p hp _ hplot hcount
    exact ⟨d, rfl, Step_refl d p hp hplot hcount, fun k hk => absurd hk (List.not_mem_nil k)⟩
  | cons k ks ih =>
    intro d p hp hks hplot hcount
    obtain ⟨d1, hbody, hstep1, hadd1, hkeys1⟩ :=
      streamBody_step k d p hp (hks k (List.mem_cons_self k ks)) hplot hcount
    obtain ⟨p1, hp1⟩ := hstep1.parser
    obtain ⟨d2, hloop, hstep2, hall⟩ := ih d1 p1 hp1
      (fun j hj => by rw [hstep1.nr]; exact hks j (List.mem_cons_of_mem k hj)) hstep1.plot hstep1.count
    refine ⟨d2, ?_, Step_trans _ _ _ hstep1 hstep2, ?_⟩
    · simp only [streamLoop, hbody]
      exact hloop
    · intro j hj
      rcases List.mem_cons.mp hj with rfl | hj'
      · refine ⟨?_, hstep2.keys j hkeys1⟩
        have h1 := hstep2.mono j
        have h2 := hstep2.count j
        rw [hstep2.segs j, hstep1.segs j] at h2 ⊢
        omega
      · exact hall j hj'

theorem seriesPoints_congr (d₁ d₂ : bitstreamAnalysisDialog PM) (h : d₂.series = d₁.series) (k : Nat) :
    seriesPoints d₂ k = seriesPoints d₁ k := by
  unfold seriesPoints; rw [h]

theorem setAxisRanges_eq_self (d : bitstreamAnalysisDialog PM) (hx : d.chartAxisX = some d.rangeAxisX)
    (hy : d.chartAxisY = some d.rangeAxisY) : setAxisRanges d = d := by
  unfold setAxisRanges
  rw [← hx, ← hy]

theorem updateBitrateDisplay_loop (d d₁ : bitstreamAnalysisDialog PM) (p : parserBase PM)
    (hp : d₁.parser = some p) (hn : 0 < nrStreams d)
    (hnr : nrStreams d₁ = nrStreams d) (hseg : ∀ j, segmentsOf d₁ j = segmentsOf d j)
    (hadd : ∀ j, addedSegments d₁ j = addedSegments d j)
    (hrx : d₁.rangeAxisX = d.rangeAxisX) (hry : d₁.rangeAxisY = d.rangeAxisY)
    (hinit : d₁.axisRangeInitialized = d.axisRangeInitialized)
    (hplot : PlotInv d₁) (hcount : CountInv d)
    (hview : ∀ k, seriesPoints d₁ k = seriesPoints d k) (hfix : PlotInv d → d₁ = d) :
    ∃ d₂, streamLoop (List.range (nrStreams d)) d₁ = some (true, d₂) ∧ Call d (setAxisRanges d₂) := by
  have hcount1 : CountInv d₁ := fun k => by rw [hadd, hseg]; exact hcount k
  obtain ⟨d₂, hloop, hstep, hall⟩ := streamLoop_step (List.range (nrStreams d)) d₁ p hp
    (fun k hk => by rw [hnr]; exact List.mem_range.mp hk) hplot hcount1
  have hplotted : ∀ x, Plotted d x ↔ Plotted d₁ x := by
    intro x
    unfold Plotted
    simp only [hnr, hseg, hadd]
  have hno1 : NoNew d → NoNew d₁ := fun hno k hk => by
    rw [hadd, hseg]; exact hno k (hnr ▸ hk)
  refine ⟨d₂, hloop, ?_⟩
  refine
    { parser := hstep.parser
      nr := hstep.nr.trans hnr
      segs := fun j => (hstep.segs j).trans (hseg j)
      inv := Or.inr hstep.plot
      count := hstep.count
      range := ?_
      widens := ?_
      synced := ?_
      quiet := ?_
      fixed := ?_ }
  · intro hb hr
    have hb1 : BytesOK d₁ := fun k x hx => hb k x (hseg k ▸ hx)
    have hr1 : RangeInv d₁ (Plotted d₁) :=
      RangeInv_congr _ _ _ hplotted (RangeInv_of_same d d₁ _ hrx hry hinit hr)
    exact hstep.range hb1 hr1
  · intro hi
    obtain ⟨hw, hi2⟩ := hstep.widens (hinit.trans hi)
    refine ⟨?_, hi2⟩
    unfold Widens at hw ⊢
    rw [hrx, hry] at hw
    exact hw
  · intro _
    refine ⟨hstep.plot, ?_, ?_, rfl, rfl⟩
    · intro k hk
      have hk' : k < nrStreams d := by
        have e : nrStreams (setAxisRanges d₂) = nrStreams d := hstep.nr.trans hnr
        rw [← e]; exact hk
      exact (hall k (List.mem_range.mpr hk')).1
    · intro k hk
      have hk' : k < nrStreams d := by
        have e : nrStreams (setAxisRanges d₂) = nrStreams d := hstep.nr.trans hnr
        rw [← e]; exact hk
      exact (hall k (List.mem_range.mpr hk')).2
  · intro hno
    obtain ⟨a1, a2, a3, a4, a5, _, _, _, _, _⟩ := hstep.quiet (hno1 hno)
    exact ⟨fun k => (seriesPoints_congr d₁ d₂ a1 k).trans (hview k), fun k => (a2 k).trans (hadd k),
      a3.trans hrx, a4.trans hry, a5.trans hinit⟩
  · intro hno hset hpl
    have e := hfix hpl
    subst e
    have e2 := hstep.fixed hno hset.1
    subst e2
    exact setAxisRanges_eq_self _ hset.2.1 hset.2.2

theorem addedSegments_of_unplotted (d : bitstreamAnalysisDialog PM) (h : Unplotted d) (k : Nat) :
    addedSegments d k = 0 := by
  unfold addedSegments
  rw [h.2.1]
  rfl

theorem updateBitrateDisplay_call (d : bitstreamAnalysisDialog PM) (p : parserBase PM)
    (hp : d.parser = some p) (hinv : Unplotted d ∨ PlotInv d) (hcount : CountInv d) :
    ∃ d', updateBitrateDisplay d = some d' ∧ Call d d' := by
  have hnrp : nrStreams d = p.getNrStreams := by simp [nrStreams, hp]
  by_cases hn : p.getNrStreams = 0
  · refine ⟨d, by simp [updateBitrateDisplay, hp, hn], ?_⟩
    exact
      { parser := ⟨p, hp⟩
        nr := rfl
        segs := fun _ => rfl
        inv := hinv
        count := hcount
        range := fun _ h => h
        widens := fun hi => ⟨Widens_refl d, hi⟩
        synced := fun h => absurd (hnrp ▸ h) (by omega)
        quiet := fun _ => ⟨fun _ => rfl, fun _ => rfl, rfl, rfl, rfl⟩
        fixed := fun _ _ _ => rfl }
  · have hpos : 0 < nrStreams d := by omega
    by_cases hlen : d.series.length = 0
    · have hun : Unplotted d := by
        rcases hinv with h | h
        · exact h
        · have := h.1; omega
      have hz := addedSegments_of_unplotted d hun
      obtain ⟨d₂, hloop, hcall⟩ := updateBitrateDisplay_loop d
        { d with series := List.replicate p.getNrStreams (some []) } p hp hpos rfl (fun _ => rfl)
        (fun _ => rfl) rfl rfl rfl
        (by
          refine ⟨by simp [nrStreams, hp], ?_⟩
          intro k hk
          have hk' : k < p.getNrStreams := by simpa [nrStreams, hp] using hk
          have ha : addedSegments { d with series := List.replicate p.getNrStreams (some []) } k = 0 := hz k
          rw [ha]
          simp [List.getElem?_replicate, hk', linePoints])
        hcount
        (by
          intro k
          unfold seriesPoints
          rw [hun.1]
          by_cases hk : k < p.getNrStreams <;> simp [List.getElem?_replicate, hk])
        (by
          intro hpl
          have := hpl.1
          omega)
      refine ⟨setAxisRanges d₂, ?_, hcall⟩
      rw [hnrp] at hloop
      simp only [hp] at hloop
      simp [updateBitrateDisplay, hp, hn, hlen, hloop]
    · have hpl : PlotInv d := by
        rcases hinv with h | h
        · exact absurd (by rw [h.1]; rfl) hlen
        · exact h
      obtain ⟨d₂, hloop, hcall⟩ := updateBitrateDisplay_loop d d p hp hpos rfl (fun _ => rfl)
        (fun _ => rfl) rfl rfl rfl hpl hcount (fun _ => rfl) (fun _ => rfl)
      refine ⟨setAxisRanges d₂, ?_, hcall⟩
      rw [hnrp] at hloop
      simp [updateBitrateDisplay, hp, hn, hlen, hloop]

/-! ## Events -/

theorem workerAppend_segmentsOf (k : Nat) (s : segmentBitrate) (d : bitstreamAnalysisDialog PM)
    (p : parserBase PM) (hp : d.parser = some p) (j : Nat) :
    segmentsOf { d with parser := d.parser.map (parserBase.appendSegment k s) } j
      = if j = k then segmentsOf d k ++ [s] else segmentsOf d j := by
  simp only [segmentsOf, hp, Option.map_some', parserBase.appendSegment, QMap.value, QMap.insert]
  by_cases h : j = k
  · subst h
    simp [QMap.index_fst, QMap.value]
  · simp [h, QMap.index_snd_of_ne _ _ _ _ h]

theorem workerAppend_nrStreams (k : Nat) (s : segmentBitrate) (d : bitstreamAnalysisDialog PM) :
    nrStreams { d with parser := d.parser.map (parserBase.appendSegment k s) } = nrStreams d := by
  unfold nrStreams
  cases d.parser <;> rfl

theorem workerAppend_take (k : Nat) (s : segmentBitrate) (d : bitstreamAnalysisDialog PM)
    (p : parserBase PM) (hp : d.parser = some p) (hcount : CountInv d) (j : Nat) :
    (segmentsOf { d with parser := d.parser.map (parserBase.appendSegment k s) } j).take (addedSegments d j)
      = (segmentsOf d j).take (addedSegments d j) := by
  rw [workerAppend_segmentsOf k s d p hp j]
  by_cases h : j = k
  · subst h
    rw [if_pos rfl, List.take_append_of_le_length (hcount j)]
  · rw [if_neg h]

theorem workerAppend_plotted (k : Nat) (s : segmentBitrate) (d : bitstreamAnalysisDialog PM)
    (p : parserBase PM) (hp : d.parser = some p) (hcount : CountInv d) (x : segmentBitrate) :
    Plotted d x ↔ Plotted { d with parser := d.parser.map (parserBase.appendSegment k s) } x := by
  unfold Plotted
  rw [workerAppend_nrStreams]
  constructor
  · rintro ⟨j, hj, hx⟩
    refine ⟨j, hj, ?_⟩
    have := workerAppend_take k s d p hp hcount j
    exact this ▸ hx
  · rintro ⟨j, hj, hx⟩
    refine ⟨j, hj, ?_⟩
    have := workerAppend_take k s d p hp hcount j
    exact this ▸ hx

theorem workerAppend_hasKeys (k : Nat) (s : segmentBitrate) (d : bitstreamAnalysisDialog PM) (j : Nat)
    (h : HasKeys d j) : HasKeys { d with parser := d.parser.map (parserBase.appendSegment k s) } j := by
  refine ⟨h.1, ?_⟩
  intro q hq
  cases hp : d.parser with
  | none => simp [hp] at hq
  | some p =>
    have hq' : q = parserBase.appendSegment k s p := by simpa [hp] using hq.symm
    subst hq'
    show (QMap.insert _ k _) j ≠ none
    unfold QMap.insert
    by_cases hj : j = k
    · simp [hj]
    · simp only [hj, if_false]
      rw [QMap.index_snd_of_ne _ _ _ _ hj]
      exact h.2 p hp

theorem workerAppend_plotInv (k : Nat) (s : segmentBitrate) (d : bitstreamAnalysisDialog PM)
    (p : parserBase PM) (hp : d.parser = some p) (hcount : CountInv d) (hpl : PlotInv d) :
    PlotInv { d with parser := d.parser.map (parserBase.appendSegment k s) } := by
  refine ⟨?_, ?_⟩
  · rw [workerAppend_nrStreams]; exact hpl.1
  · intro j hj
    rw [workerAppend_nrStreams] at hj
    have e := workerAppend_take k s d p hp hcount j
    have hj2 := hpl.2 j hj
    exact e ▸ hj2

theorem workerAppend_inv (k : Nat) (s : segmentBitrate) (d : bitstreamAnalysisDialog PM) (h : Inv d) :
    Inv { d with parser := d.parser.map (parserBase.appendSegment k s) } := by
  obtain ⟨⟨p, hp⟩, hinv, hcount⟩ := h
  refine ⟨⟨parserBase.appendSegment k s p, by simp [hp]⟩, ?_, ?_⟩
  · rcases hinv with hun | hpl
    · exact Or.inl hun
    · exact Or.inr (workerAppend_plotInv k s d p hp hcount hpl)
  · intro j
    rw [workerAppend_segmentsOf k s d p hp j]
    have := hcount j
    by_cases hjk : j = k
    · subst hjk
      rw [if_pos rfl, List.length_append]
      exact Nat.le_add_right_of_le this
    · rw [if_neg hjk]; exact this

theorem workerAppend_rangeState (k : Nat) (s : segmentBitrate) (d : bitstreamAnalysisDialog PM)
    (hs : s.bytes < 9223372036854775808) (h : Inv d) (hr : RangeState d) :
    RangeState { d with parser := d.parser.map (parserBase.appendSegment k s) } := by
  obtain ⟨⟨p, hp⟩, _, hcount⟩ := h
  obtain ⟨hbytes, hrange⟩ := hr
  refine ⟨?_, ?_⟩
  · intro j x hx
    rw [workerAppend_segmentsOf k s d p hp j] at hx
    by_cases hjk : j = k
    · subst hjk
      rw [if_pos rfl, List.mem_append] at hx
      rcases hx with hx | hx
      · exact hbytes j x hx
      · rw [List.mem_singleton.mp hx]; exact hs
    · rw [if_neg hjk] at hx
      exact hbytes j x hx
  · exact RangeInv_congr _ _ _ (workerAppend_plotted k s d p hp hcount)
      (RangeInv_of_same d _ _ rfl rfl rfl hrange)

theorem workerAppend_updated (k : Nat) (s : segmentBitrate) (d : bitstreamAnalysisDialog PM)
    (h : Inv d) (hu : Updated d) :
    Updated { d with parser := d.parser.map (parserBase.appendSegment k s) } := by
  obtain ⟨⟨p, hp⟩, _, hcount⟩ := h
  rcases hu with h0 | ⟨hset, hpl⟩
  · exact Or.inl (by rw [workerAppend_nrStreams]; exact h0)
  · refine Or.inr ⟨⟨?_, hset.2.1, hset.2.2⟩, workerAppend_plotInv k s d p hp hcount hpl⟩
    intro j hj
    rw [workerAppend_nrStreams] at hj
    exact workerAppend_hasKeys k s d j (hset.1 j hj)

theorem Event.apply_inv (e : Event) (d : bitstreamAnalysisDialog PM) (hinv : Inv d) :
    ∃ d', e.apply d = some d' ∧ Inv d' ∧ nrStreams d' = nrStreams d ∧
      (d.axisRangeInitialized = true → Widens d d' ∧ d'.axisRangeInitialized = true) ∧
      ((Updated d ∨ e = Event.updateBitrateDisplay) → Updated d') ∧
      ((∀ k s, e = Event.workerAppend k s → s.bytes < 9223372036854775808) →
        RangeState d → RangeState d') := by
  cases e with
  | workerAppend k s =>
    refine ⟨_, rfl, workerAppend_inv k s d hinv, workerAppend_nrStreams k s d,
      fun hi => ⟨Widens_refl d, hi⟩, ?_, fun hb hr => workerAppend_rangeState k s d (hb k s rfl) hinv hr⟩
    rintro (hu | hu)
    · exact workerAppend_updated k s d hinv hu
    · cases hu
  | updateBitrateDisplay =>
    obtain ⟨⟨p, hp⟩, hpl, hcount⟩ := hinv
    obtain ⟨d', hd', hcall⟩ := updateBitrateDisplay_call d p hp hpl hcount
    refine ⟨d', hd', ⟨hcall.parser, hcall.inv, hcall.count⟩, hcall.nr, hcall.widens, ?_, ?_⟩
    · intro _
      rcases Nat.eq_zero_or_pos (nrStreams d) with h0 | hpos
      · exact Or.inl (hcall.nr.trans h0)
      · obtain ⟨h1, _, h3⟩ := hcall.synced hpos
        exact Or.inr ⟨h3, h1⟩
    · intro _ hr
      refine ⟨?_, hcall.range hr.1 hr.2⟩
      intro k x hx
      rw [hcall.segs k] at hx
      exact hr.1 k x hx

theorem runEvents_inv (evs : List Event) :
    ∀ d : bitstreamAnalysisDialog PM, Inv d →
      ∃ d', runEvents evs d = some d' ∧ Inv d' ∧ nrStreams d' = nrStreams d ∧
        (d.axisRangeInitialized = true → Widens d d' ∧ d'.axisRangeInitialized = true) ∧
        ((Updated d ∨ Event.updateBitrateDisplay ∈ evs) → Updated d') ∧
        (EventsBytesOK evs → RangeState d → RangeState d') := by
  induction evs with
  | nil =>
    intro d hinv
    refine ⟨d, rfl, hinv, rfl, fun hi => ⟨Widens_refl d, hi⟩, ?_, fun _ h => h⟩
    rintro (hu | hu)
    · exact hu
    · exact absurd hu (List.not_mem_nil _)
  | cons e evs ih =>
    intro d hinv
    obtain ⟨d1, h1, hinv1, hnr1, hw1, hu1, hr1⟩ := Event.apply_inv e d hinv
    obtain ⟨d2, h2, hinv2, hnr2, hw2, hu2, hr2⟩ := ih d1 hinv1
    refine ⟨d2, ?_, hinv2, hnr2.trans hnr1, ?_, ?_, ?_⟩
    · simp only [runEvents, h1]
      exact h2
    · intro hi
      obtain ⟨w1, i1⟩ := hw1 hi
      obtain ⟨w2, i2⟩ := hw2 i1
      exact ⟨Widens_trans _ _ _ w1 w2, i2⟩
    · rintro (hu | hu)
      · exact hu2 (Or.inl (hu1 (Or.inl hu)))
      · rcases List.mem_cons.mp hu with he | hm
        · exact hu2 (Or.inl (hu1 (Or.inr he.symm)))
        · exact hu2 (Or.inr hm)
    · intro hb hr
      exact hr2 (fun k s hm => hb k s (List.mem_cons_of_mem e hm))
        (hr1 (fun k s he => hb k s (he ▸ List.mem_cons_self e evs)) hr)

theorem Inv_of_fresh (d : bitstreamAnalysisDialog PM) (p : parserBase PM) (hp : d.parser = some p)
    (hun : Unplotted d) (hempty : p.segmentBitrateListPerStream = QMap.empty) :
    Inv d ∧ RangeState d := by
  have hseg : ∀ k, segmentsOf d k = [] := by
    intro k
    rw [segmentsOf_eq d p hp, hempty]
    rfl
  refine ⟨⟨⟨p, hp⟩, Or.inl hun, ?_⟩, ?_, Or.inl ⟨hun.2.2, ?_⟩⟩
  · intro k
    rw [addedSegments_of_unplotted d hun k]
    exact Nat.zero_le _
  · intro k s hs
    rw [hseg k] at hs
    exact absurd hs (List.not_mem_nil s)
  · rintro s ⟨k, _, hs⟩
    rw [hseg k] at hs
    simp at hs

theorem new_inv (env : Externals PM) (fileName : String) (fmt : inputFormat)
    (d₀ : bitstreamAnalysisDialog PM) (hnew : bitstreamAnalysisDialog.new env fileName fmt = some d₀)
    (hfmt : fmt ≠ .inputInvalid) : Inv d₀ ∧ RangeState d₀ := by
  cases fmt with
  | inputInvalid => exact absurd rfl hfmt
  | inputAnnexBMpeg2 => cases hnew
  | inputAnnexBHEVC =>
    cases hnew
    exact Inv_of_fresh _ _ rfl ⟨rfl, rfl, rfl⟩ rfl
  | inputAnnexBAVC =>
    cases hnew
    exact Inv_of_fresh _ _ rfl ⟨rfl, rfl, rfl⟩ rfl
  | inputLibavformat =>
    cases hnew
    exact Inv_of_fresh _ _ rfl ⟨rfl, rfl, rfl⟩ rfl

theorem runEvents_parser_none (evs : List Event) :
    ∀ d d' : bitstreamAnalysisDialog PM, d.parser = none → runEvents evs d = some d' →
      d'.parser = none := by
  induction evs with
  | nil =>
    intro d d' h hr
    cases hr
    exact h
  | cons e evs ih =>
    intro d d' h hr
    cases e with
    | workerAppend k s =>
      exact ih _ d' (by simp [h]) hr
    | updateBitrateDisplay =>
      simp [runEvents, Event.apply, updateBitrateDisplay, h] at hr

end PlotLemmas

/-! ## Theorems about `updateBitrateDisplay` -/

section DialogTheorems

variable {PM : Type}

open bitstreamAnalysisDialog

/-- The sample of C2: on the dialog the constructor builds for an HEVC file no
segment is new (there is none at all), and the first call of
`updateBitrateDisplay` changes the dialog: it creates the line series of the
stream, sets both axis ranges to (0,0) and creates the entries of stream 0 in
`addedSegmentsPerStream` and in the segment map of the parser. -/
theorem updateBitrateDisplay_first_call_changes_dialog :
    bitstreamAnalysisDialog.new unitExternals "a.hevc" .inputAnnexBHEVC = some sampleDialog ∧
    NoNew sampleDialog ∧
    sampleDialog.series = [] ∧ sampleDialog.chartAxisX = none ∧ sampleDialog.chartAxisY = none ∧
    sampleDialog.addedSegmentsPerStream 0 = none ∧
    (sampleDialog.parser.bind (fun p => p.segmentBitrateListPerStream 0)) = none ∧
    ∃ d', sampleDialog.updateBitrateDisplay = some d' ∧ d' ≠ sampleDialog ∧
      d'.series = [some []] ∧ d'.chartAxisX = some (0, 0) ∧ d'.chartAxisY = some (0, 0) ∧
      d'.addedSegmentsPerStream 0 = some 0 ∧
      (d'.parser.bind (fun p => p.segmentBitrateListPerStream 0)) = some [] := by
  refine ⟨rfl, ?_, rfl, rfl, rfl, rfl, rfl, _, rfl, ?_, rfl, rfl, rfl, rfl, rfl⟩
  · intro k hk
    have hk0 : k = 0 := by
      have : k < 1 := hk
      omega
    subst hk0
    rfl
  · intro h
    have h1 := congrArg (fun d => d.series) h
    exact absurd h1 (by decide)

/-- C2 (amended): from the dialog built by the constructor for a valid format,
after any sequence of worker appends and `updateBitrateDisplay` calls a further
call succeeds and (for a stream count > 0) leaves, for every stream `k`, the
series of `k` holding exactly the points `(startTime, bytes)`, `(endTime, bytes)`
of every segment of the list of stream `k`, in list order, with
`addedSegmentsPerStream[k]` equal to the length of that list; the call does not
change the lists; and a call that finds no new segment leaves the points of
every series, every counter and the ranges as they were, and the whole dialog
once a call of `updateBitrateDisplay` has been made before. -/
theorem updateBitrateDisplay_plots_each_segment_once (env : Externals PM) (fileName : String)
    (fmt : inputFormat) (d₀ : bitstreamAnalysisDialog PM) (evs : List Event)
    (hnew : bitstreamAnalysisDialog.new env fileName fmt = some d₀) (hfmt : fmt ≠ .inputInvalid) :
    ∃ d d', runEvents evs d₀ = some d ∧ d.updateBitrateDisplay = some d' ∧
      (0 < nrStreams d₀ →
        d'.series.length = nrStreams d₀ ∧
        ∀ k, k < nrStreams d₀ →
          d'.series[k]? = some (some (linePoints (segmentsOf d k))) ∧
          d'.addedSegmentsPerStream k = some (segmentsOf d k).length) ∧
      (∀ k, segmentsOf d' k = segmentsOf d k) ∧
      (NoNew d → SameView d d' ∧ (Event.updateBitrateDisplay ∈ evs → d' = d)) := by
  obtain ⟨d, hrun, hinv, hnr, _, hupd, _⟩ :=
    runEvents_inv evs d₀ (new_inv env fileName fmt d₀ hnew hfmt).1
  obtain ⟨⟨p, hp⟩, hpl, hcount⟩ := hinv
  obtain ⟨d', hd', hcall⟩ := updateBitrateDisplay_call d p hp hpl hcount
  refine ⟨d, d', hrun, hd', ?_, hcall.segs, ?_⟩
  · intro hpos
    obtain ⟨h1, h2, h3⟩ := hcall.synced (hnr ▸ hpos)
    have hnr' : nrStreams d' = nrStreams d₀ := hcall.nr.trans hnr
    refine ⟨h1.1.trans hnr', ?_⟩
    intro k hk
    have hk' : k < nrStreams d' := hnr' ▸ hk
    have ha := h2 k hk'
    have hs := h1.2 k hk'
    rw [ha, List.take_length, hcall.segs k] at hs
    refine ⟨hs, ?_⟩
    have hkey := (h3.1 k hk').1
    rw [hcall.segs k] at ha
    unfold addedSegments QMap.value at ha
    cases hv : d'.addedSegmentsPerStream k with
    | none => exact absurd hv hkey
    | some v =>
      rw [hv] at ha
      exact congrArg some ha
  · intro hno
    refine ⟨hcall.quiet hno, ?_⟩
    intro hmem
    rcases hupd (Or.inr hmem) with h0 | ⟨hset, hplot⟩
    · have hn : p.getNrStreams = 0 := by
        rw [← h0]; simp [nrStreams, hp]
      have : d.updateBitrateDisplay = some d := by simp [updateBitrateDisplay, hp, hn]
      rw [this] at hd'
      exact (Option.some.inj hd').symm
    · exact hcall.fixed hno hset hplot

/-- C3: from the dialog built by the constructor, after any sequence of worker
appends (byte counts below `2^63`) and `updateBitrateDisplay` calls that has
plotted at least one segment, `rangeAxisX.first` is the minimum start time,
`rangeAxisX.second` the maximum end time and `rangeAxisY.second` the maximum
byte count over the plotted segments of all streams; over any further events
the X range only widens and the Y maximum never decreases. -/
theorem rangeAxis_min_max_of_plotted (env : Externals PM) (fileName : String) (fmt : inputFormat)
    (d₀ d : bitstreamAnalysisDialog PM) (evs : List Event)
    (hnew : bitstreamAnalysisDialog.new env fileName fmt = some d₀)
    (hbytes : EventsBytesOK evs) (hrun : runEvents evs d₀ = some d) (hplotted : ∃ s, Plotted d s) :
    RangeOK d (Plotted d) ∧
    ∀ (evs' : List Event) (d' : bitstreamAnalysisDialog PM),
      runEvents evs' d = some d' → Widens d d' := by
  by_cases hfmt : fmt = .inputInvalid
  · exfalso
    subst hfmt
    have h0 : d₀.parser = none := by
      cases hnew
      rfl
    have hd := runEvents_parser_none evs d₀ d h0 hrun
    obtain ⟨s, k, hk, _⟩ := hplotted
    simp [nrStreams, hd] at hk
  · obtain ⟨hinv0, hr0⟩ := new_inv env fileName fmt d₀ hnew hfmt
    obtain ⟨d1, hrun1, hinv, _, _, _, hr⟩ := runEvents_inv evs d₀ hinv0
    rw [hrun] at hrun1
    cases hrun1
    obtain ⟨_, hrange⟩ := hr hbytes hr0
    rcases hrange with ⟨_, hnone⟩ | ⟨hinit, hok⟩
    · obtain ⟨s, hs⟩ := hplotted
      exact absurd hs (hnone s)
    · refine ⟨hok, ?_⟩
      intro evs' d' hrun'
      obtain ⟨d2, hrun2, _, _, hw, _, _⟩ := runEvents_inv evs' d hinv
      rw [hrun'] at hrun2
      cases hrun2
      exact (hw hinit).1

theorem updateBitrateDisplay_plots_each_segment_once_witness :
    ∃ d d', runEvents sampleEvents sampleDialog = some d ∧ d.updateBitrateDisplay = some d' ∧
      (0 < nrStreams sampleDialog →
        d'.series.length = nrStreams sampleDialog ∧
        ∀ k, k < nrStreams sampleDialog →
          d'.series[k]? = some (some (linePoints (segmentsOf d k))) ∧
          d'.addedSegmentsPerStream k = some (segmentsOf d k).length) ∧
      (∀ k, segmentsOf d' k = segmentsOf d k) ∧
      (NoNew d → SameView d d' ∧ (Event.updateBitrateDisplay ∈ sampleEvents → d' = d)) :=
  updateBitrateDisplay_plots_each_segment_once unitExternals "a.hevc" .inputAnnexBHEVC sampleDialog
    sampleEvents rfl (by decide)

theorem rangeAxis_min_max_of_plotted_witness :
    (∃ s, Plotted sampleAfter s) ∧ RangeOK sampleAfter (Plotted sampleAfter) ∧
    sampleAfter.rangeAxisX = (1, 10) ∧ sampleAfter.rangeAxisY.2 = 300 :=
  ⟨⟨⟨5, 10, 100⟩, 0, by decide, by decide⟩,
    (rangeAxis_min_max_of_plotted unitExternals "a.hevc" .inputAnnexBHEVC sampleDialog sampleAfter
      sampleEvents rfl
      (by
        intro k s h
        simp only [sampleEvents, List.mem_cons, List.mem_singleton, Event.workerAppend.injEq,
          reduceCtorEq, or_false, false_or, List.not_mem_nil] at h
        rcases h with ⟨_, rfl⟩ | ⟨_, rfl⟩ <;> decide)
      rfl ⟨⟨5, 10, 100⟩, 0, by decide, by decide⟩).1,
    rfl, rfl⟩

end DialogTheorems

/-! ## Theorems about the check box and the background parse -/

section CheckBoxTheorems

variable {PM : Type}

open bitstreamAnalysisDialog

theorem toggled_spec (state : Bool) (d : bitstreamAnalysisDialog PM) (p : parserBase PM)
    (hp : d.parser = some p) (hview : d.dataTreeView = some (expectedTreeViewModel d)) :
    ∃ d', showVideoStreamOnlyCheckBoxToggled state d = some d' ∧ d'.parser = some p ∧
      d'.showVideoStreamOnly = state ∧ d'.dataTreeView = some (expectedTreeViewModel d') ∧
      (state = d.showVideoStreamOnly → d' = d) := by
  by_cases h : d.showVideoStreamOnly = state
  · refine ⟨d, by simp [showVideoStreamOnlyCheckBoxToggled, h], hp, h, hview, fun _ => rfl⟩
  · cases state with
    | true =>
      refine ⟨{ d with showVideoStreamOnly := true, dataTreeView := some .filteredPacketItemModel }, ?_,
        hp, rfl, rfl, fun hs => absurd hs.symm h⟩
      simp [showVideoStreamOnlyCheckBoxToggled, h, hp]
    | false =>
      refine ⟨{ d with showVideoStreamOnly := false, dataTreeView := some .packetItemModel }, ?_,
        hp, rfl, rfl, fun hs => absurd hs.symm h⟩
      simp [showVideoStreamOnlyCheckBoxToggled, h, hp]

theorem toggleAll_spec (states : List Bool) :
    ∀ (d : bitstreamAnalysisDialog PM) (p : parserBase PM), d.parser = some p →
      d.dataTreeView = some (expectedTreeViewModel d) →
      ∃ d', toggleAll states d = some d' ∧ d'.parser = some p ∧
        d'.dataTreeView = some (expectedTreeViewModel d') ∧
        d'.showVideoStreamOnly = (states.getLast?).getD d.showVideoStreamOnly := by
  induction states with
  | nil => intro d p hp hv; exact ⟨d, rfl, hp, hv, rfl⟩
  | cons state rest ih =>
    intro d p hp hv
    obtain ⟨d1, h1, hp1, hs1, hv1, _⟩ := toggled_spec state d p hp hv
    obtain ⟨d2, h2, hp2, hv2, hs2⟩ := ih d1 p hp1 hv1
    refine ⟨d2, by simp only [toggleAll, h1]; exact h2, hp2, hv2, ?_⟩
    rw [hs2, hs1]
    cases rest with
    | nil => rfl
    | cons a l =>
      rw [List.getLast?_eq_getLast _ (List.cons_ne_nil a l),
        List.getLast?_eq_getLast _ (List.cons_ne_nil state (a :: l))]
      rfl

theorem new_view (env : Externals PM) (fileName : String) (fmt : inputFormat)
    (d₀ : bitstreamAnalysisDialog PM) (hnew : bitstreamAnalysisDialog.new env fileName fmt = some d₀)
    (hfmt : fmt ≠ .inputInvalid) :
    (∃ p, d₀.parser = some p) ∧ d₀.showVideoStreamOnly = false ∧
      d₀.dataTreeView = some .packetItemModel ∧ d₀.backgroundParsesStarted = 1 := by
  cases fmt with
  | inputInvalid => exact absurd rfl hfmt
  | inputAnnexBMpeg2 => cases hnew
  | inputAnnexBHEVC => cases hnew; exact ⟨⟨_, rfl⟩, rfl, rfl, rfl⟩
  | inputAnnexBAVC => cases hnew; exact ⟨⟨_, rfl⟩, rfl, rfl, rfl⟩
  | inputLibavformat => cases hnew; exact ⟨⟨_, rfl⟩, rfl, rfl, rfl⟩

/-- C11: from the dialog the constructor builds for a valid format, every
sequence of `showVideoStreamOnlyCheckBoxToggled` calls succeeds and leaves the
tree view showing the filtered packet model exactly when `showVideoStreamOnly`
is true and the unfiltered one otherwise (`showVideoStreamOnly` being the
state of the last call); a further call whose state equals the current
`showVideoStreamOnly` returns the dialog unchanged. -/
theorem showVideoStreamOnly_selects_model (env : Externals PM) (fileName : String) (fmt : inputFormat)
    (d₀ : bitstreamAnalysisDialog PM) (states : List Bool)
    (hnew : bitstreamAnalysisDialog.new env fileName fmt = some d₀) (hfmt : fmt ≠ .inputInvalid) :
    ∃ d, toggleAll states d₀ = some d ∧
      d.showVideoStreamOnly = (states.getLast?).getD false ∧
      (d.showVideoStreamOnly = true → d.dataTreeView = some .filteredPacketItemModel) ∧
      (d.showVideoStreamOnly = false → d.dataTreeView = some .packetItemModel) ∧
      showVideoStreamOnlyCheckBoxToggled d.showVideoStreamOnly d = some d := by
  obtain ⟨⟨p, hp⟩, hs0, hv0, _⟩ := new_view env fileName fmt d₀ hnew hfmt
  have hv : d₀.dataTreeView = some (expectedTreeViewModel d₀) := by
    rw [hv0]; simp [expectedTreeViewModel, hs0]
  obtain ⟨d, hrun, hpd, hvd, hsd⟩ := toggleAll_spec states d₀ p hp hv
  refine ⟨d, hrun, by rw [hsd, hs0], ?_, ?_, ?_⟩
  · intro h; rw [hvd]; simp [expectedTreeViewModel, h]
  · intro h; rw [hvd]; simp [expectedTreeViewModel, h]
  · simp [showVideoStreamOnlyCheckBoxToggled]

theorem showVideoStreamOnly_selects_model_witness :
    ∃ d, toggleAll [true, true, false, true] sampleDialog = some d ∧
      d.showVideoStreamOnly = ([true, true, false, true].getLast?).getD false ∧
      (d.showVideoStreamOnly = true → d.dataTreeView = some .filteredPacketItemModel) ∧
      (d.showVideoStreamOnly = false → d.dataTreeView = some .packetItemModel) ∧
      showVideoStreamOnlyCheckBoxToggled d.showVideoStreamOnly d = some d :=
  showVideoStreamOnly_selects_model unitExternals "a.hevc" .inputAnnexBHEVC sampleDialog
    [true, true, false, true] rfl (by decide)

theorem foldl_plotSegment_started (k : Nat) (segs : List segmentBitrate) :
    ∀ d : bitstreamAnalysisDialog PM,
      (segs.foldl (plotSegment k) d).backgroundParsesStarted = d.backgroundParsesStarted := by
  induction segs with
  | nil => intro d; rfl
  | cons s l ih => intro d; exact ih (plotSegment k d s)

theorem streamBody_started (k : Nat) (d : bitstreamAnalysisDialog PM) (b : Bool)
    (d' : bitstreamAnalysisDialog PM) (h : streamBody k d = some (b, d')) :
    d'.backgroundParsesStarted = d.backgroundParsesStarted := by
  unfold streamBody at h
  split at h
  · cases h
  · cases h; rfl
  · split at h
    · cases h
    · cases h
      exact foldl_plotSegment_started k _ _

theorem streamLoop_started (ks : List Nat) :
    ∀ (d : bitstreamAnalysisDialog PM) (b : Bool) (d' : bitstreamAnalysisDialog PM),
      streamLoop ks d = some (b, d') → d'.backgroundParsesStarted = d.backgroundParsesStarted := by
  induction ks with
  | nil => intro d b d' h; cases h; rfl
  | cons k ks ih =>
    intro d b d' h
    unfold streamLoop at h
    split at h
    · cases h
    · rename_i d1 hb
      cases h
      exact streamBody_started k d false _ hb
    · rename_i d1 hb
      exact (ih d1 b d' h).trans (streamBody_started k d true d1 hb)

theorem streamLoop_result_started (ks : List Nat) (d₁ d' : bitstreamAnalysisDialog PM)
    (h : (match streamLoop ks d₁ with
      | none => none
      | some (false, d) => some d
      | some (true, d) => some (setAxisRanges d)) = some d') :
    d'.backgroundParsesStarted = d₁.backgroundParsesStarted := by
  cases hl : streamLoop ks d₁ with
  | none => rw [hl] at h; cases h
  | some r =>
    obtain ⟨b, d2⟩ := r
    have h2 := streamLoop_started _ _ _ _ hl
    rw [hl] at h
    cases b with
    | false => cases h; exact h2
    | true => cases h; exact h2

theorem updateBitrateDisplay_started (d d' : bitstreamAnalysisDialog PM)
    (h : d.updateBitrateDisplay = some d') :
    d'.backgroundParsesStarted = d.backgroundParsesStarted := by
  unfold updateBitrateDisplay at h
  split at h
  · cases h
  · split at h
    · cases h; rfl
    · rw [streamLoop_result_started _ _ _ h]
      split <;> rfl

theorem DialogOp.apply_started (env : Externals PM) (op : DialogOp) (d d' : bitstreamAnalysisDialog PM)
    (h : op.apply env d = some d') : d'.backgroundParsesStarted = d.backgroundParsesStarted := by
  cases op with
  | updateParserItemModel n =>
    simp only [DialogOp.apply, updateParserItemModel] at h
    split at h
    · cases h
    · cases h; rfl
  | updateBitrateDisplay => exact updateBitrateDisplay_started d d' h
  | updateStreamInfo =>
    simp only [DialogOp.apply, updateStreamInfo] at h
    split at h
    · cases h
    · cases h; rfl
  | backgroundParsingDone => cases h; rfl
  | showVideoStreamOnlyCheckBoxToggled state =>
    simp only [DialogOp.apply, showVideoStreamOnlyCheckBoxToggled] at h
    split at h
    · split at h
      · split at h
        · cases h
        · cases h; rfl
      · split at h
        · cases h
        · cases h; rfl
    · cases h; rfl
  | colorCodeStreamsCheckBoxToggled state =>
    simp only [DialogOp.apply, colorCodeStreamsCheckBoxToggled] at h
    split at h
    · cases h
    · cases h; rfl
  | backgroundParsingFunction result => cases h; rfl
  | workerAppend k s => cases h; rfl

theorem runOps_started (env : Externals PM) (ops : List DialogOp) :
    ∀ d d' : bitstreamAnalysisDialog PM, runOps env ops d = some d' →
      d'.backgroundParsesStarted = d.backgroundParsesStarted := by
  induction ops with
  | nil => intro d d' h; cases h; rfl
  | cons op rest ih =>
    intro d d' h
    unfold runOps at h
    split at h
    · cases h
    · rename_i d1 h1
      exact (ih d1 d' h).trans (DialogOp.apply_started env op d d1 h1)

theorem new_eq_construct (env : Externals PM) (fileName : String) (fmt : inputFormat) :
    bitstreamAnalysisDialog.new env fileName fmt
      = (match construct env fileName fmt with
        | .ok d => some d
        | .error _ => none) := by
  cases fmt <;> rfl

/-- The sample of C12: AnnexB-MPEG2 is a format with a parser class of its own,
not `inputInvalid`, yet the constructor starts no background parse for it: it
stops at `parser->enableModel()`, on a null `parser`, with no parse started, and
no dialog is built. -/
theorem constructor_inputAnnexBMpeg2_starts_no_parse :
    inputFormat.inputAnnexBMpeg2 ≠ inputFormat.inputInvalid ∧
    inputFormat.inputAnnexBMpeg2.matchingParser = some ParserVariant.parserAnnexBMpeg2 ∧
    bitstreamAnalysisDialog.new unitExternals "stream.m2v" .inputAnnexBMpeg2 = none ∧
    ∃ d, construct unitExternals "stream.m2v" .inputAnnexBMpeg2 = .error d ∧
      d.parser = none ∧ d.backgroundParsesStarted = 0 :=
  ⟨by decide, rfl, rfl, _, rfl, rfl, rfl⟩

/-- C12 (amended): for the formats AnnexB-HEVC, AnnexB-AVC, container demux
(libavformat) and `inputInvalid` the constructor returns a dialog, having
started exactly one background parse for the first three and none for
`inputInvalid`, and no sequence of the dialog operations (the slots, the end
of the background function, appends of the worker) changes the number of
parses started, so it is at most one. -/
theorem backgroundParse_started_once (env : Externals PM) (fileName : String) (fmt : inputFormat)
    (hfmt : fmt ≠ .inputAnnexBMpeg2) :
    ∃ d₀, bitstreamAnalysisDialog.new env fileName fmt = some d₀ ∧
      construct env fileName fmt = .ok d₀ ∧
      d₀.backgroundParsesStarted = (if fmt = .inputInvalid then 0 else 1) ∧
      ∀ (ops : List DialogOp) (d : bitstreamAnalysisDialog PM), runOps env ops d₀ = some d →
        d.backgroundParsesStarted = d₀.backgroundParsesStarted ∧ d.backgroundParsesStarted ≤ 1 := by
  have key : ∀ d₀ : bitstreamAnalysisDialog PM, d₀.backgroundParsesStarted ≤ 1 →
      ∀ (ops : List DialogOp) (d : bitstreamAnalysisDialog PM), runOps env ops d₀ = some d →
        d.backgroundParsesStarted = d₀.backgroundParsesStarted ∧ d.backgroundParsesStarted ≤ 1 := by
    intro d₀ h0 ops d hrun
    have h1 := runOps_started env ops d₀ d hrun
    exact ⟨h1, h1 ▸ h0⟩
  cases fmt with
  | inputAnnexBMpeg2 => exact absurd rfl hfmt
  | inputInvalid => exact ⟨_, rfl, rfl, rfl, key _ (Nat.zero_le 1)⟩
  | inputAnnexBHEVC => exact ⟨_, rfl, rfl, rfl, key _ (Nat.le_refl 1)⟩
  | inputAnnexBAVC => exact ⟨_, rfl, rfl, rfl, key _ (Nat.le_refl 1)⟩
  | inputLibavformat => exact ⟨_, rfl, rfl, rfl, key _ (Nat.le_refl 1)⟩

theorem backgroundParse_started_once_witness :
    ∃ d₀, bitstreamAnalysisDialog.new unitExternals "a.hevc" .inputAnnexBHEVC = some d₀ ∧
      construct unitExternals "a.hevc" .inputAnnexBHEVC = .ok d₀ ∧
      d₀.backgroundParsesStarted = 1 ∧
      ∀ (ops : List DialogOp) (d : bitstreamAnalysisDialog Unit), runOps unitExternals ops d₀ = some d →
        d.backgroundParsesStarted = d₀.backgroundParsesStarted ∧ d.backgroundParsesStarted ≤ 1 :=
  backgroundParse_started_once unitExternals "a.hevc" .inputAnnexBHEVC (by decide)

end CheckBoxTheorems

/-! ## Theorems about the destructor of the dialog -/

section TeardownTheorems

variable {PM : Type}

open bitstreamAnalysisDialog bitstreamAnalysisDialog.Teardown

theorem workerStep_not_running (s : Teardown PM) (h : s.future.isRunning = false) :
    s.workerStep = s := by
  unfold workerStep
  split
  · rename_i hf _
    rw [hf] at h
    cases h
  · rename_i hf _
    rw [hf] at h
    cases h
  · rfl

theorem workerStep_cancelled (s : Teardown PM) (p : parserBase PM) (hp : s.dialog.parser = some p)
    (hc : p.cancelBackgroundParser = true) (hr : s.future.isRunning = true) :
    s.workerStep = { s with future := .finished, trace := s.trace ++ [.workerReturns] } := by
  unfold workerStep
  split
  · rename_i hf hp'
    rw [hp] at hp'
    cases hp'
    rw [if_pos hc]
  · rfl
  · rename_i h1 h2
    cases hf : s.future with
    | notStarted => rw [hf] at hr; cases hr
    | finished => rw [hf] at hr; cases hr
    | running units fileSize filePos =>
      cases units with
      | nil => exact (h2 fileSize filePos p hf hp).elim
      | cons u rest => exact (h1 u rest fileSize filePos p hf hp).elim

theorem workerStep_spec (s : Teardown PM) (p : parserBase PM) (hp : s.dialog.parser = some p) :
    ∃ p' t, s.workerStep.dialog.parser = some p' ∧ s.workerStep.trace = s.trace ++ t ∧
      ∀ a ∈ t, IsWorkerAction a := by
  unfold workerStep
  split
  · split_ifs
    · exact ⟨p, [.workerReturns], hp, rfl, fun a ha => Or.inr (List.mem_singleton.mp ha)⟩
    · exact ⟨_, [.workerReadsUnit], rfl, rfl, fun a ha => Or.inl (List.mem_singleton.mp ha)⟩
  · exact ⟨p, [.workerReturns], hp, rfl, fun a ha => Or.inr (List.mem_singleton.mp ha)⟩
  · exact ⟨p, [], hp, (List.append_nil _).symm, fun a ha => absurd ha (List.not_mem_nil a)⟩

theorem workerStep_iterate_spec (n : Nat) :
    ∀ (s : Teardown PM) (p : parserBase PM), s.dialog.parser = some p →
      ∃ p' t, (workerStep^[n] s).dialog.parser = some p' ∧ (workerStep^[n] s).trace = s.trace ++ t ∧
        ∀ a ∈ t, IsWorkerAction a := by
  induction n with
  | zero =>
    intro s p hp
    exact ⟨p, [], hp, (List.append_nil _).symm, fun a ha => absurd ha (List.not_mem_nil a)⟩
  | succ n ih =>
    intro s p hp
    obtain ⟨p1, t1, h1, h2, h3⟩ := workerStep_spec s p hp
    obtain ⟨p2, t2, g1, g2, g3⟩ := ih s.workerStep p1 h1
    refine ⟨p2, t1 ++ t2, ?_, ?_, ?_⟩
    · rw [Function.iterate_succ_apply]
      exact g1
    · rw [Function.iterate_succ_apply, g2, h2, List.append_assoc]
    · intro a ha
      rcases List.mem_append.mp ha with h | h
      · exact h3 a h
      · exact g3 a h

theorem workerStep_iterate_not_running (n : Nat) (s : Teardown PM) (h : s.future.isRunning = false) :
    workerStep^[n] s = s := by
  induction n with
  | zero => rfl
  | succ n ih => rw [Function.iterate_succ_apply, workerStep_not_running s h, ih]

theorem workerStep_iterate_cancelled (n : Nat) (s : Teardown PM) (p : parserBase PM)
    (hp : s.dialog.parser = some p) (hc : p.cancelBackgroundParser = true) :
    ∃ t, (workerStep^[n] s).dialog = s.dialog ∧ (workerStep^[n] s).trace = s.trace ++ t ∧
      (∀ a ∈ t, a = TeardownAction.workerReturns) ∧
      (1 ≤ n → (workerStep^[n] s).future.isRunning = false) := by
  by_cases hr : s.future.isRunning = true
  · cases n with
    | zero =>
      refine ⟨[], rfl, (List.append_nil _).symm, fun a ha => absurd ha (List.not_mem_nil a), ?_⟩
      intro h
      cases h
    | succ n =>
      rw [Function.iterate_succ_apply, workerStep_cancelled s p hp hc hr,
        workerStep_iterate_not_running n
          ({ s with future := .finished, trace := s.trace ++ [.workerReturns] } : Teardown PM) rfl]
      exact ⟨[.workerReturns], rfl, rfl, fun a ha => List.mem_singleton.mp ha, fun _ => rfl⟩
  · have hr' : s.future.isRunning = false := by
      cases h : s.future.isRunning
      · rfl
      · exact absurd h hr
    rw [workerStep_iterate_not_running n s hr']
    exact ⟨[], rfl, (List.append_nil _).symm, fun a ha => absurd ha (List.not_mem_nil a),
      fun _ => hr'⟩

end TeardownTheorems

/-! ## Rounding to binary64 -/

section Binary64

theorem roundHalfEven_intCast (n : Int) : roundHalfEven (n : ℚ) = n := by
  unfold roundHalfEven
  rw [Int.floor_intCast]
  simp

theorem roundHalfEven_eq_of_abs_lt (x : ℚ) (M : Int) (h : |x - M| < 1 / 2) : roundHalfEven x = M := by
  rw [abs_lt] at h
  obtain ⟨h1, h2⟩ := h
  unfold roundHalfEven
  by_cases hx : (M : ℚ) ≤ x
  · have hf : ⌊x⌋ = M := by
      rw [Int.floor_eq_iff]
      constructor <;> linarith
    rw [hf, if_pos (by linarith)]
  · have hf : ⌊x⌋ = M - 1 := by
      rw [Int.floor_eq_iff]
      push_cast
      constructor <;> linarith
    rw [hf]
    push_cast
    rw [if_neg (by linarith), if_pos (by linarith)]
    ring

theorem roundHalfEven_abs_sub_le (x : ℚ) : |(roundHalfEven x : ℚ) - x| ≤ 1 / 2 := by
  have h1 := Int.floor_le x
  have h2 := Int.lt_floor_add_one x
  unfold roundHalfEven
  split_ifs <;> rw [abs_le] <;> push_cast <;> constructor <;> linarith

theorem two_zpow_pos (k : ℤ) : (0 : ℚ) < 2 ^ k := zpow_pos (by norm_num) k

theorem two_zpow_le {a b : ℤ} (h : a ≤ b) : (2 : ℚ) ^ a ≤ 2 ^ b :=
  zpow_le_zpow_right₀ (by norm_num) h

theorem two_zpow_lt {a b : ℤ} (h : a < b) : (2 : ℚ) ^ a < 2 ^ b :=
  zpow_lt_zpow_right₀ (by norm_num) h

theorem two_zpow_lt_iff {a b : ℤ} : (2 : ℚ) ^ a < 2 ^ b ↔ a < b :=
  zpow_lt_zpow_iff_right₀ (by norm_num)

theorem two_zpow_le_iff {a b : ℤ} : (2 : ℚ) ^ a ≤ 2 ^ b ↔ a ≤ b :=
  zpow_le_zpow_iff_right₀ (by norm_num)

theorem two_zpow_succ (k : ℤ) : (2 : ℚ) ^ (k + 1) = 2 * 2 ^ k := by
  rw [zpow_add₀ (by norm_num : (2 : ℚ) ≠ 0), zpow_one, mul_comm]

theorem two_zpow_pred (k : ℤ) : (2 : ℚ) ^ (k - 1) = 2 ^ k / 2 := by
  rw [zpow_sub₀ (by norm_num : (2 : ℚ) ≠ 0), zpow_one]

theorem log_eq_of_bounds (q : ℚ) (e : ℤ) (hlo : (2 : ℚ) ^ e ≤ |q|) (hhi : |q| < 2 ^ (e + 1)) :
    Int.log 2 |q| = e := by
  have hpos : (0 : ℚ) < |q| := lt_of_lt_of_le (two_zpow_pos e) hlo
  have h1 : e ≤ Int.log 2 |q| := by
    rw [← Int.zpow_le_iff_le_log (by norm_num) hpos]
    simpa using hlo
  have h2 : Int.log 2 |q| < e + 1 := by
    rw [← Int.lt_zpow_iff_log_lt (by norm_num) hpos]
    simpa using hhi
  omega

theorem log_bounds (q : ℚ) (hq : q ≠ 0) :
    (2 : ℚ) ^ (Int.log 2 |q|) ≤ |q| ∧ |q| < 2 ^ (Int.log 2 |q| + 1) := by
  have hpos : (0 : ℚ) < |q| := abs_pos.mpr hq
  have h1 := Int.zpow_log_le_self (b := 2) (by norm_num) hpos
  have h2 := Int.lt_zpow_succ_log_self (b := 2) (by norm_num) |q|
  simp only [Nat.cast_ofNat] at h1 h2
  exact ⟨h1, h2⟩

theorem Double.round_of_ulp_multiple (q : ℚ) (N : Int)
    (h : q = (N : ℚ) * 2 ^ Double.ulpExponent q) (hlt : |q| < 2 ^ (1024 : ℤ)) :
    Double.round q = .finite q := by
  have hx : q / 2 ^ Double.ulpExponent q = (N : ℚ) := by
    rw [div_eq_iff (ne_of_gt (two_zpow_pos _))]
    exact h
  have hr : (roundHalfEven (q / 2 ^ Double.ulpExponent q) : ℚ) * 2 ^ Double.ulpExponent q = q := by
    rw [hx, roundHalfEven_intCast]
    exact h.symm
  rw [abs_lt] at hlt
  unfold Double.round
  rw [hr, if_neg (by linarith), if_neg (by linarith)]

theorem Double.round_zero : Double.round 0 = .finite 0 :=
  Double.round_of_ulp_multiple 0 0 (by simp) (by simp [two_zpow_pos])

theorem abs_cast_lt_two_pow_53 (n : ℤ) (hn : |n| < 2 ^ 53) : |(n : ℚ)| < 2 ^ (53 : ℤ) := by
  have h1 : ((|n| : ℤ) : ℚ) < ((2 ^ 53 : ℤ) : ℚ) := Int.cast_lt.mpr hn
  rw [Int.cast_abs] at h1
  have h2 : ((2 ^ 53 : ℤ) : ℚ) = 2 ^ (53 : ℤ) := by norm_num
  rw [h2] at h1
  exact h1

theorem Double.round_of_representable (m j : ℤ) (hm : |m| < 2 ^ 53) (hj : -1074 ≤ j)
    (hq : |(m : ℚ) * 2 ^ j| < 2 ^ (1024 : ℤ)) :
    Double.round ((m : ℚ) * 2 ^ j) = .finite ((m : ℚ) * 2 ^ j) := by
  by_cases hm0 : m = 0
  · subst hm0
    simp only [Int.cast_zero, zero_mul]
    exact Double.round_zero
  · have hq0 : (m : ℚ) * 2 ^ j ≠ 0 :=
      mul_ne_zero (Int.cast_ne_zero.mpr hm0) (ne_of_gt (two_zpow_pos j))
    obtain ⟨hlo, _⟩ := log_bounds _ hq0
    have habs : |(m : ℚ) * 2 ^ j| < 2 ^ (53 + j) := by
      rw [abs_mul, abs_of_pos (two_zpow_pos j), zpow_add₀ (by norm_num : (2 : ℚ) ≠ 0)]
      exact mul_lt_mul_of_pos_right (abs_cast_lt_two_pow_53 m hm) (two_zpow_pos j)
    have hlog : Int.log 2 |(m : ℚ) * 2 ^ j| < 53 + j :=
      two_zpow_lt_iff.mp (lt_of_le_of_lt hlo habs)
    have hu : Double.ulpExponent ((m : ℚ) * 2 ^ j) ≤ j := by
      unfold Double.ulpExponent
      omega
    obtain ⟨n, hn⟩ := Int.eq_ofNat_of_zero_le (sub_nonneg.mpr hu)
    refine Double.round_of_ulp_multiple _ (m * 2 ^ n) ?_ hq
    have hj' : j = (n : ℤ) + Double.ulpExponent ((m : ℚ) * 2 ^ j) := by omega
    conv_lhs => rw [hj']
    rw [zpow_add₀ (by norm_num : (2 : ℚ) ≠ 0)]
    push_cast
    rw [zpow_natCast]
    ring

theorem Double.round_intCast (n : ℤ) (hn : |n| < 2 ^ 53) : Double.round (n : ℚ) = .finite n := by
  have h := Double.round_of_representable n 0 hn (by norm_num) (by
    rw [zpow_zero, mul_one]
    exact lt_trans (abs_cast_lt_two_pow_53 n hn) (two_zpow_lt (by norm_num)))
  rw [zpow_zero, mul_one] at h
  exact h

theorem Double.round_half_intCast (n : ℤ) (hn : |n| < 2 ^ 53) :
    Double.round ((n : ℚ) / 2) = .finite ((n : ℚ) / 2) := by
  have e : (n : ℚ) / 2 = (n : ℚ) * 2 ^ (-1 : ℤ) := by
    rw [zpow_neg, zpow_one]
    rfl
  rw [e]
  refine Double.round_of_representable n (-1) hn (by norm_num) ?_
  rw [abs_mul, abs_of_pos (two_zpow_pos _)]
  have h4 : (2 : ℚ) ^ (-1 : ℤ) ≤ 1 := by
    rw [zpow_neg, zpow_one]
    norm_num
  calc |(n : ℚ)| * 2 ^ (-1 : ℤ) ≤ |(n : ℚ)| * 1 :=
        mul_le_mul_of_nonneg_left h4 (abs_nonneg _)
    _ = |(n : ℚ)| := mul_one _
    _ < 2 ^ (1024 : ℤ) := lt_trans (abs_cast_lt_two_pow_53 n hn) (two_zpow_lt (by norm_num))

theorem Double.round_two_zpow (k : ℤ) (h1 : -1074 ≤ k) (h2 : k ≤ 1023) :
    Double.round (2 ^ k) = .finite (2 ^ k) := by
  have h := Double.round_of_representable 1 k (by norm_num) h1 (by
    rw [Int.cast_one, one_mul, abs_of_pos (two_zpow_pos k)]
    exact two_zpow_lt (by omega))
  rw [Int.cast_one, one_mul] at h
  exact h

theorem Double.round_two_zpow_overflow : Double.round (2 ^ (1024 : ℤ)) = .posInf := by
  have hlog : Int.log 2 |(2 : ℚ) ^ (1024 : ℤ)| = 1024 :=
    log_eq_of_bounds _ 1024 (by rw [abs_of_pos (two_zpow_pos _)])
      (by rw [abs_of_pos (two_zpow_pos _)]; exact two_zpow_lt (by norm_num))
  have hu : Double.ulpExponent ((2 : ℚ) ^ (1024 : ℤ)) = 972 := by
    unfold Double.ulpExponent
    rw [hlog]
    norm_num
  have hx : (2 : ℚ) ^ (1024 : ℤ) / 2 ^ (972 : ℤ) = ((2 ^ 52 : ℤ) : ℚ) := by
    rw [← zpow_sub₀ (by norm_num : (2 : ℚ) ≠ 0)]
    norm_num
  have hr : ((2 ^ 52 : ℤ) : ℚ) * 2 ^ (972 : ℤ) = 2 ^ (1024 : ℤ) := by
    rw [← hx]
    field_simp
  unfold Double.round
  rw [hu, hx, roundHalfEven_intCast, hr, if_pos (le_refl _)]

theorem Double.round_two_zpow_underflow : Double.round (2 ^ (-1075 : ℤ)) = .finite 0 := by
  have hlog : Int.log 2 |(2 : ℚ) ^ (-1075 : ℤ)| = -1075 :=
    log_eq_of_bounds _ (-1075) (by rw [abs_of_pos (two_zpow_pos _)])
      (by rw [abs_of_pos (two_zpow_pos _)]; exact two_zpow_lt (by norm_num))
  have hu : Double.ulpExponent ((2 : ℚ) ^ (-1075 : ℤ)) = -1074 := by
    unfold Double.ulpExponent
    rw [hlog]
    norm_num
  have hx : (2 : ℚ) ^ (-1075 : ℤ) / 2 ^ (-1074 : ℤ) = 1 / 2 := by
    rw [← zpow_sub₀ (by norm_num : (2 : ℚ) ≠ 0)]
    norm_num
  have hh : roundHalfEven (1 / 2) = 0 := by
    have hf : ⌊(1 / 2 : ℚ)⌋ = 0 := by
      rw [Int.floor_eq_iff]
      norm_num
    unfold roundHalfEven
    rw [hf]
    norm_num
  unfold Double.round
  rw [hu, hx, hh]
  have h0 : ((0 : ℤ) : ℚ) * 2 ^ (-1074 : ℤ) = 0 := by simp
  rw [h0, if_neg (by simp [two_zpow_pos]), if_neg (by simp [two_zpow_pos])]

theorem Double.round_eq_of_bounds (q : ℚ) (e M : ℤ) (he : -1022 ≤ e) (hlo : (2 : ℚ) ^ e ≤ |q|)
    (hhi : |q| < 2 ^ (e + 1)) (hM : |q / 2 ^ (e - 52) - M| < 1 / 2)
    (hlt : |(M : ℚ) * 2 ^ (e - 52)| < 2 ^ (1024 : ℤ)) :
    Double.round q = .finite ((M : ℚ) * 2 ^ (e - 52)) := by
  have hu : Double.ulpExponent q = e - 52 := by
    unfold Double.ulpExponent
    rw [log_eq_of_bounds q e hlo hhi, max_eq_left he]
  rw [abs_lt] at hlt
  unfold Double.round
  rw [hu, roundHalfEven_eq_of_abs_lt _ M hM, if_neg (by linarith), if_neg (by linarith)]

theorem two_pow_52_mul (k : ℤ) : (4503599627370496 : ℚ) * 2 ^ (k - 52) = 2 ^ k := by
  have h52 : (4503599627370496 : ℚ) = 2 ^ (52 : ℤ) := by norm_num
  rw [h52, ← zpow_add₀ (by norm_num : (2 : ℚ) ≠ 0)]
  congr 1
  ring

theorem two_pow_53_mul (k : ℤ) : (9007199254740992 : ℚ) * 2 ^ (k - 52) = 2 ^ (k + 1) := by
  have h53 : (9007199254740992 : ℚ) = 2 ^ (53 : ℤ) := by norm_num
  rw [h53, ← zpow_add₀ (by norm_num : (2 : ℚ) ≠ 0)]
  congr 1
  ring

theorem Double.round_bounds (q : ℚ) (e : ℤ) (hq : 0 < q) (he1 : -1022 ≤ e) (he2 : e ≤ 1022)
    (hlo : (2 : ℚ) ^ e ≤ q) (hhi : q < 2 ^ (e + 1)) :
    ∃ r, Double.round q = .finite r ∧ 2 ^ e ≤ r ∧ r ≤ 2 ^ (e + 1) ∧ |r - q| ≤ 2 ^ (e - 53) := by
  have habs : |q| = q := abs_of_pos hq
  have hu : Double.ulpExponent q = e - 52 := by
    unfold Double.ulpExponent
    rw [log_eq_of_bounds q e (by rw [habs]; exact hlo) (by rw [habs]; exact hhi), max_eq_left he1]
  have hup : (0 : ℚ) < 2 ^ (e - 52) := two_zpow_pos _
  have hxlo : (4503599627370496 : ℚ) ≤ q / 2 ^ (e - 52) := by
    rw [le_div_iff₀ hup, two_pow_52_mul]
    exact hlo
  have hxhi : q / 2 ^ (e - 52) < (9007199254740992 : ℚ) := by
    rw [div_lt_iff₀ hup, two_pow_53_mul]
    exact hhi
  have herr := roundHalfEven_abs_sub_le (q / 2 ^ (e - 52))
  rw [abs_le] at herr
  have hMlo : (4503599627370496 : ℤ) ≤ roundHalfEven (q / 2 ^ (e - 52)) := by
    have h2 : ((4503599627370495 : ℤ) : ℚ) < (roundHalfEven (q / 2 ^ (e - 52)) : ℚ) := by
      push_cast
      linarith
    have := Int.cast_lt.mp h2
    omega
  have hMhi : roundHalfEven (q / 2 ^ (e - 52)) ≤ (9007199254740992 : ℤ) := by
    have h2 : (roundHalfEven (q / 2 ^ (e - 52)) : ℚ) < ((9007199254740993 : ℤ) : ℚ) := by
      push_cast
      linarith
    have := Int.cast_lt.mp h2
    omega
  have hrlo : (2 : ℚ) ^ e ≤ (roundHalfEven (q / 2 ^ (e - 52)) : ℚ) * 2 ^ (e - 52) := by
    have h1 : ((4503599627370496 : ℤ) : ℚ) * 2 ^ (e - 52)
        ≤ (roundHalfEven (q / 2 ^ (e - 52)) : ℚ) * 2 ^ (e - 52) :=
      mul_le_mul_of_nonneg_right (Int.cast_le.mpr hMlo) (le_of_lt hup)
    push_cast at h1
    rw [two_pow_52_mul] at h1
    exact h1
  have hrhi : (roundHalfEven (q / 2 ^ (e - 52)) : ℚ) * 2 ^ (e - 52) ≤ 2 ^ (e + 1) := by
    have h1 : (roundHalfEven (q / 2 ^ (e - 52)) : ℚ) * 2 ^ (e - 52)
        ≤ ((9007199254740992 : ℤ) : ℚ) * 2 ^ (e - 52) :=
      mul_le_mul_of_nonneg_right (Int.cast_le.mpr hMhi) (le_of_lt hup)
    push_cast at h1
    rw [two_pow_53_mul] at h1
    exact h1
  have hfin : (2 : ℚ) ^ (e + 1) < 2 ^ (1024 : ℤ) := two_zpow_lt (by omega)
  refine ⟨(roundHalfEven (q / 2 ^ (e - 52)) : ℚ) * 2 ^ (e - 52), ?_, hrlo, hrhi, ?_⟩
  · unfold Double.round
    rw [hu, if_neg (by linarith), if_neg (by
      have := two_zpow_pos e
      have := two_zpow_pos (1024 : ℤ)
      linarith)]
  · have e1 : (roundHalfEven (q / 2 ^ (e - 52)) : ℚ) * 2 ^ (e - 52) - q
        = ((roundHalfEven (q / 2 ^ (e - 52)) : ℚ) - q / 2 ^ (e - 52)) * 2 ^ (e - 52) := by
      field_simp
    have e2 : (2 : ℚ) ^ (e - 53) = 1 / 2 * 2 ^ (e - 52) := by
      rw [show e - 53 = (e - 52) - 1 by ring, two_zpow_pred]
      ring
    rw [e1, e2, abs_mul, abs_of_pos hup]
    exact mul_le_mul_of_nonneg_right (abs_le.mpr herr) (le_of_lt hup)

end Binary64

/-! ## Values of `double` operations -/

section DoubleValues

theorem Double.zero_def : (0 : Double) = .finite 0 := by
  show Double.finite ((0 : ℕ) : ℚ) = _
  norm_num

theorem Double.one_def : (1 : Double) = .finite 1 := by
  show Double.finite ((1 : ℕ) : ℚ) = _
  norm_num

theorem Double.two_def : (2 : Double) = .finite 2 := by
  show Double.finite ((2 : ℕ) : ℚ) = _
  norm_num

theorem Double.finite_mul_finite (a b : ℚ) : Double.finite a * Double.finite b = Double.round (a * b) :=
  rfl

theorem Double.finite_add_finite (a b : ℚ) : Double.finite a + Double.finite b = Double.round (a + b) :=
  rfl

theorem Double.finite_sub_finite (a b : ℚ) : Double.finite a - Double.finite b = Double.round (a - b) := by
  show Double.round (a + -b) = _
  rw [sub_eq_add_neg]

theorem Double.finite_div_finite (a b : ℚ) (hb : b ≠ 0) :
    Double.finite a / Double.finite b = Double.round (a / b) := by
  show Double.div _ _ = _
  simp [Double.div, hb]

theorem Double.ofInt_eq (n : ℤ) (hn : |n| < 2 ^ 53) : Double.ofInt n = .finite n :=
  Double.round_intCast n hn

theorem Double.ofInt_step : Double.ofInt SPLITVIEWWIDGET_ZOOM_STEP_FACTOR = .finite 2 := by
  have h := Double.ofInt_eq 2 (by norm_num)
  simpa [SPLITVIEWWIDGET_ZOOM_STEP_FACTOR] using h

theorem Double.ofInt_two : Double.ofInt 2 = .finite 2 := by
  have h := Double.ofInt_eq 2 (by norm_num)
  simpa using h

theorem Double.round_intCast_nat (n : ℕ) (hn : n < 2 ^ 53) : Double.round (n : ℚ) = .finite n := by
  have h := Double.round_intCast (n : ℤ) (by
    rw [abs_of_nonneg (Int.natCast_nonneg n)]
    exact_mod_cast hn)
  simpa using h

theorem Double.round_one : Double.round 1 = .finite 1 := by
  have h := Double.round_intCast_nat 1 (by norm_num)
  simpa using h

theorem Double.round_two : Double.round 2 = .finite 2 := by
  have h := Double.round_intCast_nat 2 (by norm_num)
  simpa using h

theorem Double.round_half : Double.round (1 / 2) = .finite (1 / 2) := by
  have h := Double.round_half_intCast 1 (by norm_num)
  simpa using h

end DoubleValues

/-! ## Theorems about the view state of `splitViewWidget` -/

section ViewStateTheorems

open Views

/-- C20: `resetViews` sets the zoom factor to 1, the centre offset to (0,0) and
the splitting point to 0.5 and leaves every other member of the widget (the
split mode, the grid size and the zoom-box flag among them) unchanged;
applying it twice gives the same views as applying it once. -/
theorem resetViews_frame (v : Views) :
    v.resetViews.widget.zoomFactor = 1 ∧ v.resetViews.widget.centerOffset = ⟨0, 0⟩ ∧
    v.resetViews.widget.splittingPoint = .finite (1 / 2) ∧
    v.resetViews.widget.viewSplitMode = v.widget.viewSplitMode ∧
    v.resetViews.widget.regularGridSize = v.widget.regularGridSize ∧
    v.resetViews.widget.drawZoomBox = v.widget.drawZoomBox ∧
    v.resetViews.widget
      = { v.widget with centerOffset := ⟨0, 0⟩, zoomFactor := 1, splittingPoint := .finite (1 / 2) } ∧
    v.resetViews.resetViews = v.resetViews := by
  refine ⟨rfl, rfl, rfl, rfl, rfl, rfl, rfl, ?_⟩
  cases h : v.widget.linkViews <;>
    simp [resetViews, setCenterOffset, setZoomFactor, setSplittingPoint, h]

theorem ofInt_getViewState (w : splitViewWidget) :
    ViewSplitMode.ofInt w.getViewState.2.2.2 = some w.viewSplitMode := by
  cases h : w.viewSplitMode <;> simp [splitViewWidget.getViewState, ViewSplitMode.ofInt, h]

theorem setViewState_widget (v : Views) (offset : QPoint) (zoom splitPoint : Double) (mode : Int)
    (m : ViewSplitMode) (hm : ViewSplitMode.ofInt mode = some m) :
    ∃ v', v.setViewState offset zoom splitPoint mode = some v' ∧
      v'.widget = { v.widget with centerOffset := offset, zoomFactor := zoom,
                                  splittingPoint := splitPoint, viewSplitMode := m } := by
  rw [setViewState, hm]
  refine ⟨_, rfl, ?_⟩
  by_cases hl : v.widget.linkViews = true <;> by_cases ho : v.otherWidget.linkViews = true <;>
    by_cases he : v.widget.viewSplitMode = m <;>
    simp [setCenterOffset, setZoomFactor, setSplittingPoint, setViewSplitMode,
      splitViewWidget.setViewSplitModeHere, swap, hl, ho, he]

/-- C17: for every offset, zoom, split point and every mode in {0,1,2},
`getViewState` after `setViewState(offset, zoom, splitPoint, mode)` returns
exactly these four values (0 = disabled, 1 = side-by-side, 2 = comparison), and
`setViewState` applied to the four values `getViewState` returns leaves the
widget (its `centerOffset`, `zoomFactor`, `splittingPoint` and `viewSplitMode`
in particular) unchanged. -/
theorem setViewState_getViewState (v : Views) (offset : QPoint) (zoom splitPoint : Double) (mode : Int)
    (hmode : mode = 0 ∨ mode = 1 ∨ mode = 2) :
    (∃ v', v.setViewState offset zoom splitPoint mode = some v' ∧
      v'.widget.getViewState = (offset, zoom, splitPoint, mode)) ∧
    (∃ v', v.setViewState v.widget.getViewState.1 v.widget.getViewState.2.1
        v.widget.getViewState.2.2.1 v.widget.getViewState.2.2.2 = some v' ∧
      v'.widget.centerOffset = v.widget.centerOffset ∧ v'.widget.zoomFactor = v.widget.zoomFactor ∧
      v'.widget.splittingPoint = v.widget.splittingPoint ∧
      v'.widget.viewSplitMode = v.widget.viewSplitMode ∧ v'.widget = v.widget) := by
  constructor
  · rcases hmode with rfl | rfl | rfl
    · obtain ⟨v', h1, h2⟩ := setViewState_widget v offset zoom splitPoint 0 .DISABLED rfl
      exact ⟨v', h1, by rw [h2]; rfl⟩
    · obtain ⟨v', h1, h2⟩ := setViewState_widget v offset zoom splitPoint 1 .SIDE_BY_SIDE rfl
      exact ⟨v', h1, by rw [h2]; rfl⟩
    · obtain ⟨v', h1, h2⟩ := setViewState_widget v offset zoom splitPoint 2 .COMPARISON rfl
      exact ⟨v', h1, by rw [h2]; rfl⟩
  · obtain ⟨v', h1, h2⟩ := setViewState_widget v v.widget.getViewState.1 v.widget.getViewState.2.1
      v.widget.getViewState.2.2.1 v.widget.getViewState.2.2.2 v.widget.viewSplitMode
      (ofInt_getViewState v.widget)
    have h3 : v'.widget = v.widget := h2
    exact ⟨v', h1, by rw [h3], by rw [h3], by rw [h3], by rw [h3], h3⟩

theorem setViewState_getViewState_witness :
    (∃ v', sampleViews.setViewState ⟨3, -4⟩ (.finite (1 / 4)) (.finite (3 / 10)) 2 = some v' ∧
      v'.widget.getViewState = (⟨3, -4⟩, .finite (1 / 4), .finite (3 / 10), 2)) ∧
    (∃ v', sampleViews.setViewState sampleViews.widget.getViewState.1
        sampleViews.widget.getViewState.2.1 sampleViews.widget.getViewState.2.2.1
        sampleViews.widget.getViewState.2.2.2 = some v' ∧
      v'.widget.centerOffset = sampleViews.widget.centerOffset ∧
      v'.widget.zoomFactor = sampleViews.widget.zoomFactor ∧
      v'.widget.splittingPoint = sampleViews.widget.splittingPoint ∧
      v'.widget.viewSplitMode = sampleViews.widget.viewSplitMode ∧ v'.widget = sampleViews.widget) :=
  setViewState_getViewState sampleViews ⟨3, -4⟩ (.finite (1 / 4)) (.finite (3 / 10)) 2
    (Or.inr (Or.inr rfl))

/-- C19: with the two views linked and holding equal values, `gridSetCustom`
with the value 5 entered sets `regularGridSize` to 5 in the widget only and
leaves 0 in the other widget, while the sibling `setRegularGridSize(16)` of the
other grid actions sets both; and the end of a pinch gesture with the scale
factor 2 doubles the zoom factor of the widget only. -/
theorem gridSetCustom_breaks_link :
    (sampleViews.toggleSeparateWindowLink true).widget.linkViews = true ∧
    (sampleViews.toggleSeparateWindowLink true).otherWidget.linkViews = true ∧
    LinkedEqual (sampleViews.toggleSeparateWindowLink true) ∧
    ((sampleViews.toggleSeparateWindowLink true).gridSetCustom (some 5)).widget.regularGridSize = 5 ∧
    ((sampleViews.toggleSeparateWindowLink true).gridSetCustom (some 5)).otherWidget.regularGridSize = 0 ∧
    ((sampleViews.toggleSeparateWindowLink true).setRegularGridSize 16 true).widget.regularGridSize = 16 ∧
    ((sampleViews.toggleSeparateWindowLink true).setRegularGridSize 16 true).otherWidget.regularGridSize = 16 ∧
    ((sampleViews.toggleSeparateWindowLink true).pinchGesture
      ⟨false, true, true, false, 2, (0, 0), (0, 0)⟩).widget.zoomFactor = 2 ∧
    ((sampleViews.toggleSeparateWindowLink true).pinchGesture
      ⟨false, true, true, false, 2, (0, 0), (0, 0)⟩).otherWidget.zoomFactor = 1 := by
  refine ⟨rfl, rfl, ⟨rfl, rfl, rfl, rfl, rfl⟩, rfl, rfl, rfl, rfl, ?_, rfl⟩
  have h : ((sampleViews.toggleSeparateWindowLink true).pinchGesture
      ⟨false, true, true, false, 2, (0, 0), (0, 0)⟩).widget.zoomFactor = (1 : Double) * 2 := rfl
  rw [h, Double.one_def, Double.two_def, Double.finite_mul_finite]
  norm_num
  exact Double.round_two

end ViewStateTheorems

/-! ## Theorems about dragging the splitter -/

section SplitterTheorems

open Views

theorem Double.toInt_finite_of_floor (q : ℚ) (n : ℤ) (h0 : 0 ≤ q) (hf : ⌊q⌋ = n)
    (h1 : -2147483648 ≤ n) (h2 : n ≤ 2147483647) : (Double.finite q).toInt = n := by
  simp only [Double.toInt, if_pos h0, hf]
  rw [if_pos ⟨h1, h2⟩]

theorem draggedSplittingPoint_79 :
    draggedSplittingPoint 0 (sampleDragging 79).widget
      = .finite (4679064547917398 * 2 ^ (-55 : ℤ)) := by
  have h1 : draggedSplittingPoint 0 (sampleDragging 79).widget
      = Double.ofInt 10 / Double.ofInt 77 := by
    have hc : clip 0 SPLITVIEWWIDGET_SPLITTER_CLIPX
        (toInt32 (toInt32 ((sampleDragging 79).widget.width - 2) - SPLITVIEWWIDGET_SPLITTER_CLIPX)) = 10 := by
      decide
    have hw : toInt32 ((sampleDragging 79).widget.width - 2) = 77 := by decide
    unfold draggedSplittingPoint
    rw [hc, hw]
  have h10 : Double.ofInt 10 = .finite 10 := by
    have h := Double.ofInt_eq 10 (by norm_num)
    simpa using h
  have h77 : Double.ofInt 77 = .finite 77 := by
    have h := Double.ofInt_eq 77 (by norm_num)
    simpa using h
  rw [h1, h10, h77, Double.finite_div_finite _ _ (by norm_num)]
  have h := Double.round_eq_of_bounds (10 / 77) (-3) 4679064547917398 (by norm_num)
    (by rw [abs_of_pos (by norm_num)]; norm_num)
    (by rw [abs_of_pos (by norm_num)]; norm_num)
    (by rw [abs_lt]; constructor <;> norm_num)
    (by rw [abs_of_pos (by norm_num)]; norm_num)
  rw [h]
  norm_num

theorem grabPosition_79 :
    (Double.ofInt (toInt32 (79 - 2)) * Double.finite (4679064547917398 * 2 ^ (-55 : ℤ))).toInt = 9 := by
  have hw : toInt32 (79 - 2) = 77 := by decide
  have h77 : Double.ofInt 77 = .finite 77 := by
    have h := Double.ofInt_eq 77 (by norm_num)
    simpa using h
  rw [hw, h77, Double.finite_mul_finite]
  have h := Double.round_eq_of_bounds (77 * (4679064547917398 * 2 ^ (-55 : ℤ))) 3 5629499534213119
    (by norm_num)
    (by rw [abs_of_pos (by norm_num)]; norm_num)
    (by rw [abs_of_pos (by norm_num)]; norm_num)
    (by rw [abs_lt]; constructor <;> norm_num)
    (by rw [abs_of_pos (by norm_num)]; norm_num)
  rw [h]
  refine Double.toInt_finite_of_floor _ 9 (by norm_num) ?_ (by norm_num) (by norm_num)
  rw [Int.floor_eq_iff]
  constructor <;> norm_num

/-- C18: on a widget 79 pixels wide in side-by-side mode, dragging the splitter
to the mouse position x = 0 clips x to 10 and sets the splitting point to the
`double` quotient 10.0 / 77.0; the product `(width()-2) * splittingPoint` is
then the `double` just below 10, so the grab position
`int((width()-2) * splittingPoint)` is 9, less than 10 pixels from the left
border, after `mouseMoveEvent` and after `mouseReleaseEvent`. -/
theorem splitter_drag_grab_position_below_clip :
    (mouseMoveEvent ⟨⟨0, 50⟩, .LeftButton, false, false⟩ (sampleDragging 79)).widget.splittingPoint
      = .finite (4679064547917398 * 2 ^ (-55 : ℤ)) ∧
    (Double.ofInt (toInt32 (79 - 2))
      * (mouseMoveEvent ⟨⟨0, 50⟩, .LeftButton, false, false⟩
          (sampleDragging 79)).widget.splittingPoint).toInt = 9 ∧
    ¬ SplitterInReach
      (mouseMoveEvent ⟨⟨0, 50⟩, .LeftButton, false, false⟩ (sampleDragging 79)).widget ∧
    (mouseReleaseEvent 0 ⟨⟨0, 50⟩, .LeftButton, false, false⟩ (sampleDragging 79)).map
      (fun v' => (Double.ofInt (toInt32 (79 - 2)) * v'.widget.splittingPoint).toInt) = some 9 := by
  have hm : (mouseMoveEvent ⟨⟨0, 50⟩, .LeftButton, false, false⟩
      (sampleDragging 79)).widget.splittingPoint
      = draggedSplittingPoint 0 (sampleDragging 79).widget := rfl
  have hr : (mouseReleaseEvent 0 ⟨⟨0, 50⟩, .LeftButton, false, false⟩ (sampleDragging 79)).map
      (fun v' => v'.widget.splittingPoint)
      = some (draggedSplittingPoint 0 (sampleDragging 79).widget) := rfl
  have hg : (Double.ofInt (toInt32 (79 - 2))
      * (mouseMoveEvent ⟨⟨0, 50⟩, .LeftButton, false, false⟩
          (sampleDragging 79)).widget.splittingPoint).toInt = 9 := by
    rw [hm, draggedSplittingPoint_79]
    exact grabPosition_79
  refine ⟨by rw [hm, draggedSplittingPoint_79], hg, ?_, ?_⟩
  · intro h
    have h3 := h.2.2.1
    have hw : (mouseMoveEvent ⟨⟨0, 50⟩, .LeftButton, false, false⟩
        (sampleDragging 79)).widget.width = 79 := rfl
    rw [hw, hg] at h3
    exact absurd h3 (by decide)
  · cases hrel : mouseReleaseEvent 0 ⟨⟨0, 50⟩, .LeftButton, false, false⟩ (sampleDragging 79) with
    | none =>
      rw [hrel] at hr
      cases hr
    | some v' =>
      rw [hrel] at hr
      have hsp : v'.widget.splittingPoint = draggedSplittingPoint 0 (sampleDragging 79).widget :=
        Option.some.inj hr
      show some ((Double.ofInt (toInt32 (79 - 2)) * v'.widget.splittingPoint).toInt) = some 9
      rw [hsp, draggedSplittingPoint_79, grabPosition_79]

end SplitterTheorems

/-! ## The loops that step the zoom factor by powers of two -/

section ZoomLoops

theorem whileLoop_of_iterate {σ : Type} (cond : σ → Bool) (body : σ → σ) (t : Nat) :
    ∀ s : σ, (∀ i, i < t → cond (body^[i] s) = true) → cond (body^[t] s) = false →
      ∀ fuel, t ≤ fuel → whileLoop cond body fuel s = some (body^[t] s) := by
  induction t with
  | zero =>
    intro s _ h2 fuel _
    have h2' : cond s = false := h2
    cases fuel <;> simp [whileLoop, h2']
  | succ t ih =>
    intro s h1 h2 fuel hfuel
    have h0 : cond s = true := h1 0 (Nat.succ_pos t)
    cases fuel with
    | zero => omega
    | succ fuel =>
      simp only [whileLoop, h0, if_true]
      rw [Function.iterate_succ_apply]
      apply ih (body s)
      · intro i hi
        rw [← Function.iterate_succ_apply]
        exact h1 (i + 1) (by omega)
      · rw [← Function.iterate_succ_apply]
        exact h2
      · omega

theorem mul_step_finite (k : ℤ) (h1 : -1075 ≤ k) (h2 : k ≤ 1022) :
    Double.finite (2 ^ k) * Double.ofInt SPLITVIEWWIDGET_ZOOM_STEP_FACTOR = .finite (2 ^ (k + 1)) := by
  have h : (2 : ℚ) ^ k * 2 = 2 ^ (k + 1) := by rw [two_zpow_succ]; ring
  rw [Double.ofInt_step, Double.finite_mul_finite, h]
  exact Double.round_two_zpow (k + 1) (by omega) (by omega)

theorem div_step_finite (k : ℤ) (h1 : -1073 ≤ k) (h2 : k ≤ 1024) :
    Double.finite (2 ^ k) / Double.ofInt SPLITVIEWWIDGET_ZOOM_STEP_FACTOR = .finite (2 ^ (k - 1)) := by
  rw [Double.ofInt_step, Double.finite_div_finite _ _ (by norm_num), ← two_zpow_pred]
  exact Double.round_two_zpow (k - 1) (by omega) (by omega)

theorem iterate_mul_step (i : Nat) (hi : i ≤ 1023) :
    (fun newZoom : Double => newZoom * Double.ofInt SPLITVIEWWIDGET_ZOOM_STEP_FACTOR)^[i] 1
      = .finite (2 ^ (i : ℤ)) := by
  induction i with
  | zero =>
    rw [Function.iterate_zero_apply, Double.one_def]
    simp
  | succ i ih =>
    rw [Function.iterate_succ_apply', ih (by omega)]
    have h := mul_step_finite (i : ℤ) (by omega) (by omega)
    rw [h]
    push_cast
    rfl

theorem iterate_mul_step_overflow (i : Nat) (hi : 1024 ≤ i) :
    (fun newZoom : Double => newZoom * Double.ofInt SPLITVIEWWIDGET_ZOOM_STEP_FACTOR)^[i] 1
      = .posInf := by
  induction i, hi using Nat.le_induction with
  | base =>
    rw [Function.iterate_succ_apply', iterate_mul_step 1023 (by omega), Double.ofInt_step,
      Double.finite_mul_finite]
    have h : (2 : ℚ) ^ ((1023 : ℕ) : ℤ) * 2 = 2 ^ (1024 : ℤ) := by
      rw [show (1024 : ℤ) = ((1023 : ℕ) : ℤ) + 1 by norm_num, two_zpow_succ]
      ring
    rw [h]
    exact Double.round_two_zpow_overflow
  | succ n _ ih =>
    rw [Function.iterate_succ_apply', ih, Double.ofInt_step]
    show Double.mul .posInf (.finite 2) = _
    simp [Double.mul]

theorem iterate_div_step (i : Nat) (hi : i ≤ 1074) :
    (fun newZoom : Double => newZoom / Double.ofInt SPLITVIEWWIDGET_ZOOM_STEP_FACTOR)^[i] 1
      = .finite (2 ^ (-(i : ℤ))) := by
  induction i with
  | zero =>
    rw [Function.iterate_zero_apply, Double.one_def]
    simp
  | succ i ih =>
    rw [Function.iterate_succ_apply', ih (by omega)]
    have h := div_step_finite (-(i : ℤ)) (by omega) (by omega)
    rw [h]
    have hc : -(i : ℤ) - 1 = -((i + 1 : ℕ) : ℤ) := by push_cast; ring
    rw [hc]

theorem iterate_div_step_underflow (i : Nat) (hi : 1075 ≤ i) :
    (fun newZoom : Double => newZoom / Double.ofInt SPLITVIEWWIDGET_ZOOM_STEP_FACTOR)^[i] 1
      = .finite 0 := by
  induction i, hi using Nat.le_induction with
  | base =>
    rw [Function.iterate_succ_apply', iterate_div_step 1074 (by omega), Double.ofInt_step,
      Double.finite_div_finite _ _ (by norm_num)]
    have h : (2 : ℚ) ^ (-((1074 : ℕ) : ℤ)) / 2 = 2 ^ (-1075 : ℤ) := by
      rw [show (-1075 : ℤ) = -((1074 : ℕ) : ℤ) - 1 by norm_num, two_zpow_pred]
    rw [h]
    exact Double.round_two_zpow_underflow
  | succ n _ ih =>
    rw [Function.iterate_succ_apply', ih, Double.ofInt_step,
      Double.finite_div_finite _ _ (by norm_num)]
    rw [zero_div]
    exact Double.round_zero

theorem exists_two_pow_gt (z : ℚ) : ∃ t : Nat, z < (2 : ℚ) ^ (t : ℤ) := by
  obtain ⟨n, hn⟩ := pow_unbounded_of_one_lt z (by norm_num : (1 : ℚ) < 2)
  exact ⟨n, by rw [zpow_natCast]; exact hn⟩

theorem exists_two_pow_neg_lt (z : ℚ) (hz : 0 < z) : ∃ t : Nat, (2 : ℚ) ^ (-(t : ℤ)) < z := by
  obtain ⟨n, hn⟩ := exists_pow_lt_of_lt_one hz (by norm_num : (1 / 2 : ℚ) < 1)
  refine ⟨n, ?_⟩
  rw [zpow_neg, zpow_natCast, ← inv_pow]
  simpa using hn

theorem exists_min_pow_gt (q : ℚ) :
    ∃ t : Nat, q < (2 : ℚ) ^ (t : ℤ) ∧ ∀ i : Nat, i < t → (2 : ℚ) ^ (i : ℤ) ≤ q := by
  classical
  have hex := exists_two_pow_gt q
  exact ⟨Nat.find hex, Nat.find_spec hex, fun i hi => not_lt.mp (Nat.find_min hex hi)⟩

theorem exists_min_pow_ge (q : ℚ) :
    ∃ t : Nat, q ≤ (2 : ℚ) ^ (t : ℤ) ∧ ∀ i : Nat, i < t → (2 : ℚ) ^ (i : ℤ) < q := by
  classical
  have hex : ∃ t : Nat, q ≤ (2 : ℚ) ^ (t : ℤ) := by
    obtain ⟨n, hn⟩ := exists_two_pow_gt q
    exact ⟨n, hn.le⟩
  exact ⟨Nat.find hex, Nat.find_spec hex, fun i hi => not_le.mp (Nat.find_min hex hi)⟩

theorem exists_min_neg_pow_le (q : ℚ) (hq : 0 < q) :
    ∃ t : Nat, (2 : ℚ) ^ (-(t : ℤ)) ≤ q ∧ ∀ i : Nat, i < t → q < (2 : ℚ) ^ (-(i : ℤ)) := by
  classical
  have hex : ∃ t : Nat, (2 : ℚ) ^ (-(t : ℤ)) ≤ q := by
    obtain ⟨n, hn⟩ := exists_two_pow_neg_lt q hq
    exact ⟨n, hn.le⟩
  exact ⟨Nat.find hex, Nat.find_spec hex, fun i hi => not_le.mp (Nat.find_min hex hi)⟩

theorem exists_min_neg_pow_lt (q : ℚ) (hq : 0 < q) :
    ∃ t : Nat, (2 : ℚ) ^ (-(t : ℤ)) < q ∧ ∀ i : Nat, i < t → q ≤ (2 : ℚ) ^ (-(i : ℤ)) := by
  classical
  have hex := exists_two_pow_neg_lt q hq
  exact ⟨Nat.find hex, Nat.find_spec hex, fun i hi => not_lt.mp (Nat.find_min hex hi)⟩

/-- The loop `while (newZoom <= z && newZoom < inf) newZoom *= 2` from 1. -/
theorem loop_up_le (q : ℚ) (hq : 1 < q) (hq2 : q < 2 ^ (1023 : ℤ)) :
    ∃ t : Nat, 1 ≤ t ∧ t ≤ 1023 ∧ q < 2 ^ (t : ℤ) ∧ (2 : ℚ) ^ ((t : ℤ) - 1) ≤ q ∧
      ∀ fuel, t ≤ fuel →
        whileLoop (fun newZoom => Double.le newZoom (.finite q) && Double.lt newZoom .posInf)
          (fun newZoom => newZoom * Double.ofInt SPLITVIEWWIDGET_ZOOM_STEP_FACTOR) fuel 1
          = some (.finite (2 ^ (t : ℤ))) := by
  obtain ⟨t, hlt, hmin⟩ := exists_min_pow_gt q
  have ht1 : 1 ≤ t := by
    rcases Nat.eq_zero_or_pos t with h0 | hpos
    · subst h0
      simp at hlt
      linarith
    · exact hpos
  have ht2 : t ≤ 1023 := by
    by_contra hcon
    have := hmin 1023 (by omega)
    norm_num at this
    norm_num at hq2
    linarith
  refine ⟨t, ht1, ht2, hlt, ?_, ?_⟩
  · have := hmin (t - 1) (by omega)
    have hc : ((t - 1 : Nat) : ℤ) = (t : ℤ) - 1 := by omega
    rw [hc] at this
    exact this
  · intro fuel hfuel
    have h := whileLoop_of_iterate
      (fun newZoom => Double.le newZoom (.finite q) && Double.lt newZoom .posInf)
      (fun newZoom => newZoom * Double.ofInt SPLITVIEWWIDGET_ZOOM_STEP_FACTOR) t 1
      (fun i hi => by
        rw [iterate_mul_step i (by omega)]
        simp only [Double.le, Double.lt, Bool.and_true, decide_eq_true_eq]
        exact hmin i hi)
      (by
        rw [iterate_mul_step t ht2]
        simp only [Double.le, Double.lt, Bool.and_true, decide_eq_false_iff_not, not_le]
        exact hlt)
      fuel hfuel
    rw [h, iterate_mul_step t ht2]

/-- The loop `while (newZoom < z) newZoom *= 2` from 1. -/
theorem loop_up_lt (q : ℚ) (hq : 1 < q) (hq2 : q ≤ 2 ^ (1023 : ℤ)) :
    ∃ t : Nat, 1 ≤ t ∧ t ≤ 1023 ∧ q ≤ 2 ^ (t : ℤ) ∧ (2 : ℚ) ^ ((t : ℤ) - 1) < q ∧
      ∀ fuel, t ≤ fuel →
        whileLoop (fun newZoom => Double.lt newZoom (.finite q))
          (fun newZoom => newZoom * Double.ofInt SPLITVIEWWIDGET_ZOOM_STEP_FACTOR) fuel 1
          = some (.finite (2 ^ (t : ℤ))) := by
  obtain ⟨t, hle, hmin⟩ := exists_min_pow_ge q
  have ht1 : 1 ≤ t := by
    rcases Nat.eq_zero_or_pos t with h0 | hpos
    · subst h0
      simp at hle
      linarith
    · exact hpos
  have ht2 : t ≤ 1023 := by
    by_contra hcon
    have := hmin 1023 (by omega)
    norm_num at this
    norm_num at hq2
    linarith
  refine ⟨t, ht1, ht2, hle, ?_, ?_⟩
  · have := hmin (t - 1) (by omega)
    have hc : ((t - 1 : Nat) : ℤ) = (t : ℤ) - 1 := by omega
    rw [hc] at this
    exact this
  · intro fuel hfuel
    have h := whileLoop_of_iterate
      (fun newZoom => Double.lt newZoom (.finite q))
      (fun newZoom => newZoom * Double.ofInt SPLITVIEWWIDGET_ZOOM_STEP_FACTOR) t 1
      (fun i hi => by
        rw [iterate_mul_step i (by omega)]
        simp only [Double.lt, decide_eq_true_eq]
        exact hmin i hi)
      (by
        rw [iterate_mul_step t ht2]
        simp only [Double.lt, decide_eq_false_iff_not, not_lt]
        exact hle)
      fuel hfuel
    rw [h, iterate_mul_step t ht2]

/-- The loop `while (newZoom > z) newZoom /= 2` from 1. -/
theorem loop_down_gt (q : ℚ) (hq : (2 : ℚ) ^ (-1074 : ℤ) ≤ q) :
    ∃ t : Nat, t ≤ 1074 ∧ (2 : ℚ) ^ (-(t : ℤ)) ≤ q ∧ (1 ≤ t → q < 2 ^ (-(t : ℤ) + 1)) ∧
      (t = 0 → 1 ≤ q) ∧
      ∀ fuel, t ≤ fuel →
        whileLoop (fun newZoom => Double.lt (.finite q) newZoom)
          (fun newZoom => newZoom / Double.ofInt SPLITVIEWWIDGET_ZOOM_STEP_FACTOR) fuel 1
          = some (.finite (2 ^ (-(t : ℤ)))) := by
  have hpos : 0 < q := lt_of_lt_of_le (two_zpow_pos _) hq
  obtain ⟨t, hle, hmin⟩ := exists_min_neg_pow_le q hpos
  have ht2 : t ≤ 1074 := by
    by_contra hcon
    have := hmin 1074 (by omega)
    have hc : (-((1074 : ℕ) : ℤ)) = (-1074 : ℤ) := by norm_num
    rw [hc] at this
    linarith
  refine ⟨t, ht2, hle, ?_, ?_, ?_⟩
  · intro ht
    have := hmin (t - 1) (by omega)
    have hc : -((t - 1 : Nat) : ℤ) = -(t : ℤ) + 1 := by omega
    rw [hc] at this
    exact this
  · intro h0
    subst h0
    simpa using hle
  · intro fuel hfuel
    have h := whileLoop_of_iterate
      (fun newZoom => Double.lt (.finite q) newZoom)
      (fun newZoom => newZoom / Double.ofInt SPLITVIEWWIDGET_ZOOM_STEP_FACTOR) t 1
      (fun i hi => by
        rw [iterate_div_step i (by omega)]
        simp only [Double.lt, decide_eq_true_eq]
        exact hmin i hi)
      (by
        rw [iterate_div_step t ht2]
        simp only [Double.lt, decide_eq_false_iff_not, not_lt]
        exact hle)
      fuel hfuel
    rw [h, iterate_div_step t ht2]

/-- The loop `while (newZoom >= z && newZoom > 0.0) newZoom /= 2` from 1. -/
theorem loop_down_ge (q : ℚ) (hq : (2 : ℚ) ^ (-1074 : ℤ) < q) (hq1 : q ≤ 1) :
    ∃ t : Nat, 1 ≤ t ∧ t ≤ 1074 ∧ (2 : ℚ) ^ (-(t : ℤ)) < q ∧ q ≤ 2 ^ (-(t : ℤ) + 1) ∧
      ∀ fuel, t ≤ fuel →
        whileLoop (fun newZoom => Double.le (.finite q) newZoom && Double.lt 0 newZoom)
          (fun newZoom => newZoom / Double.ofInt SPLITVIEWWIDGET_ZOOM_STEP_FACTOR) fuel 1
          = some (.finite (2 ^ (-(t : ℤ)))) := by
  have hpos : 0 < q := lt_trans (two_zpow_pos _) hq
  obtain ⟨t, hlt, hmin⟩ := exists_min_neg_pow_lt q hpos
  have ht1 : 1 ≤ t := by
    rcases Nat.eq_zero_or_pos t with h0 | hp
    · subst h0
      simp at hlt
      linarith
    · exact hp
  have ht2 : t ≤ 1074 := by
    by_contra hcon
    have := hmin 1074 (by omega)
    have hc : (-((1074 : ℕ) : ℤ)) = (-1074 : ℤ) := by norm_num
    rw [hc] at this
    linarith
  refine ⟨t, ht1, ht2, hlt, ?_, ?_⟩
  · have := hmin (t - 1) (by omega)
    have hc : -((t - 1 : Nat) : ℤ) = -(t : ℤ) + 1 := by omega
    rw [hc] at this
    exact this
  · intro fuel hfuel
    have h := whileLoop_of_iterate
      (fun newZoom => Double.le (.finite q) newZoom && Double.lt 0 newZoom)
      (fun newZoom => newZoom / Double.ofInt SPLITVIEWWIDGET_ZOOM_STEP_FACTOR) t 1
      (fun i hi => by
        rw [iterate_div_step i (by omega), Double.zero_def]
        simp only [Double.le, Double.lt, Bool.and_eq_true, decide_eq_true_eq]
        exact ⟨hmin i hi, two_zpow_pos _⟩)
      (by
        rw [iterate_div_step t ht2, Double.zero_def]
        simp only [Double.le, Double.lt, Bool.and_eq_false_imp, decide_eq_true_eq,
          decide_eq_false_iff_not]
        intro hcon
        exact absurd hcon (not_le.mpr hlt))
      fuel hfuel
    rw [h, iterate_div_step t ht2]

/-- The loop `while (newZoomFactor * 2 < f) newZoomFactor *= 2` from 1. -/
theorem loop_up_twice_lt (q : ℚ) (hq : 1 ≤ q) (hq2 : q ≤ 2 ^ (1023 : ℤ)) :
    ∃ t : Nat, t ≤ 1022 ∧ (2 : ℚ) ^ (t : ℤ) ≤ q ∧ q ≤ 2 ^ ((t : ℤ) + 1) ∧
      (1 ≤ t → (2 : ℚ) ^ (t : ℤ) < q) ∧
      ∀ fuel, t ≤ fuel →
        whileLoop (fun newZoomFactor =>
            Double.lt (newZoomFactor * Double.ofInt SPLITVIEWWIDGET_ZOOM_STEP_FACTOR) (.finite q))
          (fun newZoomFactor => newZoomFactor * Double.ofInt SPLITVIEWWIDGET_ZOOM_STEP_FACTOR) fuel 1
          = some (.finite (2 ^ (t : ℤ))) := by
  classical
  have hex : ∃ t : Nat, q ≤ (2 : ℚ) ^ ((t : ℤ) + 1) := by
    obtain ⟨n, hn⟩ := exists_two_pow_gt q
    refine ⟨n, le_trans hn.le (two_zpow_le (by omega))⟩
  have hle : q ≤ (2 : ℚ) ^ ((Nat.find hex : ℤ) + 1) := Nat.find_spec hex
  have hmin : ∀ i : Nat, i < Nat.find hex → (2 : ℚ) ^ ((i : ℤ) + 1) < q :=
    fun i hi => not_le.mp (Nat.find_min hex hi)
  generalize Nat.find hex = t at hle hmin
  have ht2 : t ≤ 1022 := by
    by_contra hcon
    have := hmin 1022 (by omega)
    norm_num at this
    norm_num at hq2
    linarith
  have hlt : 1 ≤ t → (2 : ℚ) ^ (t : ℤ) < q := by
    intro ht
    have := hmin (t - 1) (by omega)
    have hc : ((t - 1 : Nat) : ℤ) + 1 = (t : ℤ) := by omega
    rw [hc] at this
    exact this
  refine ⟨t, ht2, ?_, hle, hlt, ?_⟩
  · rcases Nat.eq_zero_or_pos t with h0 | hp
    · subst h0
      simpa using hq
    · exact (hlt hp).le
  · intro fuel hfuel
    have h := whileLoop_of_iterate
      (fun newZoomFactor =>
        Double.lt (newZoomFactor * Double.ofInt SPLITVIEWWIDGET_ZOOM_STEP_FACTOR) (.finite q))
      (fun newZoomFactor => newZoomFactor * Double.ofInt SPLITVIEWWIDGET_ZOOM_STEP_FACTOR) t 1
      (fun i hi => by
        rw [iterate_mul_step i (by omega)]
        simp only []
        rw [mul_step_finite (i : ℤ) (by omega) (by omega)]
        simp only [Double.lt, decide_eq_true_eq]
        exact hmin i hi)
      (by
        rw [iterate_mul_step t (by omega)]
        simp only []
        rw [mul_step_finite (t : ℤ) (by omega) (by omega)]
        simp only [Double.lt, decide_eq_false_iff_not, not_lt]
        exact hle)
      fuel hfuel
    rw [h, iterate_mul_step t (by omega)]

end ZoomLoops


/-! ## Theorems about `zoom` -/

section ZoomTheorems

open Views

theorem two_zpow_min (z : ℚ) (k : ℤ) (h : (2 : ℚ) ^ (k - 1) ≤ z) (j : ℤ) (hj : z < 2 ^ j) :
    (2 : ℚ) ^ k ≤ 2 ^ j := by
  have h1 : (2 : ℚ) ^ (k - 1) < 2 ^ j := lt_of_le_of_lt h hj
  have h2 : k - 1 < j := two_zpow_lt_iff.mp h1
  exact two_zpow_le (by omega)

theorem two_zpow_max (z : ℚ) (k : ℤ) (h : z ≤ (2 : ℚ) ^ (k + 1)) (j : ℤ) (hj : (2 : ℚ) ^ j < z) :
    (2 : ℚ) ^ j ≤ 2 ^ k := by
  have h1 : (2 : ℚ) ^ j < 2 ^ (k + 1) := lt_of_lt_of_le hj h
  have h2 : j < k + 1 := two_zpow_lt_iff.mp h1
  exact two_zpow_le (by omega)

theorem Double.lt_one_finite (q : ℚ) : Double.lt 1 (.finite q) = decide (1 < q) := by
  rw [Double.one_def]
  rfl

theorem Double.lt_finite_one (q : ℚ) : Double.lt (.finite q) 1 = decide (q < 1) := by
  rw [Double.one_def]
  rfl

theorem zoomNewZoom_in (z : ℚ) (hz1 : (2 : ℚ) ^ (-1074 : ℤ) ≤ z) (hz2 : z < 2 ^ (1023 : ℤ)) :
    ∃ (k : ℤ) (N : Nat), z < 2 ^ k ∧ (2 : ℚ) ^ (k - 1) ≤ z ∧
      ∀ fuel newZoomFactor, N ≤ fuel →
        zoomNewZoom fuel .ZOOM_IN (.finite z) newZoomFactor = some (.finite (2 ^ k)) := by
  by_cases h1 : 1 < z
  · obtain ⟨t, _, _, hlt, hle, hloop⟩ := loop_up_le z h1 hz2
    refine ⟨t, t, hlt, hle, ?_⟩
    intro fuel nz hfuel
    have hc : Double.lt 1 (.finite z) = true := by rw [Double.lt_one_finite]; exact decide_eq_true h1
    simp only [zoomNewZoom, hc, if_true]
    exact hloop fuel hfuel
  · obtain ⟨t, ht, hle, hlt, h0, hloop⟩ := loop_down_gt z hz1
    refine ⟨-(t : ℤ) + 1, t, ?_, ?_, ?_⟩
    · rcases Nat.eq_zero_or_pos t with ht0 | ht0
      · subst ht0
        have := h0 rfl
        have hz1 : z ≤ 1 := not_lt.mp h1
        simp
        linarith
      · exact hlt ht0
    · rw [show -(t : ℤ) + 1 - 1 = -(t : ℤ) by ring]
      exact hle
    · intro fuel nz hfuel
      have hc : Double.lt 1 (.finite z) = false := by
        rw [Double.lt_one_finite]
        exact decide_eq_false h1
      simp only [zoomNewZoom, hc]
      rw [hloop fuel hfuel, Option.map_some', mul_step_finite _ (by omega) (by omega)]
      simp

theorem zoomNewZoom_out (z : ℚ) (hz1 : (2 : ℚ) ^ (-1074 : ℤ) < z) (hz2 : z ≤ 2 ^ (1023 : ℤ)) :
    ∃ (k : ℤ) (N : Nat), (2 : ℚ) ^ k < z ∧ z ≤ 2 ^ (k + 1) ∧
      ∀ fuel newZoomFactor, N ≤ fuel →
        zoomNewZoom fuel .ZOOM_OUT (.finite z) newZoomFactor = some (.finite (2 ^ k)) := by
  by_cases h1 : 1 < z
  · obtain ⟨t, _, _, hle, hlt, hloop⟩ := loop_up_lt z h1 hz2
    refine ⟨(t : ℤ) - 1, t, hlt, ?_, ?_⟩
    · rw [show (t : ℤ) - 1 + 1 = (t : ℤ) by ring]
      exact hle
    · intro fuel nz hfuel
      have hc : Double.lt 1 (.finite z) = true := by rw [Double.lt_one_finite]; exact decide_eq_true h1
      simp only [zoomNewZoom, hc, if_true]
      rw [hloop fuel hfuel, Option.map_some', div_step_finite _ (by omega) (by omega)]
  · obtain ⟨t, _, _, hlt, hle, hloop⟩ := loop_down_ge z hz1 (not_lt.mp h1)
    refine ⟨-(t : ℤ), t, hlt, hle, ?_⟩
    intro fuel nz hfuel
    have hc : Double.lt 1 (.finite z) = false := by
      rw [Double.lt_one_finite]
      exact decide_eq_false h1
    simp only [zoomNewZoom, hc]
    exact hloop fuel hfuel

theorem zoom_of_newZoom (fuel : Nat) (zoomMode : ZoomMode) (zoomPoint : QPoint)
    (newZoomFactor : Double) (v : Views) (newZoom : Double)
    (h : zoomNewZoom fuel zoomMode v.widget.zoomFactor newZoomFactor = some newZoom) :
    zoom fuel zoomMode zoomPoint newZoomFactor v = some (zoomApply newZoom zoomPoint v) := by
  simp only [zoom, h]

theorem zoomApply_zoomFactor (newZoom : Double) (zoomPoint : QPoint) (v : Views) :
    (zoomApply newZoom zoomPoint v).widget.zoomFactor = newZoom := rfl

/-- The sample of C13: from the zoom factor `2^1023`, a finite `double`,
`zoom(ZOOM_IN)` doubles `newZoom` 1024 times, the last doubling overflows to
`+infinity`, which ends the loop (`newZoom <= zoomFactor` is false), and the
zoom factor is set to `+infinity`, which is no power of two. -/
theorem zoomIn_from_two_pow_1023_sets_infinity :
    (∃ N : Nat, ∀ fuel, N ≤ fuel →
      (zoom fuel .ZOOM_IN ⟨0, 0⟩ 0 (sampleWithZoom (.finite (2 ^ (1023 : ℤ))))).map
        (fun v' => v'.widget.zoomFactor) = some .posInf) ∧
    ∀ k : ℤ, Double.posInf ≠ .finite (2 ^ k) := by
  refine ⟨⟨1024, fun fuel hfuel => ?_⟩, fun k h => by cases h⟩
  have hc : Double.lt 1 (.finite (2 ^ (1023 : ℤ))) = true := by
    rw [Double.lt_one_finite]
    exact decide_eq_true (by norm_num)
  have hloop := whileLoop_of_iterate
    (fun newZoom => Double.le newZoom (.finite (2 ^ (1023 : ℤ))) && Double.lt newZoom .posInf)
    (fun newZoom => newZoom * Double.ofInt SPLITVIEWWIDGET_ZOOM_STEP_FACTOR) 1024 1
    (fun i hi => by
      rw [iterate_mul_step i (by omega)]
      simp only [Double.le, Double.lt, Bool.and_true, decide_eq_true_eq]
      exact two_zpow_le (by omega))
    (by
      rw [iterate_mul_step_overflow 1024 (le_refl _)]
      rfl)
    fuel hfuel
  rw [iterate_mul_step_overflow 1024 (le_refl _)] at hloop
  have hn : zoomNewZoom fuel .ZOOM_IN (sampleWithZoom (.finite (2 ^ (1023 : ℤ)))).widget.zoomFactor 0
      = some .posInf := by
    show zoomNewZoom fuel .ZOOM_IN (.finite (2 ^ (1023 : ℤ))) 0 = some .posInf
    simp only [zoomNewZoom, hc, if_true]
    exact hloop
  rw [zoom_of_newZoom fuel .ZOOM_IN ⟨0, 0⟩ 0 _ _ hn]
  rfl

/-- C13 (amended): for every current zoom factor z with
`2^-1074 <= z < 2^1023` (every positive `double` below `2^1023`) and every
zoom point, `zoom(ZOOM_IN)` run with enough steps returns and sets the zoom
factor to the smallest power of two `2^k` (k an integer) that is strictly
greater than z. -/
theorem zoomIn_smallest_power_of_two_above (v : Views) (zoomPoint : QPoint) (newZoomFactor : Double)
    (z : ℚ) (hv : v.widget.zoomFactor = .finite z)
    (hz1 : (2 : ℚ) ^ (-1074 : ℤ) ≤ z) (hz2 : z < 2 ^ (1023 : ℤ)) :
    ∃ k : ℤ, z < 2 ^ k ∧
      (∀ j : ℤ, z < 2 ^ j → (2 : ℚ) ^ k ≤ 2 ^ j) ∧
      ∃ N : Nat, ∀ fuel, N ≤ fuel →
        ∃ v', zoom fuel .ZOOM_IN zoomPoint newZoomFactor v = some v' ∧
          v'.widget.zoomFactor = .finite (2 ^ k) := by
  obtain ⟨k, N, hlt, hle, hloop⟩ := zoomNewZoom_in z hz1 hz2
  refine ⟨k, hlt, two_zpow_min _ k hle, N, ?_⟩
  intro fuel hfuel
  exact ⟨_, zoom_of_newZoom fuel .ZOOM_IN zoomPoint newZoomFactor v _
    (by rw [hv]; exact hloop fuel newZoomFactor hfuel), rfl⟩

/-- The example of C13: from the `double` nearest to 1.9,
`8556839292003942 * 2^-52`, `zoom(ZOOM_IN)` sets the zoom factor 2. -/
theorem zoomIn_smallest_power_of_two_above_witness :
    ∃ N : Nat, ∀ fuel, N ≤ fuel →
      ∃ v', zoom fuel .ZOOM_IN ⟨0, 0⟩ 0
          (sampleWithZoom (.finite (8556839292003942 / 4503599627370496))) = some v' ∧
        v'.widget.zoomFactor = 2 := by
  obtain ⟨k, hlt, hmin, N, h⟩ := zoomIn_smallest_power_of_two_above
    (sampleWithZoom (.finite (8556839292003942 / 4503599627370496))) ⟨0, 0⟩ 0
    (8556839292003942 / 4503599627370496) rfl
    (le_trans (two_zpow_le (by norm_num : (-1074 : ℤ) ≤ 0)) (by norm_num))
    (lt_of_lt_of_le (by norm_num : (8556839292003942 / 4503599627370496 : ℚ) < 2 ^ (1 : ℤ))
      (two_zpow_le (by norm_num)))
  have hk1 : 0 < k := by
    have h0 : (2 : ℚ) ^ (0 : ℤ) < 2 ^ k := lt_trans (by norm_num) hlt
    exact two_zpow_lt_iff.mp h0
  have hk2 : k ≤ 1 := two_zpow_le_iff.mp (hmin 1 (by norm_num))
  have hk : k = 1 := by omega
  subst hk
  refine ⟨N, fun fuel hfuel => ?_⟩
  obtain ⟨v', h1, h2⟩ := h fuel hfuel
  exact ⟨v', h1, by rw [h2, Double.two_def]; norm_num⟩

/-- The samples of C14: from the zoom factor `2^-1074`, the smallest positive
`double`, `zoom(ZOOM_OUT)` halves `newZoom` 1075 times, the last halving
underflows to 0, which ends the loop (`newZoom >= zoomFactor` is false), and
the zoom factor is set to 0; from the zoom factor `3 * 2^1022`, a finite
`double` above `2^1023`, the doubling of `newZoom` overflows and the zoom
factor is set to `+infinity`. Neither is a power of two. -/
theorem zoomOut_from_extreme_zoom_sets_zero_or_infinity :
    (∃ N : Nat, ∀ fuel, N ≤ fuel →
      (zoom fuel .ZOOM_OUT ⟨0, 0⟩ 0 (sampleWithZoom (.finite (2 ^ (-1074 : ℤ))))).map
        (fun v' => v'.widget.zoomFactor) = some (.finite 0)) ∧
    (∃ N : Nat, ∀ fuel, N ≤ fuel →
      (zoom fuel .ZOOM_OUT ⟨0, 0⟩ 0 (sampleWithZoom (.finite (3 * 2 ^ (1022 : ℤ))))).map
        (fun v' => v'.widget.zoomFactor) = some .posInf) ∧
    (∀ k : ℤ, Double.finite 0 ≠ .finite (2 ^ k)) ∧
    ∀ k : ℤ, Double.posInf ≠ .finite (2 ^ k) := by
  refine ⟨⟨1075, fun fuel hfuel => ?_⟩, ⟨1024, fun fuel hfuel => ?_⟩, fun k h => ?_,
    fun k h => by cases h⟩
  · have hc : Double.lt 1 (.finite (2 ^ (-1074 : ℤ))) = false := by
      rw [Double.lt_one_finite]
      refine decide_eq_false (not_lt.mpr ?_)
      have := two_zpow_le (by norm_num : (-1074 : ℤ) ≤ 0)
      simpa using this
    have hloop := whileLoop_of_iterate
      (fun newZoom => Double.le (.finite (2 ^ (-1074 : ℤ))) newZoom && Double.lt 0 newZoom)
      (fun newZoom => newZoom / Double.ofInt SPLITVIEWWIDGET_ZOOM_STEP_FACTOR) 1075 1
      (fun i hi => by
        rw [iterate_div_step i (by omega), Double.zero_def]
        simp only [Double.le, Double.lt, Bool.and_eq_true, decide_eq_true_eq]
        exact ⟨two_zpow_le (by omega), two_zpow_pos _⟩)
      (by
        rw [iterate_div_step_underflow 1075 (le_refl _), Double.zero_def]
        simp only [Double.le, Double.lt, Bool.and_eq_false_imp, decide_eq_true_eq,
          decide_eq_false_iff_not]
        intro hcon
        exact absurd hcon (not_le.mpr (two_zpow_pos _)))
      fuel hfuel
    rw [iterate_div_step_underflow 1075 (le_refl _)] at hloop
    have hn : zoomNewZoom fuel .ZOOM_OUT (sampleWithZoom (.finite (2 ^ (-1074 : ℤ)))).widget.zoomFactor 0
        = some (.finite 0) := by
      show zoomNewZoom fuel .ZOOM_OUT (.finite (2 ^ (-1074 : ℤ))) 0 = some (.finite 0)
      simp only [zoomNewZoom, hc]
      exact hloop
    rw [zoom_of_newZoom fuel .ZOOM_OUT ⟨0, 0⟩ 0 _ _ hn]
    rfl
  · have h3 : (2 : ℚ) ^ (1023 : ℤ) < 3 * 2 ^ (1022 : ℤ) := by
      rw [show (1023 : ℤ) = 1022 + 1 by norm_num, two_zpow_succ]
      have := two_zpow_pos 1022
      linarith
    have hc : Double.lt 1 (.finite (3 * 2 ^ (1022 : ℤ))) = true := by
      rw [Double.lt_one_finite]
      refine decide_eq_true (lt_trans ?_ h3)
      have := two_zpow_lt (by norm_num : (0 : ℤ) < 1023)
      simpa using this
    have hloop := whileLoop_of_iterate
      (fun newZoom => Double.lt newZoom (.finite (3 * 2 ^ (1022 : ℤ))))
      (fun newZoom => newZoom * Double.ofInt SPLITVIEWWIDGET_ZOOM_STEP_FACTOR) 1024 1
      (fun i hi => by
        rw [iterate_mul_step i (by omega)]
        simp only [Double.lt, decide_eq_true_eq]
        exact lt_of_le_of_lt (two_zpow_le (by omega)) h3)
      (by
        rw [iterate_mul_step_overflow 1024 (le_refl _)]
        rfl)
      fuel hfuel
    rw [iterate_mul_step_overflow 1024 (le_refl _)] at hloop
    have hn : zoomNewZoom fuel .ZOOM_OUT (sampleWithZoom (.finite (3 * 2 ^ (1022 : ℤ)))).widget.zoomFactor 0
        = some .posInf := by
      show zoomNewZoom fuel .ZOOM_OUT (.finite (3 * 2 ^ (1022 : ℤ))) 0 = some .posInf
      simp only [zoomNewZoom, hc, if_true]
      rw [hloop, Option.map_some', Double.ofInt_step]
      show some (Double.div .posInf (.finite 2)) = _
      simp [Double.div]
    rw [zoom_of_newZoom fuel .ZOOM_OUT ⟨0, 0⟩ 0 _ _ hn]
    rfl
  · have h0 : (0 : ℚ) = 2 ^ k := Double.finite.inj h
    exact absurd h0 (ne_of_lt (two_zpow_pos k))

/-- C14 (amended): for every current zoom factor z with
`2^-1074 < z <= 2^1023` and every zoom point, `zoom(ZOOM_OUT)` run with enough
steps returns and sets the zoom factor to the largest power of two `2^k` (k an
integer) that is strictly less than z. -/
theorem zoomOut_largest_power_of_two_below (v : Views) (zoomPoint : QPoint) (newZoomFactor : Double)
    (z : ℚ) (hv : v.widget.zoomFactor = .finite z)
    (hz1 : (2 : ℚ) ^ (-1074 : ℤ) < z) (hz2 : z ≤ 2 ^ (1023 : ℤ)) :
    ∃ k : ℤ, (2 : ℚ) ^ k < z ∧
      (∀ j : ℤ, (2 : ℚ) ^ j < z → (2 : ℚ) ^ j ≤ 2 ^ k) ∧
      ∃ N : Nat, ∀ fuel, N ≤ fuel →
        ∃ v', zoom fuel .ZOOM_OUT zoomPoint newZoomFactor v = some v' ∧
          v'.widget.zoomFactor = .finite (2 ^ k) := by
  obtain ⟨k, N, hlt, hle, hloop⟩ := zoomNewZoom_out z hz1 hz2
  refine ⟨k, hlt, two_zpow_max _ k hle, N, ?_⟩
  intro fuel hfuel
  exact ⟨_, zoom_of_newZoom fuel .ZOOM_OUT zoomPoint newZoomFactor v _
    (by rw [hv]; exact hloop fuel newZoomFactor hfuel), rfl⟩

/-- From the `double` nearest to 1.9, `8556839292003942 * 2^-52`,
`zoom(ZOOM_OUT)` sets the zoom factor 1. -/
theorem zoomOut_largest_power_of_two_below_witness :
    ∃ N : Nat, ∀ fuel, N ≤ fuel →
      ∃ v', zoom fuel .ZOOM_OUT ⟨0, 0⟩ 0
          (sampleWithZoom (.finite (8556839292003942 / 4503599627370496))) = some v' ∧
        v'.widget.zoomFactor = 1 := by
  obtain ⟨k, hlt, hmax, N, h⟩ := zoomOut_largest_power_of_two_below
    (sampleWithZoom (.finite (8556839292003942 / 4503599627370496))) ⟨0, 0⟩ 0
    (8556839292003942 / 4503599627370496) rfl
    (lt_of_le_of_lt (two_zpow_le (by norm_num : (-1074 : ℤ) ≤ 0)) (by norm_num))
    (le_trans (by norm_num : (8556839292003942 / 4503599627370496 : ℚ) ≤ 2 ^ (1 : ℤ))
      (two_zpow_le (by norm_num)))
  have hk1 : k < 1 := by
    have h0 : (2 : ℚ) ^ k < 2 ^ (1 : ℤ) := lt_trans hlt (by norm_num)
    exact two_zpow_lt_iff.mp h0
  have hk2 : 0 ≤ k := two_zpow_le_iff.mp (hmax 0 (by norm_num))
  have hk : k = 0 := by omega
  subst hk
  refine ⟨N, fun fuel hfuel => ?_⟩
  obtain ⟨v', h1, h2⟩ := h fuel hfuel
  exact ⟨v', h1, by rw [h2, Double.one_def]; norm_num⟩

end ZoomTheorems


/-! ## Theorems about `zoomToFit` -/

section ZoomToFitTheorems

open Views

theorem double_min_finite (a b : ℚ) : Double.min (.finite a) (.finite b) = .finite (min a b) := by
  by_cases h : b < a
  · simp [Double.min, Double.lt, h, min_eq_right h.le]
  · simp [Double.min, Double.lt, h, min_eq_left (not_lt.mp h)]

theorem Double.toInt_le (d : Double) : d.toInt ≤ 2147483647 := by
  cases d with
  | finite q =>
    simp only [Double.toInt]
    by_cases h : (-2147483648 ≤ if 0 ≤ q then ⌊q⌋ else ⌈q⌉) ∧ (if 0 ≤ q then ⌊q⌋ else ⌈q⌉) ≤ 2147483647
    · rw [if_pos h]
      exact h.2
    · rw [if_neg h]
      norm_num
  | posInf => exact (by decide : (-2147483648 : ℤ) ≤ 2147483647)
  | negInf => exact (by decide : (-2147483648 : ℤ) ≤ 2147483647)
  | nan => exact (by decide : (-2147483648 : ℤ) ≤ 2147483647)

theorem toInt32_of_range (x : ℤ) (h1 : -2147483648 ≤ x) (h2 : x ≤ 2147483647) : toInt32 x = x := by
  unfold toInt32
  omega

/-- The quotient `(double)A / B` of two positive `int` values: a finite value
between `2^-32` and `2^31`, and a power of two that is at most the rounded
quotient is at most the exact quotient. -/
theorem div_int_spec (A B : ℤ) (hA : 0 < A) (hA2 : A ≤ 2147483647) (hB : 0 < B)
    (hB2 : B ≤ 2147483647) :
    ∃ r, Double.ofInt A / Double.ofInt B = .finite r ∧ (2 : ℚ) ^ (-32 : ℤ) ≤ r ∧
      r ≤ 2 ^ (31 : ℤ) ∧ ∀ k : ℤ, (2 : ℚ) ^ k ≤ r → (B : ℚ) * 2 ^ k ≤ A := by
  have hAq : (0 : ℚ) < A := by exact_mod_cast hA
  have hBq : (0 : ℚ) < B := by exact_mod_cast hB
  have hA2q : (A : ℚ) ≤ 2147483647 := by exact_mod_cast hA2
  have hB2q : (B : ℚ) ≤ 2147483647 := by exact_mod_cast hB2
  have hA1q : (1 : ℚ) ≤ A := by exact_mod_cast hA
  have hB1q : (1 : ℚ) ≤ B := by exact_mod_cast hB
  rw [Double.ofInt_eq A (by rw [abs_of_pos hA]; omega), Double.ofInt_eq B (by rw [abs_of_pos hB]; omega),
    Double.finite_div_finite _ _ hBq.ne']
  have hq : (0 : ℚ) < (A : ℚ) / B := div_pos hAq hBq
  obtain ⟨hlo, hhi⟩ := log_bounds ((A : ℚ) / B) hq.ne'
  rw [abs_of_pos hq] at hlo hhi
  generalize Int.log 2 ((A : ℚ) / B) = e at hlo hhi
  have hlo' : (2 : ℚ) ^ e * B ≤ A := (le_div_iff₀ hBq).mp hlo
  have hhi' : (A : ℚ) < 2 ^ (e + 1) * B := (div_lt_iff₀ hBq).mp hhi
  have he1 : -31 ≤ e := by
    have h31 : (2 : ℚ) ^ (-31 : ℤ) < 2 ^ (e + 1) := by
      have hn : (2 : ℚ) ^ (-31 : ℤ) = 1 / 2147483648 := by norm_num
      have hp := two_zpow_pos (e + 1)
      by_contra hcon
      have h2 : (2 : ℚ) ^ (e + 1) ≤ 1 / 2147483648 := by rw [← hn]; exact not_lt.mp hcon
      have h3 : (2 : ℚ) ^ (e + 1) * B ≤ 1 / 2147483648 * 2147483647 :=
        mul_le_mul h2 hB2q hBq.le (by norm_num)
      linarith
    have := two_zpow_lt_iff.mp h31
    omega
  have he2 : e ≤ 30 := by
    have h31 : (2 : ℚ) ^ e < 2 ^ (31 : ℤ) := by
      have hn : (2 : ℚ) ^ (31 : ℤ) = 2147483648 := by norm_num
      have hp := two_zpow_pos e
      have h3 : (2 : ℚ) ^ e * 1 ≤ 2 ^ e * B := mul_le_mul_of_nonneg_left hB1q hp.le
      rw [hn]
      linarith
    have := two_zpow_lt_iff.mp h31
    omega
  obtain ⟨r, hr, hr1, hr2, hr3⟩ := Double.round_bounds ((A : ℚ) / B) e hq (by omega) (by omega) hlo hhi
  refine ⟨r, hr, le_trans (two_zpow_le (by omega)) hr1, le_trans hr2 (two_zpow_le (by omega)), ?_⟩
  intro k hk
  by_contra hcon
  have hcon' : (A : ℚ) < B * 2 ^ k := not_le.mp hcon
  have hqk : (A : ℚ) / B < 2 ^ k := by
    rw [div_lt_iff₀ hBq]
    linarith
  have hk1 : k ≤ e + 1 := two_zpow_le_iff.mp (le_trans hk hr2)
  have hk2 : e < k := two_zpow_lt_iff.mp (lt_of_le_of_lt hlo hqk)
  have hke : k = e + 1 := by omega
  subst hke
  have hgap : (2 : ℚ) ^ (e + 1) - (A : ℚ) / B ≤ 2 ^ (e - 53) := by
    have := (abs_le.mp hr3).2
    linarith
  have hsplit : (2 : ℚ) ^ (e - 53) = 2 ^ (e + 1) * 2 ^ (-54 : ℤ) := by
    rw [← zpow_add₀ (by norm_num : (2 : ℚ) ≠ 0)]
    congr 1
    ring
  have hc : (2 : ℚ) ^ (-54 : ℤ) = 1 / 18014398509481984 := by norm_num
  rw [hsplit, hc] at hgap
  have hP := two_zpow_pos (e + 1)
  have hPe : (2 : ℚ) ^ (e + 1) = 2 * 2 ^ e := two_zpow_succ e
  -- the gap, multiplied by B
  have hD : (B : ℚ) * 2 ^ (e + 1) - A ≤ B * 2 ^ (e + 1) * (1 / 18014398509481984) := by
    have h := mul_le_mul_of_nonneg_right hgap hBq.le
    have e1 : ((2 : ℚ) ^ (e + 1) - (A : ℚ) / B) * B = B * 2 ^ (e + 1) - A := by
      field_simp
      ring
    rw [e1] at h
    linarith
  rcases le_or_lt 0 (e + 1) with hpos | hneg
  · obtain ⟨n, hn⟩ := Int.eq_ofNat_of_zero_le hpos
    rw [hn, zpow_natCast] at hD hcon' hPe
    have hint : A + 1 ≤ B * 2 ^ n := by
      have : A < B * 2 ^ n := by exact_mod_cast hcon'
      omega
    have hintq : (A : ℚ) + 1 ≤ B * 2 ^ n := by exact_mod_cast hint
    have hBP : (B : ℚ) * 2 ^ n ≤ 2 * 2147483647 := by
      rw [hPe]
      linarith
    linarith
  · obtain ⟨m, hm⟩ := Int.exists_eq_neg_ofNat (le_of_lt hneg)
    have hQ : (0 : ℚ) < 2 ^ m := by positivity
    have hPQ : (2 : ℚ) ^ (e + 1) * 2 ^ m = 1 := by
      rw [hm, zpow_neg, zpow_natCast]
      exact inv_mul_cancel₀ hQ.ne'
    have h1 : (A : ℚ) * 2 ^ m < B := by
      have h := mul_lt_mul_of_pos_right hcon' hQ
      rw [mul_assoc, hPQ, mul_one] at h
      exact h
    have hint : A * 2 ^ m + 1 ≤ B := by
      have : A * 2 ^ m < B := by exact_mod_cast h1
      omega
    have hintq : (A : ℚ) * 2 ^ m + 1 ≤ B := by exact_mod_cast hint
    have h2 := mul_le_mul_of_nonneg_right hD hQ.le
    have e1 : ((B : ℚ) * 2 ^ (e + 1) - A) * 2 ^ m = B * (2 ^ (e + 1) * 2 ^ m) - A * 2 ^ m := by ring
    have e2 : (B : ℚ) * 2 ^ (e + 1) * (1 / 18014398509481984) * 2 ^ m
        = B * (2 ^ (e + 1) * 2 ^ m) * (1 / 18014398509481984) := by ring
    rw [e1, e2, hPQ, mul_one] at h2
    linarith

theorem zoomToFitNewZoomFactor_spec (f : ℚ) (hf1 : (2 : ℚ) ^ (-1074 : ℤ) ≤ f)
    (hf2 : f ≤ 2 ^ (1023 : ℤ)) :
    ∃ (k : ℤ) (N : Nat), (2 : ℚ) ^ k ≤ f ∧ f ≤ 2 ^ (k + 1) ∧
      ∀ fuel, N ≤ fuel → zoomToFitNewZoomFactor fuel (.finite f) = some (.finite (2 ^ k)) := by
  by_cases h1 : f < 1
  · obtain ⟨t, _, hle, hlt, h0, hloop⟩ := loop_down_gt f hf1
    have ht : 1 ≤ t := by
      rcases Nat.eq_zero_or_pos t with ht | ht
      · exact absurd (h0 ht) (not_le.mpr h1)
      · exact ht
    refine ⟨-(t : ℤ), t, hle, le_of_lt (hlt ht), ?_⟩
    intro fuel hfuel
    have hc : Double.lt (.finite f) 1 = true := by
      rw [Double.lt_finite_one]
      exact decide_eq_true h1
    simp only [zoomToFitNewZoomFactor, hc, if_true]
    exact hloop fuel hfuel
  · obtain ⟨t, _, hle, hge, _, hloop⟩ := loop_up_twice_lt f (not_lt.mp h1) hf2
    refine ⟨t, t, hle, hge, ?_⟩
    intro fuel hfuel
    have hc : Double.lt (.finite f) 1 = false := by
      rw [Double.lt_finite_one]
      exact decide_eq_false h1
    simp only [zoomToFitNewZoomFactor, hc]
    exact hloop fuel hfuel

theorem ite_gt_eq_max (a b : Int) : (if b > a then b else a) = max a b := by
  split_ifs with h
  · exact (max_eq_right (le_of_lt h)).symm
  · exact (max_eq_left (not_lt.mp h)).symm

/-- The fractional zoom of two quotients `min(A1/B1, A2/B2)`. -/
theorem min_div_int_spec (A1 B1 A2 B2 : ℤ) (hA1 : 0 < A1) (hA1' : A1 ≤ 2147483647) (hB1 : 0 < B1)
    (hB1' : B1 ≤ 2147483647) (hA2 : 0 < A2) (hA2' : A2 ≤ 2147483647) (hB2 : 0 < B2)
    (hB2' : B2 ≤ 2147483647) :
    ∃ r, Double.min (Double.ofInt A1 / Double.ofInt B1) (Double.ofInt A2 / Double.ofInt B2)
        = .finite r ∧ (2 : ℚ) ^ (-32 : ℤ) ≤ r ∧ r ≤ 2 ^ (31 : ℤ) ∧
      ∀ k : ℤ, (2 : ℚ) ^ k ≤ r → (B1 : ℚ) * 2 ^ k ≤ A1 ∧ (B2 : ℚ) * 2 ^ k ≤ A2 := by
  obtain ⟨r1, e1, l1, u1, f1⟩ := div_int_spec A1 B1 hA1 hA1' hB1 hB1'
  obtain ⟨r2, e2, l2, _, f2⟩ := div_int_spec A2 B2 hA2 hA2' hB2 hB2'
  refine ⟨min r1 r2, by rw [e1, e2, double_min_finite], le_min l1 l2,
    le_trans (min_le_left _ _) u1, ?_⟩
  intro k hk
  exact ⟨f1 k (le_trans hk (min_le_left _ _)), f2 k (le_trans hk (min_le_right _ _))⟩

end ZoomToFitTheorems


section ZoomToFitFracZoom

open Views

theorem zoomToFitFracZoom_spec (w : splitViewWidget) (item0Size : QSize) (item1 : Option QSize)
    (hw : 0 < w.width) (hw2 : w.width ≤ 2147483647) (hh : 0 < w.height)
    (hh2 : w.height ≤ 2147483647)
    (hiw : 0 < item0Size.width) (hiw2 : item0Size.width ≤ 2147483647)
    (hih : 0 < item0Size.height) (hih2 : item0Size.height ≤ 2147483647)
    (hi1 : ∀ item1Size, item1 = some item1Size →
      item1Size.width ≤ 2147483647 ∧ item1Size.height ≤ 2147483647)
    (hs : w.viewSplitMode = .SIDE_BY_SIDE →
      0 < w.xSplit ∧
      ∀ item1Size, item1 = some item1Size → 0 < item1Size.width → 0 < item1Size.height →
        w.xSplit < w.width) :
    ∃ r, zoomToFitFracZoom w item0Size item1 = .value (.finite r) ∧
      (2 : ℚ) ^ (-32 : ℤ) ≤ r ∧ r ≤ 2 ^ (31 : ℤ) ∧
      ∀ k : ℤ, (2 : ℚ) ^ k ≤ r → itemsVisibleAt w (2 ^ k) item0Size item1 := by
  have hn0 : ¬ (item0Size.width ≤ 0 ∨ item0Size.height ≤ 0) := by
    push_neg
    exact ⟨hiw, hih⟩
  cases hm : w.viewSplitMode with
  | DISABLED =>
    obtain ⟨r, hr, l, u, f⟩ := min_div_int_spec w.width item0Size.width w.height item0Size.height
      hw hw2 hiw hiw2 hh hh2 hih hih2
    refine ⟨r, ?_, l, u, ?_⟩
    · rw [← hr]
      simp only [zoomToFitFracZoom, splitViewWidget.isSplitting, hm, if_neg hn0]
      rfl
    · intro k hk
      unfold itemsVisibleAt
      rw [hm]
      exact f k hk
  | COMPARISON =>
    have hbc : (ViewSplitMode.COMPARISON != ViewSplitMode.DISABLED) = true := by decide
    cases item1 with
    | none =>
      obtain ⟨r, hr, l, u, f⟩ := min_div_int_spec w.width item0Size.width w.height item0Size.height
        hw hw2 hiw hiw2 hh hh2 hih hih2
      refine ⟨r, ?_, l, u, ?_⟩
      · rw [← hr]
        simp only [zoomToFitFracZoom, splitViewWidget.isSplitting, hm, hbc, not_true_eq_false,
          ↓reduceIte]
      · intro k hk
        unfold itemsVisibleAt
        rw [hm]
        exact f k hk
    | some item1Size =>
      obtain ⟨h1w, h1h⟩ := hi1 item1Size rfl
      have b1 : 0 < max item0Size.width item1Size.width := lt_max_of_lt_left hiw
      have b2 : 0 < max item0Size.height item1Size.height := lt_max_of_lt_left hih
      have b1' : max item0Size.width item1Size.width ≤ 2147483647 := max_le hiw2 h1w
      have b2' : max item0Size.height item1Size.height ≤ 2147483647 := max_le hih2 h1h
      obtain ⟨r, hr, l, u, f⟩ := min_div_int_spec w.width (max item0Size.width item1Size.width)
        w.height (max item0Size.height item1Size.height) hw hw2 b1 b1' hh hh2 b2 b2'
      refine ⟨r, ?_, l, u, ?_⟩
      · rw [← hr]
        simp only [zoomToFitFracZoom, splitViewWidget.isSplitting, hm, hbc, not_true_eq_false,
          ↓reduceIte, ite_gt_eq_max]
      · intro k hk
        unfold itemsVisibleAt
        rw [hm]
        exact f k hk
  | SIDE_BY_SIDE =>
    obtain ⟨hx, hx1⟩ := hs hm
    have hb : (ViewSplitMode.SIDE_BY_SIDE != ViewSplitMode.DISABLED) = true := by decide
    have hx2 : w.xSplit ≤ 2147483647 := Double.toInt_le _
    obtain ⟨r0, hr0, l0, u0, f0⟩ := min_div_int_spec w.xSplit item0Size.width w.height
      item0Size.height hx hx2 hiw hiw2 hh hh2 hih hih2
    cases item1 with
    | none =>
      refine ⟨r0, ?_, l0, u0, ?_⟩
      · rw [← hr0]
        simp only [zoomToFitFracZoom, splitViewWidget.isSplitting, hm, hb, not_true_eq_false,
          ↓reduceIte, reduceCtorEq, if_neg hn0]
      · intro k hk
        unfold itemsVisibleAt
        rw [hm]
        refine ⟨(f0 k hk).1, (f0 k hk).2, ?_⟩
        intro s hs0
        cases hs0
    | some item1Size =>
      obtain ⟨h1w, h1h⟩ := hi1 item1Size rfl
      by_cases hp : item1Size.width > 0 ∧ item1Size.height > 0
      · have hlt := hx1 item1Size rfl hp.1 hp.2
        have hwx : toInt32 (w.width - w.xSplit) = w.width - w.xSplit :=
          toInt32_of_range _ (by omega) (by omega)
        obtain ⟨r1, hr1, l1, u1, f1⟩ := min_div_int_spec (w.width - w.xSplit) item1Size.width
          w.height item1Size.height (by omega) (by omega) hp.1 h1w hh hh2 hp.2 h1h
        refine ⟨min r0 r1, ?_, le_min l0 l1, le_trans (min_le_left _ _) u0, ?_⟩
        · by_cases hlt2 : r1 < r0
          · have hd : decide (r1 < r0) = true := decide_eq_true hlt2
            simp only [zoomToFitFracZoom, splitViewWidget.isSplitting, hm, hb, not_true_eq_false,
              ↓reduceIte, reduceCtorEq, if_neg hn0, if_pos hp, hwx, hr0, hr1, Double.lt, hd,
              min_eq_right hlt2.le]
          · have hd : decide (r1 < r0) = false := decide_eq_false hlt2
            simp only [zoomToFitFracZoom, splitViewWidget.isSplitting, hm, hb, not_true_eq_false,
              ↓reduceIte, reduceCtorEq, if_neg hn0, if_pos hp, hwx, hr0, hr1, Double.lt, hd,
              Bool.false_eq_true, min_eq_left (not_lt.mp hlt2)]
        · intro k hk
          unfold itemsVisibleAt
          rw [hm]
          have hk0 := f0 k (le_trans hk (min_le_left _ _))
          have hk1 := f1 k (le_trans hk (min_le_right _ _))
          refine ⟨hk0.1, hk0.2, ?_⟩
          intro s hs0 _ _
          cases hs0
          exact hk1
      · refine ⟨r0, ?_, l0, u0, ?_⟩
        · rw [← hr0]
          simp only [zoomToFitFracZoom, splitViewWidget.isSplitting, hm, hb, not_true_eq_false,
            ↓reduceIte, reduceCtorEq, if_neg hn0, if_neg hp]
        · intro k hk
          unfold itemsVisibleAt
          rw [hm]
          refine ⟨(f0 k hk).1, (f0 k hk).2, ?_⟩
          intro s hs0 p1 p2
          cases hs0
          exact absurd ⟨p1, p2⟩ hp

theorem zoomToFit_of_fracZoom (fuel : Nat) (item0Size : QSize) (item1 : Option QSize) (v : Views)
    (f : Double)
    (hf : zoomToFitFracZoom (v.setCenterOffset ⟨0, 0⟩ true).widget item0Size item1 = .value f) :
    zoomToFit fuel (some (some item0Size, item1)) v
      = (zoomToFitNewZoomFactor fuel f).map
          (fun newZoomFactor => (v.setCenterOffset ⟨0, 0⟩ true).setZoomFactor newZoomFactor true) := by
  simp only [zoomToFit, hf]
  cases zoomToFitNewZoomFactor fuel f <;> rfl

end ZoomToFitFracZoom


section ZoomToFitClaims

open Views

theorem xSplit_of_half (w : splitViewWidget) (W : ℤ) (hW : w.width = W)
    (hs : w.splittingPoint = .finite (1 / 2)) (h0 : 0 ≤ W) (h1 : W ≤ 2147483647) :
    w.xSplit = W / 2 := by
  unfold splitViewWidget.xSplit
  rw [hW, hs, Double.ofInt_eq W (by rw [abs_of_nonneg h0]; omega), Double.finite_mul_finite]
  have e : (W : ℚ) * (1 / 2) = (W : ℚ) / 2 := by ring
  rw [e, Double.round_half_intCast W (by rw [abs_of_nonneg h0]; omega)]
  have hW0 : (0 : ℚ) ≤ (W : ℚ) / 2 := by
    have : (0 : ℚ) ≤ W := by exact_mod_cast h0
    positivity
  refine Double.toInt_finite_of_floor _ _ hW0 ?_ (by omega) (by omega)
  rw [Int.floor_eq_iff]
  have ha : 2 * (W / 2) ≤ W := by omega
  have hb : W < 2 * (W / 2) + 2 := by omega
  have ha' : (2 : ℚ) * ((W / 2 : ℤ) : ℚ) ≤ W := by exact_mod_cast ha
  have hb' : (W : ℚ) < 2 * ((W / 2 : ℤ) : ℚ) + 2 := by exact_mod_cast hb
  constructor <;> linarith

theorem zoomToFitNewZoomFactor_zero (fuel : Nat) (hfuel : 1075 ≤ fuel) :
    zoomToFitNewZoomFactor fuel (.finite 0) = some (.finite 0) := by
  have hc : Double.lt (.finite 0) 1 = true := by
    rw [Double.lt_finite_one]
    exact decide_eq_true (by norm_num)
  have hloop := whileLoop_of_iterate
    (fun newZoomFactor => Double.lt (.finite 0) newZoomFactor)
    (fun newZoomFactor => newZoomFactor / Double.ofInt SPLITVIEWWIDGET_ZOOM_STEP_FACTOR) 1075 1
    (fun i hi => by
      rw [iterate_div_step i (by omega)]
      simp only [Double.lt, decide_eq_true_eq]
      exact two_zpow_pos _)
    (by
      rw [iterate_div_step_underflow 1075 (le_refl _)]
      simp only [Double.lt, decide_eq_false_iff_not, not_lt]
      exact le_refl _)
    fuel hfuel
  rw [iterate_div_step_underflow 1075 (le_refl _)] at hloop
  simp only [zoomToFitNewZoomFactor, hc, if_true]
  exact hloop

/-- The sample of C16: a widget of 1 x 1 pixels in side-by-side mode (splitting
point 1/2) and a selected item of 10 x 10 pixels. The left part is
`int(1 * 0.5) = 0` pixels wide, the fractional zoom is `0.0 / 10 = 0`, the
halving loop of `zoomToFit` runs until `newZoomFactor` underflows to 0 (1075
steps), and the zoom factor is set to 0, which is no power of two. -/
theorem zoomToFit_empty_left_part_sets_zoom_zero :
    zoomToFitFracZoom ((sampleSideBySide 1 1).setCenterOffset ⟨0, 0⟩ true).widget ⟨10, 10⟩ none
      = .value (.finite 0) ∧
    (∃ N : Nat, ∀ fuel, N ≤ fuel →
      (zoomToFit fuel (some (some ⟨10, 10⟩, none)) (sampleSideBySide 1 1)).map
        (fun v' => v'.widget.zoomFactor) = some (.finite 0)) ∧
    ∀ k : ℤ, Double.finite 0 ≠ .finite (2 ^ k) := by
  have hx : ((sampleSideBySide 1 1).setCenterOffset ⟨0, 0⟩ true).widget.xSplit = 0 := by
    rw [xSplit_of_half _ 1 rfl rfl (by norm_num) (by norm_num)]
    decide
  have hf : zoomToFitFracZoom ((sampleSideBySide 1 1).setCenterOffset ⟨0, 0⟩ true).widget
      ⟨10, 10⟩ none = .value (.finite 0) := by
    have hb : (ViewSplitMode.SIDE_BY_SIDE != ViewSplitMode.DISABLED) = true := by decide
    have hm : ((sampleSideBySide 1 1).setCenterOffset ⟨0, 0⟩ true).widget.viewSplitMode
        = .SIDE_BY_SIDE := rfl
    have hh : ((sampleSideBySide 1 1).setCenterOffset ⟨0, 0⟩ true).widget.height = 1 := rfl
    have h0 : Double.ofInt 0 = .finite 0 := by
      have h := Double.ofInt_eq 0 (by norm_num)
      simpa using h
    have h1 : Double.ofInt 1 = .finite 1 := by
      have h := Double.ofInt_eq 1 (by norm_num)
      simpa using h
    have h10 : Double.ofInt 10 = .finite 10 := by
      have h := Double.ofInt_eq 10 (by norm_num)
      simpa using h
    have hz : Double.finite 0 / Double.finite 10 = .finite 0 := by
      rw [Double.finite_div_finite _ _ (by norm_num), zero_div]
      exact Double.round_zero
    have hv : Double.finite 1 / Double.finite 10 = .finite (7205759403792794 * 2 ^ (-56 : ℤ)) := by
      rw [Double.finite_div_finite _ _ (by norm_num)]
      have h := Double.round_eq_of_bounds (1 / 10) (-4) 7205759403792794 (by norm_num)
        (by rw [abs_of_pos (by norm_num)]; norm_num)
        (by rw [abs_of_pos (by norm_num)]; norm_num)
        (by rw [abs_lt]; constructor <;> norm_num)
        (by rw [abs_of_pos (by norm_num)]; norm_num)
      rw [h]
      norm_num
    have hmin : min (0 : ℚ) (7205759403792794 * 2 ^ (-56 : ℤ)) = 0 :=
      min_eq_left (by positivity)
    simp only [zoomToFitFracZoom, splitViewWidget.isSplitting, hm, hb, not_true_eq_false,
      ↓reduceIte, reduceCtorEq, hx, hh]
    rw [if_neg (by decide), h0, h1, h10, hz, hv, double_min_finite, hmin]
  refine ⟨hf, ⟨1075, fun fuel hfuel => ?_⟩, fun k h => ?_⟩
  · rw [zoomToFit_of_fracZoom fuel _ _ _ _ hf, zoomToFitNewZoomFactor_zero fuel hfuel]
    rfl
  · have h0 : (0 : ℚ) = 2 ^ k := Double.finite.inj h
    exact absurd h0 (ne_of_lt (two_zpow_pos k))

/-- C16 (amended): after `zoomToFit` with a selected item 0 of positive size
on a widget of positive size (all sizes `int` values, at most 2147483647)
where, in side-by-side mode, the part left of the split is at least one pixel
wide and, if item 1 has a positive size, so is the part right of it:
`zoomToFit` run with enough steps returns, `centerOffset` is (0,0), the zoom
factor is a power of two, and the items are entirely visible
(`itemsVisible`). -/
theorem zoomToFit_fits_with_nonempty_parts (v : Views) (item0Size : QSize) (item1 : Option QSize)
    (hw : 0 < v.widget.width) (hw2 : v.widget.width ≤ 2147483647)
    (hh : 0 < v.widget.height) (hh2 : v.widget.height ≤ 2147483647)
    (hiw : 0 < item0Size.width) (hiw2 : item0Size.width ≤ 2147483647)
    (hih : 0 < item0Size.height) (hih2 : item0Size.height ≤ 2147483647)
    (hi1 : ∀ item1Size, item1 = some item1Size →
      item1Size.width ≤ 2147483647 ∧ item1Size.height ≤ 2147483647)
    (hs : v.widget.viewSplitMode = .SIDE_BY_SIDE →
      0 < v.widget.xSplit ∧
      ∀ item1Size, item1 = some item1Size → 0 < item1Size.width → 0 < item1Size.height →
        v.widget.xSplit < v.widget.width) :
    ∃ (k : ℤ) (N : Nat), ∀ fuel, N ≤ fuel →
      ∃ v', zoomToFit fuel (some (some item0Size, item1)) v = some v' ∧
        v'.widget.centerOffset = ⟨0, 0⟩ ∧ v'.widget.zoomFactor = .finite (2 ^ k) ∧
        itemsVisible v'.widget item0Size item1 := by
  obtain ⟨f, hf, hf1, hf2, hfit⟩ :=
    zoomToFitFracZoom_spec (v.setCenterOffset ⟨0, 0⟩ true).widget item0Size item1
      hw hw2 hh hh2 hiw hiw2 hih hih2 hi1 hs
  obtain ⟨k, N, hle, _, hloop⟩ := zoomToFitNewZoomFactor_spec f
    (le_trans (two_zpow_le (by norm_num)) hf1) (le_trans hf2 (two_zpow_le (by norm_num)))
  refine ⟨k, N, fun fuel hfuel => ?_⟩
  refine ⟨(v.setCenterOffset ⟨0, 0⟩ true).setZoomFactor (.finite (2 ^ k)) true, ?_, rfl, rfl, ?_⟩
  · rw [zoomToFit_of_fracZoom fuel _ _ _ _ hf, hloop fuel hfuel]
    rfl
  · exact hfit k hle

theorem zoomToFit_fits_with_nonempty_parts_witness :
    ∃ (k : ℤ) (N : Nat), ∀ fuel, N ≤ fuel →
      ∃ v', zoomToFit fuel (some (some ⟨40, 30⟩, some ⟨20, 20⟩)) (sampleSideBySide 100 100) = some v' ∧
        v'.widget.centerOffset = ⟨0, 0⟩ ∧ v'.widget.zoomFactor = .finite (2 ^ k) ∧
        itemsVisible v'.widget ⟨40, 30⟩ (some ⟨20, 20⟩) :=
  zoomToFit_fits_with_nonempty_parts (sampleSideBySide 100 100) ⟨40, 30⟩ (some ⟨20, 20⟩)
    (by decide) (by decide) (by decide) (by decide) (by decide) (by decide) (by decide) (by decide)
    (fun s hs => by
      cases hs
      exact ⟨by decide, by decide⟩)
    (fun _ => by
      have h : (sampleSideBySide 100 100).widget.xSplit = 50 := by
        rw [xSplit_of_half _ 100 rfl rfl (by norm_num) (by norm_num)]
        decide
      rw [h]
      exact ⟨by decide, fun _ _ _ _ => by decide⟩)

end ZoomToFitClaims

/-! ## The zoom step `zoomToFit` chooses -/

section ZoomToFitStep

open Views

/-- The zoom factor `zoomToFit` sets for a fractional zoom f: a power of two
`2^k` with `2^k <= f <= 2^(k+1)`; for `f <= 1` it is the largest power of two
that is at most f, for `f > 1` it is strictly less than f. -/
theorem zoomToFitNewZoomFactor_strict (f : ℚ) (hf1 : (2 : ℚ) ^ (-1074 : ℤ) ≤ f)
    (hf2 : f ≤ 2 ^ (1023 : ℤ)) :
    ∃ (k : ℤ) (N : Nat), (2 : ℚ) ^ k ≤ f ∧ f ≤ 2 ^ (k + 1) ∧ (f ≤ 1 → f < 2 ^ (k + 1)) ∧
      (1 < f → (2 : ℚ) ^ k < f) ∧
      ∀ fuel, N ≤ fuel → zoomToFitNewZoomFactor fuel (.finite f) = some (.finite (2 ^ k)) := by
  by_cases h1 : f < 1
  · obtain ⟨t, _, hle, hlt, h0, hloop⟩ := loop_down_gt f hf1
    have ht : 1 ≤ t := by
      rcases Nat.eq_zero_or_pos t with ht | ht
      · exact absurd (h0 ht) (not_le.mpr h1)
      · exact ht
    refine ⟨-(t : ℤ), t, hle, le_of_lt (hlt ht), fun _ => hlt ht,
      fun h => absurd h (not_lt.mpr (le_of_lt h1)), ?_⟩
    intro fuel hfuel
    have hc : Double.lt (.finite f) 1 = true := by
      rw [Double.lt_finite_one]
      exact decide_eq_true h1
    simp only [zoomToFitNewZoomFactor, hc, if_true]
    exact hloop fuel hfuel
  · obtain ⟨t, _, hle, hge, hlt, hloop⟩ := loop_up_twice_lt f (not_lt.mp h1) hf2
    refine ⟨t, t, hle, hge, ?_, ?_, ?_⟩
    · intro hf1'
      have hf1'' : f = 1 := le_antisymm hf1' (not_lt.mp h1)
      rcases Nat.eq_zero_or_pos t with ht | ht
      · subst ht
        rw [hf1'']
        norm_num
      · exact absurd (hlt ht) (by
          rw [hf1'']
          exact not_lt.mpr (one_le_zpow₀ (by norm_num) (by positivity)))
    · intro hf1'
      rcases Nat.eq_zero_or_pos t with ht | ht
      · subst ht
        simpa using hf1'
      · exact hlt ht
    · intro fuel hfuel
      have hc : Double.lt (.finite f) 1 = false := by
        rw [Double.lt_finite_one]
        exact decide_eq_false h1
      simp only [zoomToFitNewZoomFactor, hc]
      exact hloop fuel hfuel

/-- C21: on a widget of 200 x 200 pixels with splitting disabled and a selected
item of 100 x 100 pixels the fractional fit zoom is f = 2, itself a power of
two, and the item is entirely visible at the zoom factor 2; `zoomToFit` sets
the zoom factor 1, so the result is not the largest power of two z with
z <= f. On the sibling path (f < 1), a widget of 100 x 100 pixels and an item
of 200 x 200 pixels, f = 1/2 and `zoomToFit` sets exactly 1/2. -/
theorem zoomToFit_exact_fit_one_step_short :
    zoomToFitFracZoom ((sampleOfSize 200 200).setCenterOffset ⟨0, 0⟩ true).widget ⟨100, 100⟩ none
      = .value 2 ∧
    (zoomToFit 0 (some (some ⟨100, 100⟩, none)) (sampleOfSize 200 200)).map
      (fun v' => v'.widget.zoomFactor) = some 1 ∧
    itemsVisible { (sampleOfSize 200 200).widget with zoomFactor := 2 } ⟨100, 100⟩ none ∧
    zoomToFitFracZoom ((sampleOfSize 100 100).setCenterOffset ⟨0, 0⟩ true).widget ⟨200, 200⟩ none
      = .value (.finite (1 / 2)) ∧
    (zoomToFit 1 (some (some ⟨200, 200⟩, none)) (sampleOfSize 100 100)).map
      (fun v' => v'.widget.zoomFactor) = some (.finite (1 / 2)) := by
  have h100 : Double.ofInt 100 = .finite 100 := by
    have h := Double.ofInt_eq 100 (by norm_num)
    simpa using h
  have h200 : Double.ofInt 200 = .finite 200 := by
    have h := Double.ofInt_eq 200 (by norm_num)
    simpa using h
  have hq2 : Double.finite 200 / Double.finite 100 = .finite 2 := by
    rw [Double.finite_div_finite _ _ (by norm_num)]
    have e : (200 : ℚ) / 100 = 2 := by norm_num
    rw [e]
    exact Double.round_two
  have hqh : Double.finite 100 / Double.finite 200 = .finite (1 / 2) := by
    rw [Double.finite_div_finite _ _ (by norm_num)]
    have e : (100 : ℚ) / 200 = 1 / 2 := by norm_num
    rw [e]
    exact Double.round_half
  have hf2 : zoomToFitFracZoom ((sampleOfSize 200 200).setCenterOffset ⟨0, 0⟩ true).widget
      ⟨100, 100⟩ none = .value 2 := by
    have hm : ((sampleOfSize 200 200).setCenterOffset ⟨0, 0⟩ true).widget.viewSplitMode
        = .DISABLED := rfl
    have hw : ((sampleOfSize 200 200).setCenterOffset ⟨0, 0⟩ true).widget.width = 200 := rfl
    have hh : ((sampleOfSize 200 200).setCenterOffset ⟨0, 0⟩ true).widget.height = 200 := rfl
    simp only [zoomToFitFracZoom, splitViewWidget.isSplitting, hm, hw, hh]
    rw [if_pos (by decide), if_neg (by decide), h100, h200, hq2, double_min_finite, min_self,
      Double.two_def]
  have hfh : zoomToFitFracZoom ((sampleOfSize 100 100).setCenterOffset ⟨0, 0⟩ true).widget
      ⟨200, 200⟩ none = .value (.finite (1 / 2)) := by
    have hm : ((sampleOfSize 100 100).setCenterOffset ⟨0, 0⟩ true).widget.viewSplitMode
        = .DISABLED := rfl
    have hw : ((sampleOfSize 100 100).setCenterOffset ⟨0, 0⟩ true).widget.width = 100 := rfl
    have hh : ((sampleOfSize 100 100).setCenterOffset ⟨0, 0⟩ true).widget.height = 100 := rfl
    simp only [zoomToFitFracZoom, splitViewWidget.isSplitting, hm, hw, hh]
    rw [if_pos (by decide), if_neg (by decide), h100, h200, hqh, double_min_finite, min_self]
  have hstep1 : (1 : Double) * Double.ofInt SPLITVIEWWIDGET_ZOOM_STEP_FACTOR = .finite 2 := by
    rw [Double.one_def]
    have h := mul_step_finite 0 (by norm_num) (by norm_num)
    simpa using h
  have hstep2 : (1 : Double) / Double.ofInt SPLITVIEWWIDGET_ZOOM_STEP_FACTOR = .finite (1 / 2) := by
    rw [Double.one_def]
    have h := div_step_finite 0 (by norm_num) (by norm_num)
    rw [zpow_zero] at h
    rw [h]
    norm_num
  refine ⟨hf2, ?_, ?_, hfh, ?_⟩
  · rw [zoomToFit_of_fracZoom 0 _ _ _ 2 hf2]
    have hc : Double.lt 2 1 = false := by
      rw [Double.two_def, Double.lt_finite_one]
      exact decide_eq_false (by norm_num)
    have hc2 : Double.lt (.finite 2) 2 = false := by
      rw [Double.two_def]
      show decide ((2 : ℚ) < 2) = false
      exact decide_eq_false (by norm_num)
    simp only [zoomToFitNewZoomFactor, hc, whileLoop, hstep1, hc2]
    rfl
  · show itemsVisibleAt { (sampleOfSize 200 200).widget with zoomFactor := 2 } ((2 : ℕ) : ℚ)
      ⟨100, 100⟩ none
    simp only [itemsVisibleAt, sampleOfSize, splitViewWidget.new]
    norm_num
  · rw [zoomToFit_of_fracZoom 1 _ _ _ _ hfh]
    have hc : Double.lt (.finite (1 / 2)) 1 = true := by
      rw [Double.lt_finite_one]
      exact decide_eq_true (by norm_num)
    have hc2 : Double.lt (.finite (1 / 2)) (.finite (1 / 2)) = false := by
      show decide ((1 / 2 : ℚ) < 1 / 2) = false
      exact decide_eq_false (by norm_num)
    simp only [zoomToFitNewZoomFactor, hc, whileLoop, hstep2, hc2, if_true]
    rfl

end ZoomToFitStep


/-! ## Theorems about the zoom point of `zoom` -/

section QRoundTheorems

theorem Double.toInt_finite_of_ceil (q : ℚ) (n : ℤ) (h0 : q < 0) (hf : ⌈q⌉ = n)
    (h1 : -2147483648 ≤ n) (h2 : n ≤ 2147483647) : (Double.finite q).toInt = n := by
  simp only [Double.toInt, if_neg (not_le.mpr h0), hf]
  rw [if_pos ⟨h1, h2⟩]

theorem Double.toInt_intCast (n : ℤ) (h1 : -2147483648 ≤ n) (h2 : n ≤ 2147483647) :
    (Double.finite (n : ℚ)).toInt = n := by
  rcases le_or_lt 0 n with h | h
  · exact Double.toInt_finite_of_floor _ n (by exact_mod_cast h) (Int.floor_intCast n) h1 h2
  · exact Double.toInt_finite_of_ceil _ n (by exact_mod_cast h) (Int.ceil_intCast n) h1 h2

theorem qRound_of_nonneg (q : ℚ) (hq : 0 ≤ q) :
    qRound (.finite q) = (Double.round (q + 1 / 2)).toInt := by
  have hc : Double.le 0 (.finite q) = true := by
    rw [Double.zero_def]
    exact decide_eq_true hq
  simp only [qRound, hc, if_true, Double.finite_add_finite]

theorem qRound_of_neg (q : ℚ) (hq : q < 0) :
    qRound (.finite q)
      = toInt32 ((Double.finite q - Double.ofInt (Double.round (q - 1)).toInt
          + .finite (1 / 2)).toInt + (Double.round (q - 1)).toInt) := by
  have hc : Double.le 0 (.finite q) = false := by
    rw [Double.zero_def]
    exact decide_eq_false (not_le.mpr hq)
  have h1 : Double.finite q - 1 = Double.round (q - 1) := by
    rw [Double.one_def, Double.finite_sub_finite]
  simp only [qRound, hc, h1]
  rfl

theorem three_halves : Double.finite 1 + .finite (1 / 2) = .finite (3 / 2) := by
  rw [Double.finite_add_finite]
  have e : (1 : ℚ) + 1 / 2 = ((3 : ℤ) : ℚ) / 2 := by norm_num
  rw [e, Double.round_half_intCast 3 (by norm_num)]
  norm_num

theorem toInt_three_halves : (Double.finite (3 / 2)).toInt = 1 := by
  refine Double.toInt_finite_of_floor _ 1 (by norm_num) ?_ (by norm_num) (by norm_num)
  rw [Int.floor_eq_iff]
  constructor <;> norm_num

theorem toInt_one : (Double.finite 1).toInt = 1 := by
  have h := Double.toInt_intCast 1 (by norm_num) (by norm_num)
  simpa using h

/-- The function `qRound` on a whole number. -/
theorem qRound_intCast (j : ℤ) (hj : |j| ≤ 1073741824) : qRound (.finite (j : ℚ)) = j := by
  have hj' := abs_le.mp hj
  rcases le_or_lt 0 j with h | h
  · rw [qRound_of_nonneg _ (by exact_mod_cast h)]
    have e : (j : ℚ) + 1 / 2 = ((2 * j + 1 : ℤ) : ℚ) / 2 := by
      push_cast
      ring
    rw [e, Double.round_half_intCast _ (by rw [abs_of_nonneg (by omega)]; omega)]
    refine Double.toInt_finite_of_floor _ j ?_ ?_ (by omega) (by omega)
    · have : (0 : ℚ) ≤ ((2 * j + 1 : ℤ) : ℚ) := by exact_mod_cast (by omega : 0 ≤ 2 * j + 1)
      positivity
    · rw [Int.floor_eq_iff]
      push_cast
      constructor <;> linarith
  · rw [qRound_of_neg _ (by exact_mod_cast h)]
    have e : (j : ℚ) - 1 = ((j - 1 : ℤ) : ℚ) := by push_cast; ring
    rw [e, Double.round_intCast _ (by rw [abs_of_neg (by omega)]; omega),
      Double.toInt_intCast _ (by omega) (by omega),
      Double.ofInt_eq _ (by rw [abs_of_neg (by omega)]; omega), Double.finite_sub_finite]
    have e2 : (j : ℚ) - ((j - 1 : ℤ) : ℚ) = 1 := by push_cast; ring
    rw [e2, Double.round_one, three_halves, toInt_three_halves]
    exact toInt32_of_range _ (by omega) (by omega) |>.trans (by ring)

/-- The function `qRound` on a whole number and a half: the next whole number. -/
theorem qRound_intCast_add_half (j : ℤ) (hj : |j| ≤ 1073741824) :
    qRound (.finite ((j : ℚ) + 1 / 2)) = j + 1 := by
  have hj' := abs_le.mp hj
  rcases le_or_lt 0 j with h | h
  · have hj0 : (0 : ℚ) ≤ j := by exact_mod_cast h
    rw [qRound_of_nonneg _ (by linarith)]
    have e : (j : ℚ) + 1 / 2 + 1 / 2 = ((j + 1 : ℤ) : ℚ) := by
      push_cast
      ring
    rw [e, Double.round_intCast _ (by rw [abs_of_nonneg (by omega)]; omega)]
    exact Double.toInt_intCast _ (by omega) (by omega)
  · have hj0 : (j : ℚ) ≤ -1 := by exact_mod_cast (by omega : j ≤ -1)
    rw [qRound_of_neg _ (by linarith)]
    have e : (j : ℚ) + 1 / 2 - 1 = ((2 * j - 1 : ℤ) : ℚ) / 2 := by push_cast; ring
    rw [e, Double.round_half_intCast _ (by rw [abs_of_neg (by omega)]; omega)]
    have ht : (Double.finite (((2 * j - 1 : ℤ) : ℚ) / 2)).toInt = j := by
      refine Double.toInt_finite_of_ceil _ j ?_ ?_ (by omega) (by omega)
      · push_cast
        linarith
      · rw [Int.ceil_eq_iff]
        push_cast
        constructor <;> linarith
    rw [ht, Double.ofInt_eq _ (by rw [abs_of_neg h]; omega), Double.finite_sub_finite]
    have e2 : (j : ℚ) + 1 / 2 - (j : ℚ) = 1 / 2 := by ring
    rw [e2, Double.round_half, Double.finite_add_finite]
    have e3 : (1 : ℚ) / 2 + 1 / 2 = 1 := by norm_num
    rw [e3, Double.round_one, toInt_one]
    exact toInt32_of_range _ (by omega) (by omega) |>.trans (by ring)

/-- The function `qRound` on half a whole number m: `floor((m + 1) / 2)`. -/
theorem qRound_half_intCast (m : ℤ) (hm : |m| ≤ 2147483648) :
    qRound (.finite ((m : ℚ) / 2)) = (m + 1) / 2 := by
  have hm' := abs_le.mp hm
  rcases Int.emod_two_eq_zero_or_one m with h | h
  · have hj : m = 2 * (m / 2) := by omega
    have e : (m : ℚ) / 2 = ((m / 2 : ℤ) : ℚ) := by
      have : (m : ℚ) = 2 * ((m / 2 : ℤ) : ℚ) := by exact_mod_cast hj
      linarith
    rw [e, qRound_intCast _ (by rw [abs_le]; constructor <;> omega)]
    omega
  · have hj : m = 2 * (m / 2) + 1 := by omega
    have e : (m : ℚ) / 2 = ((m / 2 : ℤ) : ℚ) + 1 / 2 := by
      have : (m : ℚ) = 2 * ((m / 2 : ℤ) : ℚ) + 1 := by exact_mod_cast hj
      linarith
    rw [e, qRound_intCast_add_half _ (by rw [abs_le]; constructor <;> omega)]
    omega

end QRoundTheorems


section ZoomPointTheorems

open Views

theorem zoomApply_paintCenterPoint (newZoom : Double) (zoomPoint : QPoint) (v : Views) :
    paintCenterPoint zoomPoint (zoomApply newZoom zoomPoint v).widget
      = paintCenterPoint zoomPoint v.widget := by
  unfold zoomApply
  split_ifs <;> rfl

theorem zoomApply_centerOffset (newZoom : Double) (zoomPoint : QPoint) (v : Views)
    (hp : zoomPoint.isNull = false) :
    (zoomApply newZoom zoomPoint v).widget.centerOffset
      = (zoomPoint.add (((zoomCenterPoint zoomPoint v.widget).add v.widget.centerOffset).sub
          zoomPoint |>.mulReal (newZoom / v.widget.zoomFactor))).sub
          (zoomCenterPoint zoomPoint v.widget) := by
  simp [zoomApply, hp, setZoomFactor, setCenterOffset]

theorem divReal_two (p : QPoint) (hx : |p.x| ≤ 2147483648) (hy : |p.y| ≤ 2147483648) :
    p.divReal (Double.ofInt 2) = ⟨(p.x + 1) / 2, (p.y + 1) / 2⟩ := by
  have hx' := abs_le.mp hx
  have hy' := abs_le.mp hy
  have e1 : Double.ofInt p.x / Double.ofInt 2 = .finite ((p.x : ℚ) / 2) := by
    rw [Double.ofInt_eq p.x (by rw [abs_lt]; constructor <;> omega), Double.ofInt_two,
      Double.finite_div_finite _ _ (by norm_num),
      Double.round_half_intCast _ (by rw [abs_lt]; constructor <;> omega)]
  have e2 : Double.ofInt p.y / Double.ofInt 2 = .finite ((p.y : ℚ) / 2) := by
    rw [Double.ofInt_eq p.y (by rw [abs_lt]; constructor <;> omega), Double.ofInt_two,
      Double.finite_div_finite _ _ (by norm_num),
      Double.round_half_intCast _ (by rw [abs_lt]; constructor <;> omega)]
  simp only [QPoint.divReal, e1, e2, qRound_half_intCast _ hx, qRound_half_intCast _ hy]

/-- Away from the column `xSplit`, `zoom` uses the centre point of the part that
`paintEvent` paints at the zoom point. -/
theorem zoomCenterPoint_eq_paintCenterPoint (zoomPoint : QPoint) (w : splitViewWidget)
    (hs : w.viewSplitMode = .SIDE_BY_SIDE → zoomPoint.x ≠ w.xSplit) :
    zoomCenterPoint zoomPoint w = paintCenterPoint zoomPoint w := by
  cases hm : w.viewSplitMode with
  | DISABLED => simp [zoomCenterPoint, paintCenterPoint, hm]
  | COMPARISON => simp [zoomCenterPoint, paintCenterPoint, hm]
  | SIDE_BY_SIDE =>
    have hne := hs hm
    rcases lt_or_gt_of_ne hne with h | h
    · have h2 : ¬ zoomPoint.x > w.xSplit := by omega
      simp [zoomCenterPoint, paintCenterPoint, hm, h, h2]
    · have h2 : ¬ zoomPoint.x < w.xSplit := by omega
      simp [zoomCenterPoint, paintCenterPoint, hm, h, h2]

theorem zoomCenterPoint_bounds (zoomPoint : QPoint) (w : splitViewWidget)
    (hw : 0 ≤ w.width ∧ w.width ≤ 134217728) (hh : 0 ≤ w.height ∧ w.height ≤ 134217728)
    (hs : w.viewSplitMode = .SIDE_BY_SIDE → 0 ≤ w.xSplit ∧ w.xSplit ≤ w.width) :
    |(zoomCenterPoint zoomPoint w).x| ≤ 134217728 ∧ |(zoomCenterPoint zoomPoint w).y| ≤ 134217728 := by
  have hd : (⟨w.width, w.height⟩ : QPoint).divReal (Double.ofInt 2)
      = ⟨(w.width + 1) / 2, (w.height + 1) / 2⟩ :=
    divReal_two ⟨w.width, w.height⟩
      (by show |w.width| ≤ 2147483648; rw [abs_le]; constructor <;> omega)
      (by show |w.height| ≤ 2147483648; rw [abs_le]; constructor <;> omega)
  have hty : w.height.tdiv 2 = w.height / 2 := Int.tdiv_eq_ediv hh.1 (by norm_num)
  cases hm : w.viewSplitMode with
  | DISABLED =>
    simp only [zoomCenterPoint, hm, hd, reduceCtorEq, ↓reduceIte]
    constructor <;> rw [abs_le] <;> constructor <;> omega
  | COMPARISON =>
    simp only [zoomCenterPoint, hm, hd, reduceCtorEq, ↓reduceIte]
    constructor <;> rw [abs_le] <;> constructor <;> omega
  | SIDE_BY_SIDE =>
    obtain ⟨hx0, hx1⟩ := hs hm
    have htx : w.xSplit.tdiv 2 = w.xSplit / 2 := Int.tdiv_eq_ediv hx0 (by norm_num)
    have h32 : toInt32 (w.width - w.xSplit) = w.width - w.xSplit :=
      toInt32_of_range _ (by omega) (by omega)
    have htw : (w.width - w.xSplit).tdiv 2 = (w.width - w.xSplit) / 2 :=
      Int.tdiv_eq_ediv (by omega) (by norm_num)
    have h33 : toInt32 (w.xSplit + (w.width - w.xSplit) / 2) = w.xSplit + (w.width - w.xSplit) / 2 :=
      toInt32_of_range _ (by omega) (by omega)
    simp only [zoomCenterPoint, hm, ↓reduceIte, hty, htx, h32, htw, h33]
    split_ifs <;> dsimp only <;> constructor <;> rw [abs_le] <;> constructor <;> omega

theorem coord_in (c o p : ℤ) (hc : |c| ≤ 134217728) (ho : |o| ≤ 134217728) (hp : |p| ≤ 134217728) :
    toInt32 (toInt32 (p + qRound (Double.ofInt (toInt32 (toInt32 (c + o) - p)) * .finite 2)) - c)
      = p + 2 * (c + o - p) - c := by
  have hc' := abs_le.mp hc
  have ho' := abs_le.mp ho
  have hp' := abs_le.mp hp
  rw [toInt32_of_range (c + o) (by omega) (by omega),
    toInt32_of_range (c + o - p) (by omega) (by omega),
    Double.ofInt_eq _ (by rw [abs_lt]; constructor <;> omega), Double.finite_mul_finite]
  have e : ((c + o - p : ℤ) : ℚ) * 2 = ((2 * (c + o - p) : ℤ) : ℚ) := by
    push_cast
    ring
  rw [e, Double.round_intCast _ (by rw [abs_lt]; constructor <;> omega),
    qRound_intCast _ (by rw [abs_le]; constructor <;> omega),
    toInt32_of_range (p + 2 * (c + o - p)) (by omega) (by omega),
    toInt32_of_range _ (by omega) (by omega)]

theorem coord_out (c o p : ℤ) (hc : |c| ≤ 134217728) (ho : |o| ≤ 134217728) (hp : |p| ≤ 134217728) :
    toInt32 (toInt32 (p + qRound (Double.ofInt (toInt32 (toInt32 (c + o) - p)) * .finite (1 / 2))) - c)
      = p + (c + o - p + 1) / 2 - c := by
  have hc' := abs_le.mp hc
  have ho' := abs_le.mp ho
  have hp' := abs_le.mp hp
  rw [toInt32_of_range (c + o) (by omega) (by omega),
    toInt32_of_range (c + o - p) (by omega) (by omega),
    Double.ofInt_eq _ (by rw [abs_lt]; constructor <;> omega), Double.finite_mul_finite]
  have e : ((c + o - p : ℤ) : ℚ) * (1 / 2) = ((c + o - p : ℤ) : ℚ) / 2 := by ring
  rw [e, Double.round_half_intCast _ (by rw [abs_lt]; constructor <;> omega),
    qRound_half_intCast _ (by rw [abs_le]; constructor <;> omega),
    toInt32_of_range (p + (c + o - p + 1) / 2) (by omega) (by omega),
    toInt32_of_range _ (by omega) (by omega)]

theorem pixel_in (p c o k : ℤ) :
    ((p - (c + (p + 2 * (c + o - p) - c)) : ℤ) : ℚ) / 2 ^ (k + 1)
      = ((p - (c + o) : ℤ) : ℚ) / 2 ^ k := by
  have hk := two_zpow_pos k
  rw [two_zpow_succ]
  push_cast
  field_simp
  ring

theorem pixel_out (p c o k : ℤ) :
    |((p - (c + (p + (c + o - p + 1) / 2 - c)) : ℤ) : ℚ) / 2 ^ (k - 1)
      - ((p - (c + o) : ℤ) : ℚ) / 2 ^ k| ≤ 1 / (2 * 2 ^ (k - 1)) := by
  have hk := two_zpow_pos k
  have hk2 : (2 : ℚ) * 2 ^ (k - 1) = 2 ^ k := by
    rw [two_zpow_pred]
    ring
  have hk3 : (2 : ℚ) ^ (k - 1) = 2 ^ k / 2 := two_zpow_pred k
  obtain ⟨r, hr⟩ : ∃ r : ℤ, r = (c + o - p + 1) / 2 := ⟨_, rfl⟩
  have h1 : 0 ≤ 2 * r - (c + o - p) := by omega
  have h2 : 2 * r - (c + o - p) ≤ 1 := by omega
  have h1q : (0 : ℚ) ≤ 2 * (r : ℚ) - ((c : ℚ) + o - p) := by exact_mod_cast h1
  have h2q : 2 * (r : ℚ) - ((c : ℚ) + o - p) ≤ 1 := by exact_mod_cast h2
  rw [← hr, hk2, hk3]
  have e : ((p - (c + (p + r - c)) : ℤ) : ℚ) / (2 ^ k / 2) - ((p - (c + o) : ℤ) : ℚ) / 2 ^ k
      = -(2 * (r : ℚ) - ((c : ℚ) + o - p)) / 2 ^ k := by
    push_cast
    field_simp
    ring
  rw [e, abs_div, abs_neg, abs_of_nonneg h1q, abs_of_pos hk]
  exact div_le_div_of_nonneg_right h2q hk.le

theorem zoomNewZoom_in_pow (k : ℤ) (hk1 : -1074 ≤ k) (hk2 : k ≤ 1022) :
    ∃ N : Nat, ∀ fuel newZoomFactor, N ≤ fuel →
      zoomNewZoom fuel .ZOOM_IN (.finite (2 ^ k)) newZoomFactor = some (.finite (2 ^ (k + 1))) := by
  obtain ⟨j, N, hlt, hle, h⟩ := zoomNewZoom_in (2 ^ k) (two_zpow_le hk1) (two_zpow_lt (by omega))
  have h1 : k < j := two_zpow_lt_iff.mp hlt
  have h2 : j - 1 ≤ k := two_zpow_le_iff.mp hle
  have hj : j = k + 1 := by omega
  subst hj
  exact ⟨N, h⟩

theorem zoomNewZoom_out_pow (k : ℤ) (hk1 : -1073 ≤ k) (hk2 : k ≤ 1023) :
    ∃ N : Nat, ∀ fuel newZoomFactor, N ≤ fuel →
      zoomNewZoom fuel .ZOOM_OUT (.finite (2 ^ k)) newZoomFactor = some (.finite (2 ^ (k - 1))) := by
  obtain ⟨j, N, hlt, hle, h⟩ := zoomNewZoom_out (2 ^ k) (two_zpow_lt (by omega)) (two_zpow_le hk2)
  have h1 : j < k := two_zpow_lt_iff.mp hlt
  have h2 : k ≤ j + 1 := two_zpow_le_iff.mp hle
  have hj : j = k - 1 := by omega
  subst hj
  exact ⟨N, h⟩

theorem step_in (k : ℤ) : Double.finite (2 ^ (k + 1)) / Double.finite (2 ^ k) = .finite 2 := by
  have hk := two_zpow_pos k
  rw [Double.finite_div_finite _ _ hk.ne']
  have e : (2 : ℚ) ^ (k + 1) / 2 ^ k = 2 := by
    rw [two_zpow_succ]
    field_simp
  rw [e]
  exact Double.round_two

theorem step_out (k : ℤ) : Double.finite (2 ^ (k - 1)) / Double.finite (2 ^ k) = .finite (1 / 2) := by
  have hk := two_zpow_pos k
  rw [Double.finite_div_finite _ _ hk.ne']
  have e : (2 : ℚ) ^ (k - 1) / 2 ^ k = 1 / 2 := by
    rw [two_zpow_pred]
    field_simp
    ring
  rw [e]
  exact Double.round_half

end ZoomPointTheorems


section RoundingError

/-- The rounding error of a binary64 operation whose exact result q has a
magnitude below `2^(E+1)`: at most half a unit in the last place, `2^(E-53)`. -/
theorem Double.round_abs_error (q : ℚ) (E : ℤ) (hE1 : -1022 ≤ E) (hE2 : E ≤ 1022)
    (hq : |q| < 2 ^ (E + 1)) :
    ∃ r, Double.round q = .finite r ∧ |r - q| ≤ 2 ^ (E - 53) := by
  by_cases h0 : q = 0
  · subst h0
    exact ⟨0, Double.round_zero, by rw [sub_zero, abs_zero]; exact (two_zpow_pos _).le⟩
  have hpos : (0 : ℚ) < |q| := abs_pos.mpr h0
  have hlog : Int.log 2 |q| < E + 1 := by
    rw [← Int.lt_zpow_iff_log_lt (by norm_num) hpos]
    simpa using hq
  have hu : Double.ulpExponent q ≤ E - 52 := by
    unfold Double.ulpExponent
    have : max (Int.log 2 |q|) (-1022) ≤ E := max_le (by omega) hE1
    omega
  obtain ⟨u, hudef⟩ : ∃ u, u = Double.ulpExponent q := ⟨_, rfl⟩
  rw [← hudef] at hu
  have hup : (0 : ℚ) < 2 ^ u := two_zpow_pos u
  have hM := roundHalfEven_abs_sub_le (q / 2 ^ u)
  obtain ⟨M, hMdef⟩ : ∃ M, M = roundHalfEven (q / 2 ^ u) := ⟨_, rfl⟩
  rw [← hMdef] at hM
  have herr : |(M : ℚ) * 2 ^ u - q| ≤ 2 ^ (E - 53) := by
    have e : (M : ℚ) * 2 ^ u - q = ((M : ℚ) - q / 2 ^ u) * 2 ^ u := by
      field_simp
    rw [e, abs_mul, abs_of_pos hup]
    have h1 : |(M : ℚ) - q / 2 ^ u| * 2 ^ u ≤ 1 / 2 * 2 ^ u :=
      mul_le_mul_of_nonneg_right hM hup.le
    have h2 : (1 : ℚ) / 2 * 2 ^ u = 2 ^ (u - 1) := by
      rw [two_zpow_pred]
      ring
    have h3 : (2 : ℚ) ^ (u - 1) ≤ 2 ^ (E - 53) := two_zpow_le (by omega)
    linarith
  have hfin : |(M : ℚ) * 2 ^ u| < 2 ^ (1024 : ℤ) := by
    have h1 : |(M : ℚ) * 2 ^ u| ≤ |(M : ℚ) * 2 ^ u - q| + |q| := by
      have := abs_add ((M : ℚ) * 2 ^ u - q) q
      simpa using this
    have h2 : (2 : ℚ) ^ (E - 53) ≤ 2 ^ (E + 1) := two_zpow_le (by omega)
    have h3 : (2 : ℚ) ^ (E + 2) ≤ 2 ^ (1024 : ℤ) := two_zpow_le (by omega)
    have h4 : (2 : ℚ) ^ (E + 2) = 2 * 2 ^ (E + 1) := by
      rw [show E + 2 = (E + 1) + 1 by ring, two_zpow_succ]
    linarith
  rw [abs_lt] at hfin
  refine ⟨(M : ℚ) * 2 ^ u, ?_, herr⟩
  unfold Double.round
  rw [← hudef, ← hMdef, if_neg (by linarith), if_neg (by linarith)]

/-- The error of `qRound`: the result differs from the argument by at most a
half and the rounding errors of its additions. -/
theorem qRound_abs_error (r : ℚ) (hr : |r| ≤ 1073741824) :
    |((qRound (.finite r) : ℤ) : ℚ) - r| ≤ 1 / 2 + 2 ^ (-22 : ℤ) ∧
      |qRound (.finite r)| ≤ 1073741825 := by
  have hr' := abs_le.mp hr
  have h23 : (2 : ℚ) ^ (30 - 53 : ℤ) = 1 / 8388608 := by norm_num
  have h22 : (2 : ℚ) ^ (-22 : ℤ) = 1 / 4194304 := by norm_num
  have h31 : (2 : ℚ) ^ (30 + 1 : ℤ) = 2147483648 := by norm_num
  rw [h22]
  rcases le_or_lt 0 r with h | h
  · rw [qRound_of_nonneg r h]
    obtain ⟨a, ha, hae⟩ := Double.round_abs_error (r + 1 / 2) 30 (by norm_num) (by norm_num)
      (by rw [h31, abs_lt]; constructor <;> linarith)
    rw [h23] at hae
    have hae' := abs_le.mp hae
    have ha0 : 0 ≤ a := by linarith
    have hfl1 : (⌊a⌋ : ℚ) ≤ a := Int.floor_le a
    have hfl2 : a < (⌊a⌋ : ℚ) + 1 := Int.lt_floor_add_one a
    have hlo : (-1 : ℚ) < (⌊a⌋ : ℚ) := by linarith
    have hhi : (⌊a⌋ : ℚ) < 1073741826 := by linarith
    have hlo' : -1 < ⌊a⌋ := by exact_mod_cast hlo
    have hhi' : ⌊a⌋ < 1073741826 := by exact_mod_cast hhi
    rw [ha, Double.toInt_finite_of_floor a ⌊a⌋ ha0 rfl (by omega) (by omega)]
    refine ⟨?_, by rw [abs_le]; constructor <;> omega⟩
    rw [abs_le]
    constructor <;> linarith
  · rw [qRound_of_neg r h]
    obtain ⟨a, ha, hae⟩ := Double.round_abs_error (r - 1) 30 (by norm_num) (by norm_num)
      (by rw [h31, abs_lt]; constructor <;> linarith)
    rw [h23] at hae
    have hae' := abs_le.mp hae
    have ha0 : a < 0 := by linarith
    have hc1 : a ≤ (⌈a⌉ : ℚ) := Int.le_ceil a
    have hc2 : (⌈a⌉ : ℚ) < a + 1 := Int.ceil_lt_add_one a
    have hIlo : (-1073741826 : ℚ) < (⌈a⌉ : ℚ) := by linarith
    have hIhi : (⌈a⌉ : ℚ) < 1 := by linarith
    have hIlo' : -1073741826 < ⌈a⌉ := by exact_mod_cast hIlo
    have hIhi' : ⌈a⌉ < 1 := by exact_mod_cast hIhi
    rw [ha, Double.toInt_finite_of_ceil a ⌈a⌉ ha0 rfl (by omega) (by omega),
      Double.ofInt_eq _ (by rw [abs_lt]; constructor <;> omega), Double.finite_sub_finite]
    obtain ⟨b, hb, hbe⟩ := Double.round_abs_error (r - (⌈a⌉ : ℚ)) 30 (by norm_num) (by norm_num)
      (by rw [h31, abs_lt]; constructor <;> linarith)
    rw [h23] at hbe
    have hbe' := abs_le.mp hbe
    rw [hb, Double.finite_add_finite]
    obtain ⟨c, hc, hce⟩ := Double.round_abs_error (b + 1 / 2) 30 (by norm_num) (by norm_num)
      (by rw [h31, abs_lt]; constructor <;> linarith)
    rw [h23] at hce
    have hce' := abs_le.mp hce
    have hc0 : 0 ≤ c := by linarith
    have hfl1 : (⌊c⌋ : ℚ) ≤ c := Int.floor_le c
    have hfl2 : c < (⌊c⌋ : ℚ) + 1 := Int.lt_floor_add_one c
    have hJlo : (-1 : ℚ) < (⌊c⌋ : ℚ) := by linarith
    have hJhi : (⌊c⌋ : ℚ) < 3 := by linarith
    have hJlo' : -1 < ⌊c⌋ := by exact_mod_cast hJlo
    have hJhi' : ⌊c⌋ < 3 := by exact_mod_cast hJhi
    rw [hc, Double.toInt_finite_of_floor c ⌊c⌋ hc0 rfl (by omega) (by omega),
      toInt32_of_range _ (by omega) (by omega)]
    have hsum1 : (((⌊c⌋ + ⌈a⌉ : ℤ)) : ℚ) ≤ r + 1 / 2 + 1 / 4194304 := by
      push_cast
      linarith
    have hsum2 : r - 1 / 2 - 1 / 4194304 ≤ (((⌊c⌋ + ⌈a⌉ : ℤ)) : ℚ) := by
      push_cast
      linarith
    refine ⟨by rw [abs_le]; constructor <;> linarith, ?_⟩
    have hs1 : (((⌊c⌋ + ⌈a⌉ : ℤ)) : ℚ) < 1 := by linarith
    have hs2 : (-1073741826 : ℚ) < (((⌊c⌋ + ⌈a⌉ : ℤ)) : ℚ) := by linarith
    have hs1' : ⌊c⌋ + ⌈a⌉ < 1 := by exact_mod_cast hs1
    have hs2' : -1073741826 < ⌊c⌋ + ⌈a⌉ := by exact_mod_cast hs2
    rw [abs_le]
    constructor <;> omega

end RoundingError


section ZoomAxis

open Views

/-- The step factor `newZoom / zoomFactor` of a zoom step by a power of two:
a `double` within `2^-52` of the exact ratio. -/
theorem step_general (n z : ℚ) (hz : 0 < z) (h1 : 1 / 2 ≤ n / z) (h2 : n / z ≤ 2) :
    ∃ s, Double.finite n / Double.finite z = .finite s ∧ |s - n / z| ≤ 1 / 4503599627370496 ∧
      0 ≤ s ∧ s ≤ 2 + 1 / 4503599627370496 := by
  obtain ⟨s, hs, hse⟩ := Double.round_abs_error (n / z) 1 (by norm_num) (by norm_num)
    (by
      have h4 : (2 : ℚ) ^ (1 + 1 : ℤ) = 4 := by norm_num
      rw [h4, abs_lt]
      constructor <;> linarith)
  have h52 : (2 : ℚ) ^ (1 - 53 : ℤ) = 1 / 4503599627370496 := by norm_num
  rw [h52] at hse
  have hse' := abs_le.mp hse
  exact ⟨s, by rw [Double.finite_div_finite _ _ hz.ne']; exact hs, hse, by linarith, by linarith⟩

/-- One coordinate of the new centre offset of `zoom` for a step factor s within
`2^-52` of the exact ratio q: `p + R - c` for a whole number R within
`1/2 + 2^-21` of `(c + o - p) * q`. -/
theorem coord_general (c o p : ℤ) (s q : ℚ) (hc : |c| ≤ 134217728) (ho : |o| ≤ 134217728)
    (hp : |p| ≤ 134217728) (hs0 : 0 ≤ s) (hs2 : s ≤ 2 + 1 / 4503599627370496)
    (hsq : |s - q| ≤ 1 / 4503599627370496) :
    ∃ R : ℤ,
      toInt32 (toInt32 (p + qRound (Double.ofInt (toInt32 (toInt32 (c + o) - p)) * .finite s)) - c)
        = p + R - c ∧
      |(R : ℚ) - ((c + o - p : ℤ) : ℚ) * q| ≤ 1 / 2 + 1 / 2097152 := by
  have hc' := abs_le.mp hc
  have ho' := abs_le.mp ho
  have hp' := abs_le.mp hp
  have h23 : (2 : ℚ) ^ (30 - 53 : ℤ) = 1 / 8388608 := by norm_num
  have h22 : (2 : ℚ) ^ (-22 : ℤ) = 1 / 4194304 := by norm_num
  have h31 : (2 : ℚ) ^ (30 + 1 : ℤ) = 2147483648 := by norm_num
  obtain ⟨d, hd⟩ : ∃ d : ℤ, d = c + o - p := ⟨_, rfl⟩
  have hd1 : -402653184 ≤ d := by omega
  have hd2 : d ≤ 402653184 := by omega
  have hdabs : |(d : ℚ)| ≤ 402653184 := by
    rw [abs_le]
    constructor
    · exact_mod_cast hd1
    · exact_mod_cast hd2
  have hds : |(d : ℚ) * s| ≤ 402653184 * (2 + 1 / 4503599627370496) := by
    rw [abs_mul, abs_of_nonneg hs0]
    exact mul_le_mul hdabs hs2 hs0 (by norm_num)
  have hds' := abs_le.mp hds
  rw [toInt32_of_range (c + o) (by omega) (by omega),
    toInt32_of_range (c + o - p) (by omega) (by omega), ← hd,
    Double.ofInt_eq _ (by rw [abs_lt]; constructor <;> omega), Double.finite_mul_finite]
  obtain ⟨r, hr, hre⟩ := Double.round_abs_error ((d : ℚ) * s) 30 (by norm_num) (by norm_num)
    (by
      rw [h31, abs_lt]
      constructor <;> linarith)
  rw [h23] at hre
  have hre' := abs_le.mp hre
  have hrabs : |r| ≤ 1073741824 := by
    rw [abs_le]
    constructor <;> linarith
  obtain ⟨hq1, hq2⟩ := qRound_abs_error r hrabs
  rw [h22] at hq1
  have hq1' := abs_le.mp hq1
  have hq2' := abs_le.mp hq2
  rw [hr]
  refine ⟨qRound (.finite r), ?_, ?_⟩
  · rw [toInt32_of_range (p + qRound (.finite r)) (by omega) (by omega),
      toInt32_of_range _ (by omega) (by omega)]
  · have hdq : |(d : ℚ) * s - (d : ℚ) * q| ≤ 402653184 * (1 / 4503599627370496) := by
      rw [← mul_sub, abs_mul]
      exact mul_le_mul hdabs hsq (abs_nonneg _) (by norm_num)
    have hdq' := abs_le.mp hdq
    rw [abs_le]
    constructor <;> linarith

theorem pixel_general (p c o R : ℤ) (z n B : ℚ) (hz : 0 < z) (hn : 0 < n)
    (hR : |(R : ℚ) - ((c + o - p : ℤ) : ℚ) * (n / z)| ≤ B) :
    |((p - (c + (p + R - c)) : ℤ) : ℚ) / n - ((p - (c + o) : ℤ) : ℚ) / z| ≤ B / n := by
  have e : ((p - (c + (p + R - c)) : ℤ) : ℚ) / n - ((p - (c + o) : ℤ) : ℚ) / z
      = -((R : ℚ) - ((c + o - p : ℤ) : ℚ) * (n / z)) / n := by
    push_cast
    field_simp
    ring
  rw [e, abs_div, abs_neg, abs_of_pos hn]
  exact div_le_div_of_nonneg_right hR hn.le

/-- One axis of the item pixel at the zoom point, for a step factor s within
`2^-52` of the exact ratio `n / z`: the pixel moves by at most
`(1/2 + 2^-21) / n`. -/
theorem axis_general (c o p : ℤ) (s z n : ℚ) (hz : 0 < z) (hn : 0 < n)
    (hc : |c| ≤ 134217728) (ho : |o| ≤ 134217728) (hp : |p| ≤ 134217728)
    (hs0 : 0 ≤ s) (hs2 : s ≤ 2 + 1 / 4503599627370496)
    (hsq : |s - n / z| ≤ 1 / 4503599627370496) :
    |((p - (c + toInt32 (toInt32 (p + qRound (Double.ofInt (toInt32 (toInt32 (c + o) - p))
          * .finite s)) - c)) : ℤ) : ℚ) / n
      - ((p - (c + o) : ℤ) : ℚ) / z| ≤ (1 / 2 + 1 / 2097152) / n := by
  obtain ⟨R, hR, hRe⟩ := coord_general c o p s (n / z) hc ho hp hs0 hs2 hsq
  rw [hR]
  exact pixel_general p c o R z n _ hz hn hRe

/-- One axis of the item pixel at the zoom point when the zoom factor is doubled:
the pixel is the same. -/
theorem axis_in (c o p k : ℤ) (hc : |c| ≤ 134217728) (ho : |o| ≤ 134217728)
    (hp : |p| ≤ 134217728) :
    ((p - (c + toInt32 (toInt32 (p + qRound (Double.ofInt (toInt32 (toInt32 (c + o) - p))
          * .finite 2)) - c)) : ℤ) : ℚ) / 2 ^ (k + 1)
      = ((p - (c + o) : ℤ) : ℚ) / 2 ^ k := by
  rw [coord_in c o p hc ho hp]
  exact pixel_in p c o k

/-- One axis of the item pixel at the zoom point when the zoom factor is halved:
the pixel moves by at most `1 / (2 * newZoom)`. -/
theorem axis_out (c o p k : ℤ) (hc : |c| ≤ 134217728) (ho : |o| ≤ 134217728)
    (hp : |p| ≤ 134217728) :
    |((p - (c + toInt32 (toInt32 (p + qRound (Double.ofInt (toInt32 (toInt32 (c + o) - p))
          * .finite (1 / 2))) - c)) : ℤ) : ℚ) / 2 ^ (k - 1)
      - ((p - (c + o) : ℤ) : ℚ) / 2 ^ k| ≤ 1 / (2 * 2 ^ (k - 1)) := by
  rw [coord_out c o p hc ho hp]
  exact pixel_out p c o k

/-- The new zoom factor of a zoom step in or out from a zoom factor z in
`2^-1073 .. 2^1022`: a power of two `2^j` with `1/2 <= 2^j / z <= 2`; from
`z = 2^k` it is `2^(k+1)` and `2^(k-1)`. -/
theorem zoom_step_spec (zoomMode : ZoomMode) (hmode : zoomMode = .ZOOM_IN ∨ zoomMode = .ZOOM_OUT)
    (z : ℚ) (hz1 : (2 : ℚ) ^ (-1073 : ℤ) ≤ z) (hz2 : z ≤ 2 ^ (1022 : ℤ)) :
    ∃ (j : ℤ) (N : Nat), 1 / 2 ≤ (2 : ℚ) ^ j / z ∧ (2 : ℚ) ^ j / z ≤ 2 ∧
      (∀ k : ℤ, z = 2 ^ k → (zoomMode = .ZOOM_IN → j = k + 1) ∧ (zoomMode = .ZOOM_OUT → j = k - 1)) ∧
      ∀ fuel newZoomFactor, N ≤ fuel →
        zoomNewZoom fuel zoomMode (.finite z) newZoomFactor = some (.finite (2 ^ j)) := by
  have hz : 0 < z := lt_of_lt_of_le (two_zpow_pos _) hz1
  rcases hmode with hm | hm
  · subst hm
    obtain ⟨j, N, hlt, hle, h⟩ := zoomNewZoom_in z
      (le_trans (two_zpow_le (by norm_num)) hz1)
      (lt_of_le_of_lt hz2 (two_zpow_lt (by norm_num)))
    have hj : (2 : ℚ) ^ j = 2 * 2 ^ (j - 1) := by
      rw [two_zpow_pred]
      ring
    refine ⟨j, N, ?_, ?_, ?_, h⟩
    · rw [le_div_iff₀ hz]
      linarith
    · rw [div_le_iff₀ hz]
      linarith
    · intro k hk
      subst hk
      have h1 : k < j := two_zpow_lt_iff.mp hlt
      have h2 : j - 1 ≤ k := two_zpow_le_iff.mp hle
      refine ⟨fun _ => ?_, fun hc => ?_⟩
      · omega
      · cases hc
  · subst hm
    obtain ⟨j, N, hlt, hle, h⟩ := zoomNewZoom_out z
      (lt_of_lt_of_le (two_zpow_lt (by norm_num)) hz1)
      (le_trans hz2 (two_zpow_le (by norm_num)))
    have hj : (2 : ℚ) ^ (j + 1) = 2 * 2 ^ j := two_zpow_succ j
    refine ⟨j, N, ?_, ?_, ?_, h⟩
    · rw [le_div_iff₀ hz]
      linarith
    · rw [div_le_iff₀ hz]
      linarith
    · intro k hk
      subst hk
      have h1 : j < k := two_zpow_lt_iff.mp hlt
      have h2 : k ≤ j + 1 := two_zpow_le_iff.mp hle
      refine ⟨fun hc => ?_, fun _ => ?_⟩
      · cases hc
      · omega

end ZoomAxis


section ZoomPointClaims

open Views

theorem zoomApply_centerOffset_finite (n z s : ℚ) (zoomPoint : QPoint) (v : Views)
    (hp : zoomPoint.isNull = false) (hz : v.widget.zoomFactor = .finite z)
    (hs : Double.finite n / Double.finite z = .finite s) :
    (zoomApply (.finite n) zoomPoint v).widget.centerOffset
      = ⟨toInt32 (toInt32 (zoomPoint.x + qRound (Double.ofInt (toInt32 (toInt32
            ((zoomCenterPoint zoomPoint v.widget).x + v.widget.centerOffset.x) - zoomPoint.x))
            * .finite s)) - (zoomCenterPoint zoomPoint v.widget).x),
         toInt32 (toInt32 (zoomPoint.y + qRound (Double.ofInt (toInt32 (toInt32
            ((zoomCenterPoint zoomPoint v.widget).y + v.widget.centerOffset.y) - zoomPoint.y))
            * .finite s)) - (zoomCenterPoint zoomPoint v.widget).y)⟩ := by
  rw [zoomApply_centerOffset _ _ _ hp, hz, hs]
  rfl

/-- The result of a zoom step in or out from a zoom factor `2^k`, with the new
centre offset written out. -/
theorem zoom_pow_explicit (zoomPoint : QPoint) (newZoomFactor : Double) (v : Views) (k : ℤ)
    (hp : zoomPoint.isNull = false) (hz : v.widget.zoomFactor = .finite (2 ^ k))
    (hk1 : -1073 ≤ k) (hk2 : k ≤ 1022)
    (hpx : |zoomPoint.x| ≤ 134217728) (hpy : |zoomPoint.y| ≤ 134217728)
    (hox : |v.widget.centerOffset.x| ≤ 134217728) (hoy : |v.widget.centerOffset.y| ≤ 134217728)
    (hcx : |(zoomCenterPoint zoomPoint v.widget).x| ≤ 134217728)
    (hcy : |(zoomCenterPoint zoomPoint v.widget).y| ≤ 134217728) :
    (∃ N : Nat, ∀ fuel, N ≤ fuel →
      zoom fuel .ZOOM_IN zoomPoint newZoomFactor v
        = some (zoomApply (.finite (2 ^ (k + 1))) zoomPoint v)) ∧
    (zoomApply (.finite (2 ^ (k + 1))) zoomPoint v).widget.centerOffset
      = ⟨zoomPoint.x + 2 * ((zoomCenterPoint zoomPoint v.widget).x + v.widget.centerOffset.x
            - zoomPoint.x) - (zoomCenterPoint zoomPoint v.widget).x,
         zoomPoint.y + 2 * ((zoomCenterPoint zoomPoint v.widget).y + v.widget.centerOffset.y
            - zoomPoint.y) - (zoomCenterPoint zoomPoint v.widget).y⟩ ∧
    (∃ N : Nat, ∀ fuel, N ≤ fuel →
      zoom fuel .ZOOM_OUT zoomPoint newZoomFactor v
        = some (zoomApply (.finite (2 ^ (k - 1))) zoomPoint v)) ∧
    (zoomApply (.finite (2 ^ (k - 1))) zoomPoint v).widget.centerOffset
      = ⟨zoomPoint.x + ((zoomCenterPoint zoomPoint v.widget).x + v.widget.centerOffset.x
            - zoomPoint.x + 1) / 2 - (zoomCenterPoint zoomPoint v.widget).x,
         zoomPoint.y + ((zoomCenterPoint zoomPoint v.widget).y + v.widget.centerOffset.y
            - zoomPoint.y + 1) / 2 - (zoomCenterPoint zoomPoint v.widget).y⟩ := by
  obtain ⟨N1, h1⟩ := zoomNewZoom_in_pow k (by omega) hk2
  obtain ⟨N2, h2⟩ := zoomNewZoom_out_pow k hk1 (by omega)
  refine ⟨⟨N1, fun fuel hfuel => ?_⟩, ?_, ⟨N2, fun fuel hfuel => ?_⟩, ?_⟩
  · exact zoom_of_newZoom fuel .ZOOM_IN zoomPoint newZoomFactor v _
      (by rw [hz]; exact h1 fuel newZoomFactor hfuel)
  · rw [zoomApply_centerOffset_finite _ _ _ _ _ hp hz (step_in k), coord_in _ _ _ hcx hox hpx,
      coord_in _ _ _ hcy hoy hpy]
  · exact zoom_of_newZoom fuel .ZOOM_OUT zoomPoint newZoomFactor v _
      (by rw [hz]; exact h2 fuel newZoomFactor hfuel)
  · rw [zoomApply_centerOffset_finite _ _ _ _ _ hp hz (step_out k), coord_out _ _ _ hcx hox hpx,
      coord_out _ _ _ hcy hoy hpy]

/-- The samples of C15. Zooming out of a new 100 x 100 widget at the point
(49, 50), one pixel left of the centre, leaves the centre offset at (0, 0), so
the item pixel shown at (49, 50) changes from (-1, 0) to (-2, 0). In
side-by-side mode on 100 x 100 pixels (split at column 50), zooming in at the
point (50, 50), the first column of the right part, moves the centre offset by
the centre of the left part: the item pixel shown at (50, 50) changes from
(-25, 0) to (0, 0). -/
theorem zoom_moves_pixel_at_zoomPoint :
    itemPixelShown ⟨49, 50⟩ sampleViews.widget = some (-1, 0) ∧
    (∃ N : Nat, ∀ fuel, N ≤ fuel →
      (zoom fuel .ZOOM_OUT ⟨49, 50⟩ 0 sampleViews).bind
        (fun v' => itemPixelShown ⟨49, 50⟩ v'.widget) = some (-2, 0)) ∧
    itemPixelShown ⟨50, 50⟩ (sampleSideBySide 100 100).widget = some (-25, 0) ∧
    (∃ N : Nat, ∀ fuel, N ≤ fuel →
      (zoom fuel .ZOOM_IN ⟨50, 50⟩ 0 (sampleSideBySide 100 100)).bind
        (fun v' => itemPixelShown ⟨50, 50⟩ v'.widget) = some (0, 0)) := by
  have hd : (⟨100, 100⟩ : QPoint).divReal (Double.ofInt 2) = ⟨50, 50⟩ := by
    rw [divReal_two ⟨100, 100⟩ (by show |(100 : ℤ)| ≤ _; norm_num)
      (by show |(100 : ℤ)| ≤ _; norm_num)]
    rfl
  -- the widget with splitting disabled
  have hc1 : zoomCenterPoint ⟨49, 50⟩ sampleViews.widget = ⟨50, 50⟩ := by
    have hm : sampleViews.widget.viewSplitMode = .DISABLED := rfl
    have hw : sampleViews.widget.width = 100 := rfl
    have hh : sampleViews.widget.height = 100 := rfl
    simp only [zoomCenterPoint, hm, hw, hh, hd, reduceCtorEq, ↓reduceIte]
  have hp1 : paintCenterPoint ⟨49, 50⟩ sampleViews.widget = ⟨50, 50⟩ := by
    rw [← zoomCenterPoint_eq_paintCenterPoint _ _ (fun h => absurd h (by decide)), hc1]
  have hz1 : sampleViews.widget.zoomFactor = .finite (2 ^ (0 : ℤ)) := by
    show (1 : Double) = _
    rw [Double.one_def, zpow_zero]
  have ho1 : sampleViews.widget.centerOffset = ⟨0, 0⟩ := rfl
  obtain ⟨_, _, ⟨N1, hzoom1⟩, hoff1⟩ := zoom_pow_explicit ⟨49, 50⟩ 0 sampleViews 0 rfl hz1
    (by norm_num) (by norm_num) (by show |(49 : ℤ)| ≤ _; norm_num)
    (by show |(50 : ℤ)| ≤ _; norm_num) (by show |(0 : ℤ)| ≤ _; norm_num)
    (by show |(0 : ℤ)| ≤ _; norm_num) (by rw [hc1]; show |(50 : ℤ)| ≤ _; norm_num)
    (by rw [hc1]; show |(50 : ℤ)| ≤ _; norm_num)
  rw [hc1, ho1] at hoff1
  -- the widget in side-by-side mode
  have hx : (sampleSideBySide 100 100).widget.xSplit = 50 := by
    rw [xSplit_of_half _ 100 rfl rfl (by norm_num) (by norm_num)]
    decide
  have hm2 : (sampleSideBySide 100 100).widget.viewSplitMode = .SIDE_BY_SIDE := rfl
  have hw2 : (sampleSideBySide 100 100).widget.width = 100 := rfl
  have hh2 : (sampleSideBySide 100 100).widget.height = 100 := rfl
  have hc2 : zoomCenterPoint ⟨50, 50⟩ (sampleSideBySide 100 100).widget = ⟨25, 50⟩ := by
    simp only [zoomCenterPoint, hm2, hw2, hh2, hx, ↓reduceIte]
    decide
  have hp2 : paintCenterPoint ⟨50, 50⟩ (sampleSideBySide 100 100).widget = ⟨75, 50⟩ := by
    simp only [paintCenterPoint, hm2, hw2, hh2, hx, reduceCtorEq, or_self, ↓reduceIte]
    decide
  have hz2 : (sampleSideBySide 100 100).widget.zoomFactor = .finite (2 ^ (0 : ℤ)) := by
    show (1 : Double) = _
    rw [Double.one_def, zpow_zero]
  have ho2 : (sampleSideBySide 100 100).widget.centerOffset = ⟨0, 0⟩ := rfl
  obtain ⟨⟨N2, hzoom2⟩, hoff2, _, _⟩ := zoom_pow_explicit ⟨50, 50⟩ 0 (sampleSideBySide 100 100) 0
    rfl hz2 (by norm_num) (by norm_num) (by show |(50 : ℤ)| ≤ _; norm_num)
    (by show |(50 : ℤ)| ≤ _; norm_num) (by show |(0 : ℤ)| ≤ _; norm_num)
    (by show |(0 : ℤ)| ≤ _; norm_num) (by rw [hc2]; show |(25 : ℤ)| ≤ _; norm_num)
    (by rw [hc2]; show |(50 : ℤ)| ≤ _; norm_num)
  rw [hc2, ho2] at hoff2
  refine ⟨?_, ⟨N1, fun fuel hfuel => ?_⟩, ?_, ⟨N2, fun fuel hfuel => ?_⟩⟩
  · simp only [itemPixelShown, hz1, hp1, ho1, itemPixelAt]
    norm_num
  · rw [hzoom1 fuel hfuel, Option.some_bind]
    simp only [itemPixelShown, zoomApply_zoomFactor, zoomApply_paintCenterPoint, hp1, hoff1,
      itemPixelAt]
    norm_num
  · simp only [itemPixelShown, hz2, hp2, ho2, itemPixelAt]
    norm_num
  · rw [hzoom2 fuel hfuel, Option.some_bind]
    simp only [itemPixelShown, zoomApply_zoomFactor, zoomApply_paintCenterPoint, hp2, hoff2,
      itemPixelAt]
    norm_num

/-- C15 (amended): for every zoom step in or out (`ZOOM_IN`, `ZOOM_OUT`) with a
non-null zoom point, from a zoom factor z with `2^-1073 <= z <= 2^1022`, on a
widget of at most `2^27` pixels per axis, with the coordinates of the zoom
point and of the centre offset of magnitude at most `2^27`, and in side-by-side
mode with `0 <= xSplit <= width` and the zoom point not in the column
`xSplit`: `zoom` run with enough steps returns with a positive zoom factor n,
the centre point of the part painted at the zoom point is unchanged, and on
each axis the item pixel shown at the zoom point,
`(zoomPoint - (centerPoint + centerOffset)) / zoomFactor`, moves by at most
`(1/2 + 2^-21) / n`, about half a screen pixel; from a zoom factor that is a
power of two it moves by at most `1 / (2 * n)`, and it is exactly the same
before and after `ZOOM_IN`. -/
theorem zoom_keeps_pixel_up_to_rounding (zoomMode : ZoomMode) (zoomPoint : QPoint)
    (newZoomFactor : Double) (v : Views) (z : ℚ)
    (hmode : zoomMode = .ZOOM_IN ∨ zoomMode = .ZOOM_OUT)
    (hp : zoomPoint.isNull = false)
    (hz : v.widget.zoomFactor = .finite z)
    (hz1 : (2 : ℚ) ^ (-1073 : ℤ) ≤ z) (hz2 : z ≤ 2 ^ (1022 : ℤ))
    (hpx : |zoomPoint.x| ≤ 134217728) (hpy : |zoomPoint.y| ≤ 134217728)
    (hox : |v.widget.centerOffset.x| ≤ 134217728) (hoy : |v.widget.centerOffset.y| ≤ 134217728)
    (hw : 0 ≤ v.widget.width ∧ v.widget.width ≤ 134217728)
    (hh : 0 ≤ v.widget.height ∧ v.widget.height ≤ 134217728)
    (hs : v.widget.viewSplitMode = .SIDE_BY_SIDE →
      zoomPoint.x ≠ v.widget.xSplit ∧ 0 ≤ v.widget.xSplit ∧ v.widget.xSplit ≤ v.widget.width) :
    ∃ N : Nat, ∀ fuel, N ≤ fuel →
      ∃ (v' : Views) (n : ℚ) (a b : ℚ × ℚ),
        zoom fuel zoomMode zoomPoint newZoomFactor v = some v' ∧
        v'.widget.zoomFactor = .finite n ∧ 0 < n ∧
        paintCenterPoint zoomPoint v'.widget = paintCenterPoint zoomPoint v.widget ∧
        itemPixelShown zoomPoint v.widget = some a ∧
        itemPixelShown zoomPoint v'.widget = some b ∧
        |b.1 - a.1| ≤ (1 / 2 + 1 / 2097152) / n ∧
        |b.2 - a.2| ≤ (1 / 2 + 1 / 2097152) / n ∧
        ∀ k : ℤ, z = 2 ^ k →
          |b.1 - a.1| ≤ 1 / (2 * n) ∧ |b.2 - a.2| ≤ 1 / (2 * n) ∧
          (zoomMode = .ZOOM_IN → b = a) := by
  have hzpos : 0 < z := lt_of_lt_of_le (two_zpow_pos _) hz1
  obtain ⟨j, N, hq1, hq2, hpow, hloop⟩ := zoom_step_spec zoomMode hmode z hz1 hz2
  obtain ⟨s, hs_eq, hse, hs0, hs2⟩ := step_general (2 ^ j) z hzpos hq1 hq2
  have hceq := zoomCenterPoint_eq_paintCenterPoint zoomPoint v.widget (fun hm => (hs hm).1)
  obtain ⟨hcx, hcy⟩ := zoomCenterPoint_bounds zoomPoint v.widget hw hh (fun hm => (hs hm).2)
  have hjpos := two_zpow_pos j
  refine ⟨N, fun fuel hfuel => ?_⟩
  have hzoom := zoom_of_newZoom fuel zoomMode zoomPoint newZoomFactor v (.finite (2 ^ j))
    (by rw [hz]; exact hloop fuel newZoomFactor hfuel)
  have hoff := zoomApply_centerOffset_finite (2 ^ j) z s zoomPoint v hp hz hs_eq
  refine ⟨zoomApply (.finite (2 ^ j)) zoomPoint v, 2 ^ j,
    itemPixelAt (paintCenterPoint zoomPoint v.widget) zoomPoint v.widget.centerOffset z,
    itemPixelAt (paintCenterPoint zoomPoint v.widget) zoomPoint
      (zoomApply (.finite (2 ^ j)) zoomPoint v).widget.centerOffset (2 ^ j),
    hzoom, rfl, hjpos, zoomApply_paintCenterPoint _ _ _, ?_, ?_, ?_, ?_, ?_⟩
  · simp only [itemPixelShown, hz]
  · simp only [itemPixelShown, zoomApply_zoomFactor, zoomApply_paintCenterPoint]
  · rw [hoff, ← hceq]
    exact axis_general _ _ _ s z (2 ^ j) hzpos hjpos hcx hox hpx hs0 hs2 hse
  · rw [hoff, ← hceq]
    exact axis_general _ _ _ s z (2 ^ j) hzpos hjpos hcy hoy hpy hs0 hs2 hse
  · intro k hk
    subst hk
    obtain ⟨hin, hout⟩ := hpow k rfl
    rw [hoff, ← hceq]
    rcases hmode with hm | hm
    · have hj := hin hm
      subst hj
      have hs' : s = 2 := by
        have h := step_in k
        rw [hs_eq] at h
        exact Double.finite.inj h
      subst hs'
      have ex := axis_in (zoomCenterPoint zoomPoint v.widget).x v.widget.centerOffset.x zoomPoint.x k
        hcx hox hpx
      have ey := axis_in (zoomCenterPoint zoomPoint v.widget).y v.widget.centerOffset.y zoomPoint.y k
        hcy hoy hpy
      have hb : itemPixelAt (zoomCenterPoint zoomPoint v.widget) zoomPoint
          ⟨toInt32 (toInt32 (zoomPoint.x + qRound (Double.ofInt (toInt32 (toInt32
            ((zoomCenterPoint zoomPoint v.widget).x + v.widget.centerOffset.x) - zoomPoint.x))
            * .finite 2)) - (zoomCenterPoint zoomPoint v.widget).x),
           toInt32 (toInt32 (zoomPoint.y + qRound (Double.ofInt (toInt32 (toInt32
            ((zoomCenterPoint zoomPoint v.widget).y + v.widget.centerOffset.y) - zoomPoint.y))
            * .finite 2)) - (zoomCenterPoint zoomPoint v.widget).y)⟩ (2 ^ (k + 1))
          = itemPixelAt (zoomCenterPoint zoomPoint v.widget) zoomPoint v.widget.centerOffset
              (2 ^ k) := Prod.ext ex ey
      rw [hb]
      refine ⟨?_, ?_, fun _ => rfl⟩
      · rw [sub_self, abs_zero]
        positivity
      · rw [sub_self, abs_zero]
        positivity
    · have hj := hout hm
      subst hj
      have hs' : s = 1 / 2 := by
        have h := step_out k
        rw [hs_eq] at h
        exact Double.finite.inj h
      subst hs'
      refine ⟨?_, ?_, fun hc => ?_⟩
      · exact axis_out _ _ _ k hcx hox hpx
      · exact axis_out _ _ _ k hcy hoy hpy
      · rw [hm] at hc
        cases hc

theorem zoom_keeps_pixel_up_to_rounding_witness :
    ∃ N : Nat, ∀ fuel, N ≤ fuel →
      ∃ (v' : Views) (n : ℚ) (a b : ℚ × ℚ),
        zoom fuel .ZOOM_OUT ⟨49, 50⟩ 0 sampleViews = some v' ∧
        v'.widget.zoomFactor = .finite n ∧ 0 < n ∧
        paintCenterPoint ⟨49, 50⟩ v'.widget = paintCenterPoint ⟨49, 50⟩ sampleViews.widget ∧
        itemPixelShown ⟨49, 50⟩ sampleViews.widget = some a ∧
        itemPixelShown ⟨49, 50⟩ v'.widget = some b ∧
        |b.1 - a.1| ≤ (1 / 2 + 1 / 2097152) / n ∧
        |b.2 - a.2| ≤ (1 / 2 + 1 / 2097152) / n ∧
        ∀ k : ℤ, (1 : ℚ) = 2 ^ k →
          |b.1 - a.1| ≤ 1 / (2 * n) ∧ |b.2 - a.2| ≤ 1 / (2 * n) ∧
          (ZoomMode.ZOOM_OUT = .ZOOM_IN → b = a) :=
  zoom_keeps_pixel_up_to_rounding .ZOOM_OUT ⟨49, 50⟩ 0 sampleViews 1 (Or.inr rfl) rfl
    (by show (1 : Double) = _; exact Double.one_def)
    (by
      have h := two_zpow_le (by norm_num : (-1073 : ℤ) ≤ 0)
      simpa using h)
    (by
      have h := two_zpow_le (by norm_num : (0 : ℤ) ≤ 1022)
      simpa using h)
    (by show |(49 : ℤ)| ≤ _; norm_num) (by show |(50 : ℤ)| ≤ _; norm_num)
    (by show |(0 : ℤ)| ≤ _; norm_num) (by show |(0 : ℤ)| ≤ _; norm_num)
    (by show (0 : ℤ) ≤ 100 ∧ (100 : ℤ) ≤ 134217728; norm_num)
    (by show (0 : ℤ) ≤ 100 ∧ (100 : ℤ) ≤ 134217728; norm_num)
    (fun h => absurd h (by decide))

end ZoomPointClaims


end YUView
